import Mathlib

/-!
SNOW whitespace steganography: a shallow embedding.

The development models the bit pipeline of the `snow` program
(`main.c`, `compress.c`, `encrypt.c`, `encode.c`).

Conventions of the embedding.

* A text file is the list of the strings that successive `fgets` calls
  return; a string is the list of its characters before the terminating NUL.
  `wsputs` appends one string to the output file; the newline it adds is
  implicit in the list structure.  `fgets_read` gives the strings that
  `fgets (buf, BUFSIZ, fp)` returns when the file written is read back: a
  line of `BUFSIZ - 1` characters comes back apart from its newline.
* `BUFSIZ` comes from `stdio.h` and is a parameter.  The string held in the
  array `encode_buffer[BUFSIZ]` is a list, on which an append never fails.
  The program stores into the array under no test but `col < line_length`,
  and `main.c` accepts every `-l` of 8 or more: the statements about whole
  runs take `line_length <= BUFSIZ - 1` and cover strings of at most
  `BUFSIZ - 1` characters, as `fgets` returns them, and show that the
  string then never outgrows the array (`embed_lines_fit`); a run beyond
  that bound is shown in `full_cover_overrun`.
* Bits are `Bool`; every producer of a bit in the program yields 0 or 1.
* Lengths, columns and counters are `Nat`: they start at 0 and only grow.
* File writes are assumed to succeed.  Messages on stderr are not modelled,
  so `quiet_flag` does not appear.
* The `while` loops of `encode_write_value` may run forever; they take a
  fuel argument bounding the number of iterations, and report `looping`
  together with the state reached when the fuel is used up.
* `ice_key_encrypt` and the table `huffcodes` are not part of the sources
  at hand and are parameters.
-/

namespace Snow

/-! ## Outcomes -/

/-- Reasons for which a routine returns FALSE. -/
inductive Err where
  | illegal_huffman_character (c : Char)
  | illegal_encoding (spc : Nat)
  | huffman_overflow
  deriving DecidableEq, Repr

/-- Result of running a routine from some state: it returned TRUE, it
returned FALSE after reporting an error, or it was still inside a loop when
the fuel ran out.  In each case the state reached is recorded. -/
inductive Outcome (σ : Type) where
  | ok (s : σ)
  | failed (e : Err) (s : σ)
  | looping (s : σ)

/-- The state carried by an outcome. -/
def Outcome.state {σ : Type} : Outcome σ → σ
  | .ok s => s
  | .failed _ s => s
  | .looping s => s

/-- Sequencing: continue only after a TRUE return. -/
def Outcome.andThen {σ : Type} (o : Outcome σ) (f : σ → Outcome σ) : Outcome σ :=
  match o with
  | .ok s => f s
  | .failed e s => .failed e s
  | .looping s => .looping s

/-- Transport of the carried state. -/
def Outcome.map {σ τ : Type} (g : σ → τ) : Outcome σ → Outcome τ
  | .ok s => .ok (g s)
  | .failed e s => .failed e (g s)
  | .looping s => .looping (g s)

/-- The routine returned TRUE. -/
def Outcome.isOk {σ : Type} : Outcome σ → Bool
  | .ok _ => true
  | _ => false

/-! ## Characters and lines -/

/-- The characters `wsgets` strips from the end of a line. -/
def is_strip_char (c : Char) : Bool :=
  c == ' ' || c == '\t' || c == '\n' || c == '\r'

/-- A space or a tab. -/
def is_blank (c : Char) : Bool :=
  c == ' ' || c == '\t'

/-- The characters at which the line scan of `message_extract` stops. -/
def is_line_end (c : Char) : Bool :=
  c == '\x00' || c == '\n' || c == '\r'

/-- `tabpos`: `(n + 8) & ~7`, the least multiple of 8 above `n`. -/
def tabpos (n : Nat) : Nat :=
  (n + 8) / 8 * 8

/-- The string left in `buf` by `wsgets` after a successful `fgets`:
trailing spaces, tabs, LF and CR are overwritten by NUL from the end. -/
def ws_strip (buf : List Char) : List Char :=
  buf.rdropWhile is_strip_char

/-- `wsgets`: read the next line and strip it; `none` at end of file. -/
def wsgets (fp : List (List Char)) : Option (List Char × List (List Char)) :=
  match fp with
  | [] => none
  | l :: rest => some (ws_strip l, rest)

/-- `whitespace_storage`: add to the pair `(n_lo, n_hi)` the approximate
number of bits that fit in the line `buf`.  The guard `len > line_length - 2`
is written without subtraction. -/
def whitespace_storage (line_length : Nat) (buf : List Char) (n : Nat × Nat) : Nat × Nat :=
  let len := buf.length
  if len + 2 > line_length then n
  else if len / 8 = line_length / 8 then (n.1, n.2 + 3)
  else
    let n_hi1 := if len % 8 > 0 then n.2 + 3 else n.2
    let len1 := if len % 8 > 0 then tabpos len else len
    let n_hi2 := if line_length % 8 > 0 then n_hi1 + 3 else n_hi1
    let k := ((line_length - len1) / 8) * 3
    (n.1 + k, n_hi2 + k)

/-! ## encode.c: the whitespace encoder -/

/-- The static variables of `encode.c` together with the two files the
encoder works on: `inf` holds the cover lines not yet read, `outf` the
lines written so far.  `encode_buffer` is the string in the array
`char encode_buffer[BUFSIZ]`, its characters before the NUL; the list has
no bound of its own, and it stands for the array as long as it has at most
`BUFSIZ - 1` characters. -/
structure EncodeState where
  encode_bit_count : Nat
  encode_value : Nat
  encode_buffer : List Char
  encode_buffer_loaded : Bool
  encode_buffer_length : Nat
  encode_buffer_column : Nat
  encode_first_tab : Bool
  encode_needs_tab : Bool
  encode_bits_used : Nat
  encode_bits_available : Nat
  encode_lines_extra : Nat
  inf : List (List Char)
  outf : List (List Char)

/-- State at program start: statics are zero, nothing read or written. -/
def EncodeState.start (cover : List (List Char)) : EncodeState :=
  { encode_bit_count := 0, encode_value := 0, encode_buffer := [],
    encode_buffer_loaded := false, encode_buffer_length := 0,
    encode_buffer_column := 0, encode_first_tab := false,
    encode_needs_tab := false, encode_bits_used := 0,
    encode_bits_available := 0, encode_lines_extra := 0,
    inf := cover, outf := [] }

/-- `wsputs (encode_buffer, outf)`. -/
def wsputs_buffer (s : EncodeState) : EncodeState :=
  { s with outf := s.outf ++ [s.encode_buffer] }

/-- Column reached after the characters of a string, starting from `col`:
the loop of `encode_buffer_load`. -/
def column_after (col : Nat) : List Char → Nat
  | [] => col
  | c :: cs => column_after (if c = '\t' then tabpos col else col + 1) cs

/-- `encode_buffer_load`. -/
def encode_buffer_load (s : EncodeState) : EncodeState :=
  match wsgets s.inf with
  | none =>
    { s with encode_buffer := [], encode_lines_extra := s.encode_lines_extra + 1,
             encode_buffer_length := 0, encode_buffer_column := 0,
             encode_buffer_loaded := true, encode_needs_tab := false }
  | some (buf, rest) =>
    { s with encode_buffer := buf, inf := rest,
             encode_buffer_length := buf.length,
             encode_buffer_column := column_after 0 buf,
             encode_buffer_loaded := true, encode_needs_tab := false }

/-- Append one tab to the buffer, as done three times in `encode.c`:
`encode_buffer[encode_buffer_length++] = '\t'` and the column update. -/
def append_tab (s : EncodeState) : EncodeState :=
  { s with encode_buffer := s.encode_buffer ++ ['\t'],
           encode_buffer_length := s.encode_buffer_length + 1,
           encode_buffer_column := tabpos s.encode_buffer_column }

/-- The `for` loop of `encode_append_whitespace` appending `nsp` spaces. -/
def append_spaces : Nat → EncodeState → EncodeState
  | 0, s => s
  | n + 1, s =>
    append_spaces n
      { s with encode_buffer := s.encode_buffer ++ [' '],
               encode_buffer_length := s.encode_buffer_length + 1,
               encode_buffer_column := s.encode_buffer_column + 1 }

/-- `encode_append_whitespace`: the Boolean result and the state after. -/
def encode_append_whitespace (line_length nsp : Nat) (s : EncodeState) : Bool × EncodeState :=
  let col0 := s.encode_buffer_column
  let col1 := if s.encode_needs_tab then tabpos col0 else col0
  let col := if nsp = 0 then tabpos col1 else col1 + nsp
  if col ≥ line_length then (false, s)
  else
    let s1 := if s.encode_needs_tab then append_tab s else s
    if nsp = 0 then (true, { append_tab s1 with encode_needs_tab := false })
    else (true, { append_spaces nsp s1 with encode_needs_tab := true })

/-- The first `while` loop of `encode_write_value`: write out lines until
one has room for the start tab. -/
def load_until_tab_fits (line_length : Nat) : Nat → EncodeState → Outcome EncodeState
  | 0, s =>
    if tabpos s.encode_buffer_column ≥ line_length then .looping s else .ok s
  | fuel + 1, s =>
    if tabpos s.encode_buffer_column ≥ line_length then
      load_until_tab_fits line_length fuel (encode_buffer_load (wsputs_buffer s))
    else .ok s

/-- The second `while` loop of `encode_write_value`: write out lines until
the whitespace fits. -/
def append_until_fits (line_length nspc : Nat) : Nat → EncodeState → Outcome EncodeState
  | 0, s =>
    match encode_append_whitespace line_length nspc s with
    | (true, s1) => .ok s1
    | (false, s1) => .looping s1
  | fuel + 1, s =>
    match encode_append_whitespace line_length nspc s with
    | (true, s1) => .ok s1
    | (false, s1) =>
      append_until_fits line_length nspc fuel (encode_buffer_load (wsputs_buffer s1))

/-- The space count for a 3-bit value: its bits in reverse order. -/
def reverse_bits (val : Nat) : Nat :=
  ((val &&& 1) <<< 2) ||| (val &&& 2) ||| ((val &&& 4) >>> 2)

/-- `encode_write_value`. -/
def encode_write_value (line_length fuel val : Nat) (s : EncodeState) : Outcome EncodeState :=
  let s1 := if s.encode_buffer_loaded then s else encode_buffer_load s
  let o2 :=
    if s1.encode_first_tab then Outcome.ok s1
    else
      (load_until_tab_fits line_length fuel s1).andThen fun s2 =>
        .ok { append_tab s2 with encode_first_tab := true }
  o2.andThen fun s3 =>
    (append_until_fits line_length (reverse_bits val) fuel s3).andThen fun s4 =>
      .ok (if s4.encode_lines_extra = 0 then
             { s4 with encode_bits_available := s4.encode_bits_available + 3 }
           else s4)

/-- The copy loop of `encode_write_flush` over the unread cover lines. -/
def copy_rest (line_length : Nat) : List (List Char) → Nat × Nat → List (List Char) →
    (Nat × Nat) × List (List Char)
  | [], n, out => (n, out)
  | l :: rest, n, out =>
    copy_rest line_length rest (whitespace_storage line_length (ws_strip l) n)
      (out ++ [ws_strip l])

/-- `encode_write_flush`. -/
def encode_write_flush (line_length : Nat) (s : EncodeState) : EncodeState :=
  let s1 :=
    if s.encode_buffer_loaded then
      { wsputs_buffer s with encode_buffer_loaded := false,
                             encode_buffer_length := 0, encode_buffer_column := 0 }
    else s
  let r := copy_rest line_length s1.inf (0, 0) s1.outf
  { s1 with inf := [], outf := r.2,
            encode_bits_available := s1.encode_bits_available + (r.1.1 + r.1.2) / 2 }

/-- `encode_init`. -/
def encode_init (s : EncodeState) : EncodeState :=
  { s with encode_bit_count := 0, encode_value := 0, encode_buffer_loaded := false,
           encode_buffer_length := 0, encode_buffer_column := 0,
           encode_first_tab := false, encode_bits_used := 0,
           encode_bits_available := 0, encode_lines_extra := 0 }

/-- `encode_bit`. -/
def encode_bit (line_length fuel : Nat) (bit : Bool) (s : EncodeState) : Outcome EncodeState :=
  let s1 := { s with encode_value := (s.encode_value <<< 1) ||| bit.toNat,
                     encode_bits_used := s.encode_bits_used + 1,
                     encode_bit_count := s.encode_bit_count + 1 }
  if s1.encode_bit_count = 3 then
    (encode_write_value line_length fuel s1.encode_value s1).andThen fun s2 =>
      .ok { s2 with encode_value := 0, encode_bit_count := 0 }
  else .ok s1

/-- The padding loop of `encode_flush`; it runs at most three times. -/
def encode_pad : Nat → EncodeState → EncodeState
  | 0, s => s
  | k + 1, s =>
    if s.encode_bit_count < 3 then
      encode_pad k { s with encode_value := s.encode_value <<< 1,
                            encode_bit_count := s.encode_bit_count + 1 }
    else s

/-- `encode_flush`. -/
def encode_flush (line_length fuel : Nat) (s : EncodeState) : Outcome EncodeState :=
  let o :=
    if s.encode_bit_count > 0 then
      let s1 := encode_pad 3 s
      encode_write_value line_length fuel s1.encode_value s1
    else .ok s
  o.andThen fun s2 => .ok (encode_write_flush line_length s2)

/-! ## encrypt.c: ICE in 1-bit cipher feedback mode -/

/-- The static variables of `encrypt.c`.  `ice_key` is `none` for the NULL
pointer; a key that has been set is represented by the block function
`ice_key_encrypt (ice_key, ·, ·)` it determines. -/
structure CryptState where
  ice_key : Option (List Nat → List Nat)
  encrypt_iv_block : List Nat

/-- One pass of the loop body rotating the IV block, at index `i`:
`iv[i] <<= 1` in an unsigned char, then the top bit of `iv[i+1]` is
brought in when `i < 7`. -/
def iv_shift_at (iv : List Nat) (i : Nat) : List Nat :=
  let iv1 := iv.set i ((iv.getD i 0 <<< 1) % 256)
  if i < 7 ∧ (iv1.getD (i + 1) 0 &&& 128) ≠ 0 then iv1.set i (iv1.getD i 0 ||| 1) else iv1

/-- The IV update shared by `encrypt_bit` and `decrypt_bit`: the loop over
the eight bytes, then `encrypt_iv_block[7] |= bit`. -/
def iv_rotate (iv : List Nat) (bit : Bool) : List Nat :=
  let iv1 := (List.range 8).foldl iv_shift_at iv
  iv1.set 7 (iv1.getD 7 0 ||| bit.toNat)

/-- The test `(buf[0] & 128) != 0` on the encrypted IV block. -/
def keystream_bit (E : List Nat → List Nat) (iv : List Nat) : Bool :=
  decide (((E iv).getD 0 0 &&& 128) ≠ 0)

/-- The body of `encrypt_bit` when a key is set, up to the call of
`encode_bit`: the bit passed on and the new IV block. -/
def encrypt_step (E : List Nat → List Nat) (iv : List Nat) (bit : Bool) : Bool × List Nat :=
  let bit1 := if keystream_bit E iv then !bit else bit
  (bit1, iv_rotate iv bit1)

/-- The body of `decrypt_bit` when a key is set, up to the call of
`uncompress_bit`: the bit passed on and the new IV block. -/
def decrypt_step (E : List Nat → List Nat) (iv : List Nat) (bit : Bool) : Bool × List Nat :=
  let nbit := if keystream_bit E iv then !bit else bit
  (nbit, iv_rotate iv bit)

/-! ## compress.c: the Huffman stage of the embedder -/

/-- The static variables of `compress.c` used for compression. -/
structure CompressState where
  compress_bit_count : Nat
  compress_value : Nat
  compress_bits_in : Nat
  compress_bits_out : Nat

/-- Process-wide settings and constants: the globals `compress_flag` and
`line_length` of `main.c`, the table `huffcodes` of `compress.c` (entry `i`
is the code string of byte `i`, for `i < 256`), and the fuel given to each
call of `encode_write_value`. -/
structure Config where
  compress_flag : Bool
  line_length : Nat
  huffcodes : Nat → List Char
  fuel : Nat

/-- The whole state of an embedding run. -/
structure EmbedState where
  comp : CompressState
  crypt : CryptState
  enc : EncodeState

/-- `encrypt_bit`. -/
def encrypt_bit (cfg : Config) (bit : Bool) (st : EmbedState) : Outcome EmbedState :=
  match st.crypt.ice_key with
  | none =>
    (encode_bit cfg.line_length cfg.fuel bit st.enc).map fun e => { st with enc := e }
  | some E =>
    let r := encrypt_step E st.crypt.encrypt_iv_block bit
    (encode_bit cfg.line_length cfg.fuel r.1 st.enc).map fun e =>
      { st with crypt := { st.crypt with encrypt_iv_block := r.2 }, enc := e }

/-- `encrypt_flush`. -/
def encrypt_flush (cfg : Config) (st : EmbedState) : Outcome EmbedState :=
  (encode_flush cfg.line_length cfg.fuel st.enc).map fun e => { st with enc := e }

/-- The loop of `compress_bit` over the characters of a code string. -/
def compress_emit (cfg : Config) : List Char → EmbedState → Outcome EmbedState
  | [], st => .ok st
  | c :: cs, st =>
    if c = '1' ∨ c = '0' then
      (encrypt_bit cfg (decide (c = '1')) st).andThen fun st1 =>
        compress_emit cfg cs
          { st1 with comp := { st1.comp with
              compress_bits_out := st1.comp.compress_bits_out + 1 } }
    else .failed (.illegal_huffman_character c) st

/-- `compress_bit`. -/
def compress_bit (cfg : Config) (bit : Bool) (st : EmbedState) : Outcome EmbedState :=
  if !cfg.compress_flag then encrypt_bit cfg bit st
  else
    let c1 : CompressState :=
      { st.comp with compress_bits_in := st.comp.compress_bits_in + 1,
                     compress_value := (st.comp.compress_value <<< 1) ||| bit.toNat,
                     compress_bit_count := st.comp.compress_bit_count + 1 }
    let st1 := { st with comp := c1 }
    if c1.compress_bit_count = 8 then
      (compress_emit cfg (cfg.huffcodes c1.compress_value) st1).andThen fun st2 =>
        .ok { st2 with comp := { st2.comp with compress_value := 0, compress_bit_count := 0 } }
    else .ok st1

/-- `compress_flush`. -/
def compress_flush (cfg : Config) (st : EmbedState) : Outcome EmbedState :=
  encrypt_flush cfg st

/-- `compress_init`, which calls `encrypt_init` and `encode_init`. -/
def compress_init (st : EmbedState) : EmbedState :=
  { st with comp := { compress_bit_count := 0, compress_value := 0,
                      compress_bits_in := 0, compress_bits_out := 0 },
            enc := encode_init st.enc }

/-! ## main.c: feeding the message -/

/-- The loop of `character_encode` from index `i` on, with `n` iterations
left: bit `i` of `c` counted from the most significant is
`(c & (128 >> i)) != 0`. -/
def character_encode_from (cfg : Config) (c : Nat) : Nat → Nat → EmbedState → Outcome EmbedState
  | 0, _, st => .ok st
  | n + 1, i, st =>
    (compress_bit cfg (decide ((c &&& (128 >>> i)) ≠ 0)) st).andThen
      (character_encode_from cfg c n (i + 1))

/-- `character_encode`. -/
def character_encode (cfg : Config) (c : Nat) (st : EmbedState) : Outcome EmbedState :=
  character_encode_from cfg c 8 0 st

/-- The read loop of `message_fp_encode` over the bytes of the message. -/
def message_loop (cfg : Config) : List Nat → EmbedState → Outcome EmbedState
  | [], st => .ok st
  | c :: cs, st => (character_encode cfg c st).andThen (message_loop cfg cs)

/-- `message_fp_encode`. -/
def message_fp_encode (cfg : Config) (msg : List Nat) (st : EmbedState) : Outcome EmbedState :=
  (message_loop cfg msg (compress_init st)).andThen (compress_flush cfg)

/-- State of an embedding run at program start, after `password_set` has
or has not installed a key. -/
def EmbedState.start (crypt : CryptState) (cover : List (List Char)) : EmbedState :=
  { comp := { compress_bit_count := 0, compress_value := 0,
              compress_bits_in := 0, compress_bits_out := 0 },
    crypt := crypt, enc := EncodeState.start cover }

/-- Embedding a message: the run of `message_fp_encode` from program start. -/
def embed (cfg : Config) (crypt : CryptState) (msg : List Nat) (cover : List (List Char)) :
    Outcome EmbedState :=
  message_fp_encode cfg msg (EmbedState.start crypt cover)

/-- The lines of the stego file written by an embedding run. -/
def embed_lines (cfg : Config) (crypt : CryptState) (msg : List Nat)
    (cover : List (List Char)) : List (List Char) :=
  (embed cfg crypt msg cover).state.enc.outf

/-! ## Extraction: compress.c output and uncompression -/

/-- The static variables of the extraction side of `compress.c` and the
bytes written to the output file. -/
structure DecodeState where
  uncompress_bit_count : Nat
  uncompress_value : List Char
  output_bit_count : Nat
  output_value : Nat
  outf : List Nat

/-- The whole state of an extraction run. -/
structure ExtractState where
  crypt : CryptState
  dec : DecodeState

/-- `output_bit`; `fputc` writes its argument converted to unsigned char. -/
def output_bit (bit : Bool) (st : DecodeState) : Outcome DecodeState :=
  let v := (st.output_value <<< 1) ||| bit.toNat
  if st.output_bit_count + 1 = 8 then
    .ok { st with outf := st.outf ++ [v % 256], output_value := 0, output_bit_count := 0 }
  else .ok { st with output_value := v, output_bit_count := st.output_bit_count + 1 }

/-- `huffcode_find`: index of the first table entry equal to `str`. -/
def huffcode_find (huffcodes : Nat → List Char) (str : List Char) : Option Nat :=
  (List.range 256).find? fun i => decide (str = huffcodes i)

/-- The output loop of `uncompress_bit` over the eight bits of `code`. -/
def output_code (code : Nat) : Nat → Nat → DecodeState → Outcome DecodeState
  | 0, _, st => .ok st
  | n + 1, i, st =>
    (output_bit (decide ((code &&& (128 >>> i)) ≠ 0)) st).andThen (output_code code n (i + 1))

/-- `uncompress_bit`.  The character is stored at index
`uncompress_bit_count` and followed by NUL, so the string in the buffer
becomes its first `uncompress_bit_count` characters and the new one. -/
def uncompress_bit (cfg : Config) (bit : Bool) (st : DecodeState) : Outcome DecodeState :=
  if !cfg.compress_flag then output_bit bit st
  else
    let value := st.uncompress_value.take st.uncompress_bit_count ++ [if bit then '1' else '0']
    let st1 := { st with uncompress_value := value,
                         uncompress_bit_count := st.uncompress_bit_count + 1 }
    let o :=
      match huffcode_find cfg.huffcodes value with
      | some code =>
        (output_code code 8 0 st1).andThen fun st2 => .ok { st2 with uncompress_bit_count := 0 }
      | none => .ok st1
    o.andThen fun st3 =>
      if st3.uncompress_bit_count ≥ 255 then .failed .huffman_overflow st3 else .ok st3

/-- `decrypt_bit`. -/
def decrypt_bit (cfg : Config) (bit : Bool) (st : ExtractState) : Outcome ExtractState :=
  match st.crypt.ice_key with
  | none => (uncompress_bit cfg bit st.dec).map fun d => { st with dec := d }
  | some E =>
    let r := decrypt_step E st.crypt.encrypt_iv_block bit
    (uncompress_bit cfg r.1 st.dec).map fun d =>
      { crypt := { st.crypt with encrypt_iv_block := r.2 }, dec := d }

/-! ## Extraction: encode.c whitespace decoding -/

/-- `decode_bits`. -/
def decode_bits (cfg : Config) (spc : Nat) (st : ExtractState) : Outcome ExtractState :=
  if spc > 7 then .failed (.illegal_encoding spc) st
  else
    (decrypt_bit cfg (decide ((spc &&& 1) ≠ 0)) st).andThen fun st1 =>
      (decrypt_bit cfg (decide ((spc &&& 2) ≠ 0)) st1).andThen fun st2 =>
        decrypt_bit cfg (decide ((spc &&& 4) ≠ 0)) st2

/-- `decode_whitespace`, with the running space count `spc`.  The end of
the list is the terminating NUL. -/
def decode_whitespace (cfg : Config) : List Char → Nat → ExtractState → Outcome ExtractState
  | [], spc, st => if spc > 0 then decode_bits cfg spc st else .ok st
  | c :: cs, spc, st =>
    if c = ' ' then decode_whitespace cfg cs (spc + 1) st
    else if c = '\t' then (decode_bits cfg spc st).andThen (decode_whitespace cfg cs 0)
    else if c = '\x00' then (if spc > 0 then decode_bits cfg spc st else .ok st)
    else decode_whitespace cfg cs spc st

/-- The scan loop of `message_extract` over one line.  `last_ws` is `none`
for the NULL pointer, and otherwise holds the characters from the position
`last_ws` points at up to the current position.  The scan ends at NUL, LF
or CR, where the string is cut. -/
def scan_line : List Char → Option (List Char) → Option (List Char)
  | [], last_ws => last_ws
  | c :: cs, last_ws =>
    if is_line_end c then last_ws
    else if c ≠ ' ' ∧ c ≠ '\t' then scan_line cs none
    else
      match last_ws with
      | none => scan_line cs (some [c])
      | some run => scan_line cs (some (run ++ [c]))

/-- What the body of the read loop of `message_extract` does with one line:
skip it, or call `decode_whitespace` on a string; and the new value of
`start_tab_found`. -/
def line_action (buf : List Char) (start_tab_found : Bool) : Bool × Option (List Char) :=
  match scan_line buf none with
  | none => (start_tab_found, none)
  | some run =>
    if !start_tab_found ∧ run.head? = some ' ' then (start_tab_found, none)
    else if !start_tab_found ∧ run.head? = some '\t' then
      if run.tail = [] then (true, none) else (true, some run.tail)
    else (start_tab_found, some run)

/-- The read loop of `message_extract`. -/
def extract_loop (cfg : Config) : List (List Char) → Bool → ExtractState → Outcome ExtractState
  | [], _, st => .ok st
  | buf :: rest, start_tab_found, st =>
    match line_action buf start_tab_found with
    | (found, none) => extract_loop cfg rest found st
    | (found, some s) =>
      (decode_whitespace cfg s 0 st).andThen (extract_loop cfg rest found)

/-- State of an extraction run at program start, after `decrypt_init`. -/
def ExtractState.start (crypt : CryptState) : ExtractState :=
  { crypt := crypt,
    dec := { uncompress_bit_count := 0, uncompress_value := [],
             output_bit_count := 0, output_value := 0, outf := [] } }

/-- `message_extract` on the lines of the input file; `decrypt_flush`
always returns TRUE. -/
def message_extract (cfg : Config) (crypt : CryptState) (inf : List (List Char)) :
    Outcome ExtractState :=
  extract_loop cfg inf false (ExtractState.start crypt)

/-- The strings `fgets` reads back from a file written by `wsputs` when
every line has no newline inside and, with the newline `wsputs` added, fits
one call: each string followed by that newline.  `fgets_read` is the
reading for a buffer of `BUFSIZ` characters without that assumption. -/
def stego_read (lines : List (List Char)) : List (List Char) :=
  lines.map fun l => l ++ ['\n']

/-- The read loop of `space_calculate`, from the estimates `n`. -/
def space_loop (line_length : Nat) : List (List Char) → Nat × Nat → Nat × Nat
  | [], n => n
  | l :: rest, n => space_loop line_length rest (whitespace_storage line_length (ws_strip l) n)

/-- `space_calculate`: the pair `(n_lo, n_hi)` it reports. -/
def space_calculate (line_length : Nat) (fp : List (List Char)) : Nat × Nat :=
  let n := space_loop line_length fp (0, 0)
  if n.1 > 0 then (n.1 - 1, n.2 - 1) else n

/-! ## Bit streams through the cipher stage -/

/-- The bits `encrypt_bit` passes to `encode_bit` for the input bits
`bits`, and the IV block left at the end. -/
def encrypt_stream (E : List Nat → List Nat) : List Nat → List Bool → List Bool × List Nat
  | iv, [] => ([], iv)
  | iv, b :: bs =>
    let r := encrypt_step E iv b
    let rest := encrypt_stream E r.2 bs
    (r.1 :: rest.1, rest.2)

/-- The bits `decrypt_bit` passes to `uncompress_bit` for the input bits
`bits`, and the IV block left at the end. -/
def decrypt_stream (E : List Nat → List Nat) : List Nat → List Bool → List Bool × List Nat
  | iv, [] => ([], iv)
  | iv, b :: bs =>
    let r := decrypt_step E iv b
    let rest := decrypt_stream E r.2 bs
    (r.1 :: rest.1, rest.2)

/-! ## Statements taken from the specification -/

/-- The length `L` rounded up to the next multiple of 8 when it is not one. -/
def aligned_length (L : Nat) : Nat :=
  if L % 8 ≠ 0 then (L / 8 + 1) * 8 else L

/-- The per-line capacity rule in the words of the specification: nothing
when `L > T - 2`, and otherwise `((T - L_aligned) / 8) * 3` for both
estimates, plus 3 for the upper one if `L mod 8 ≠ 0`, plus 3 if
`T mod 8 ≠ 0`. -/
def storage_formula (T L : Nat) (n : Nat × Nat) : Nat × Nat :=
  if L > T - 2 then n
  else
    let slots := ((T - aligned_length L) / 8) * 3
    (n.1 + slots,
     n.2 + slots + (if L % 8 ≠ 0 then 3 else 0) + (if T % 8 ≠ 0 then 3 else 0))

/-! ## Layout of the written lines -/

/-- Every character of the string is a space or a tab. -/
def all_blank (w : List Char) : Prop :=
  ∀ c ∈ w, is_blank c = true

/-- Tab-expanded display width of a line, with tab stops every 8 columns:
a tab moves to the next multiple of 8, any other character one column on. -/
def display_width (l : List Char) : Nat :=
  l.foldl (fun col c => if c = '\t' then (col / 8 + 1) * 8 else col + 1) 0

/-- The cover line number `i`, stripped of its trailing whitespace; the
empty line beyond the end of the cover. -/
def nth_base (cover : List (List Char)) (i : Nat) : List Char :=
  ws_strip (cover.getD i [])

/-- The line `out` is the line `base` followed by spaces and tabs, and if
anything was added its display width is below `T`. -/
def line_ok (T : Nat) (base out : List Char) : Prop :=
  ∃ w, all_blank w ∧ out = base ++ w ∧ (w = [] ∨ display_width out < T)

/-- The relation between the encoder state and the cover `cover` it
started from, for line length `T`. -/
structure Layout (T : Nat) (cover : List (List Char)) (s : EncodeState) : Prop where
  written : ∀ i l, s.outf[i]? = some l → line_ok T (nth_base cover i) l
  current : s.encode_buffer_loaded = true →
    line_ok T (nth_base cover s.outf.length) s.encode_buffer ∧
    s.encode_buffer_column = display_width s.encode_buffer ∧
    s.inf = cover.drop (s.outf.length + 1)
  idle : s.encode_buffer_loaded = false → s.inf = cover.drop s.outf.length

/-- The characters one successful call of `encode_append_whitespace`
appends: the tab owed, if any, then `nsp` spaces, or a tab when `nsp = 0`. -/
def ws_chunk (needs_tab : Bool) (nsp : Nat) : List Char :=
  (if needs_tab then ['\t'] else []) ++ (if nsp = 0 then ['\t'] else List.replicate nsp ' ')

/-- The column `encode_append_whitespace` tests against `line_length`. -/
def chunk_column (col : Nat) (needs_tab : Bool) (nsp : Nat) : Nat :=
  let col1 := if needs_tab then tabpos col else col
  if nsp = 0 then tabpos col1 else col1 + nsp

/-! ## Concrete settings used in examples -/

/-- Settings without compression: line length `T`, fuel `fuel`. -/
def plain_config (T fuel : Nat) : Config :=
  { compress_flag := false, line_length := T, huffcodes := fun _ => [], fuel := fuel }

/-- No password given: `ice_key` is NULL. -/
def no_key : CryptState :=
  { ice_key := none, encrypt_iv_block := [] }

/-- The routine returned FALSE with the illegal-encoding error for a space
count above 7, or, with compression on, with the Huffman overflow error. -/
def fails_decoding (cfg : Config) (o : Outcome ExtractState) : Prop :=
  ∃ e st, o = .failed e st ∧
    ((∃ k, 7 < k ∧ e = .illegal_encoding k) ∨
     (cfg.compress_flag = true ∧ e = .huffman_overflow))

/-! ## The extractor as a decoder of space counts and bits -/

/-- Feeding a list of bits, one call per bit, stopping at the first call
that does not return TRUE. -/
def feed {σ : Type} (f : Bool → σ → Outcome σ) : List Bool → σ → Outcome σ
  | [], st => .ok st
  | b :: bs, st => (f b st).andThen (feed f bs)

/-- The space counts `decode_whitespace` passes to `decode_bits` on a
string, from the running count `spc`. -/
def ws_tokens : List Char → Nat → List Nat
  | [], spc => if spc > 0 then [spc] else []
  | c :: cs, spc =>
    if c = ' ' then ws_tokens cs (spc + 1)
    else if c = '\t' then spc :: ws_tokens cs 0
    else if c = '\x00' then (if spc > 0 then [spc] else [])
    else ws_tokens cs spc

/-- The space counts closed by a tab in a string, and the number of spaces
after the last tab. -/
def ws_scan : List Char → Nat → List Nat × Nat
  | [], spc => ([], spc)
  | c :: cs, spc =>
    if c = ' ' then ws_scan cs (spc + 1)
    else if c = '\t' then (spc :: (ws_scan cs 0).1, (ws_scan cs 0).2)
    else ws_scan cs spc

/-- The space counts `message_extract` passes to `decode_bits` on the lines
of a file, and the final value of `start_tab_found`. -/
def lines_scan : List (List Char) → Bool → List Nat × Bool
  | [], start => ([], start)
  | buf :: rest, start =>
    match line_action buf start with
    | (found, none) => lines_scan rest found
    | (found, some s) => (ws_tokens s 0 ++ (lines_scan rest found).1, (lines_scan rest found).2)

/-- The calls of `decode_bits` for a list of space counts. -/
def decode_tokens (cfg : Config) : List Nat → ExtractState → Outcome ExtractState
  | [], st => .ok st
  | t :: ts, st => (decode_bits cfg t st).andThen (decode_tokens cfg ts)

/-- The three bits `decode_bits` passes to `decrypt_bit` for a space count. -/
def token_bits (spc : Nat) : List Bool :=
  [decide ((spc &&& 1) ≠ 0), decide ((spc &&& 2) ≠ 0), decide ((spc &&& 4) ≠ 0)]

/-- The eight bits `character_encode` passes to `compress_bit` for a byte,
most significant first. -/
def byte_bits (c : Nat) : List Bool :=
  (List.range 8).map fun i => decide ((c &&& (128 >>> i)) ≠ 0)

/-- The value `encode_bit` accumulates in `encode_value` from 0 for a list
of bits. -/
def bits_value (bits : List Bool) : Nat :=
  bits.foldl (fun v b => (v <<< 1) ||| b.toNat) 0

/-- The bits the cipher stage of the embedder passes on for the input bits
`bits`, and its state at the end. -/
def encrypt_view (crypt : CryptState) (bits : List Bool) : List Bool × CryptState :=
  match crypt.ice_key with
  | none => (bits, crypt)
  | some E =>
    ((encrypt_stream E crypt.encrypt_iv_block bits).1,
     { crypt with encrypt_iv_block := (encrypt_stream E crypt.encrypt_iv_block bits).2 })

/-- The bits the cipher stage of the extractor passes on for the input bits
`bits`, and its state at the end. -/
def decrypt_view (crypt : CryptState) (bits : List Bool) : List Bool × CryptState :=
  match crypt.ice_key with
  | none => (bits, crypt)
  | some E =>
    ((decrypt_stream E crypt.encrypt_iv_block bits).1,
     { crypt with encrypt_iv_block := (decrypt_stream E crypt.encrypt_iv_block bits).2 })

/-! ## Cover lines the extractor reads as the embedder does -/

/-- No character of the string is NUL, LF or CR, and the string does not
end with a space or a tab. -/
def clean_line (l : List Char) : Prop :=
  (∀ c ∈ l, is_line_end c = false) ∧ l.rdropWhile is_blank = l

/-- No cover line has a NUL, LF or CR before its trailing whitespace. -/
def clean_cover (cover : List (List Char)) : Prop :=
  ∀ l ∈ cover, ∀ c ∈ ws_strip l, is_line_end c = false

/-! ## What the extractor would read from the encoder's lines -/

/-- The space counts the extractor decodes from the lines written so far
followed by the line in the buffer, once the start tab has been written. -/
def state_tokens (s : EncodeState) : List Nat :=
  if s.encode_first_tab then (lines_scan (stego_read (s.outf ++ [s.encode_buffer])) false).1
  else []

/-- Encoder states before the start tab is written: every line written,
and the line in the buffer, is a clean cover line with nothing appended. -/
structure Uncoded (s : EncodeState) : Prop where
  first_tab : s.encode_first_tab = false
  inf_clean : clean_cover s.inf
  out_clean : ∀ l ∈ s.outf, clean_line l
  buf_clean : s.encode_buffer_loaded = true →
    clean_line s.encode_buffer ∧ s.encode_needs_tab = false

/-- Encoder states after the start tab is written: the buffer holds a clean
cover line `base` followed by the whitespace `w` appended to it; the part
`tail` of `w` is what the extractor decodes (all of `w`, or `w` without its
leading start tab when no earlier line carries the start tab); and a tab is
owed exactly when `tail` ends in spaces. -/
structure Coded (s : EncodeState) : Prop where
  first_tab : s.encode_first_tab = true
  loaded : s.encode_buffer_loaded = true
  inf_clean : clean_cover s.inf
  shape : ∃ base w tail, s.encode_buffer = base ++ w ∧ clean_line base ∧ all_blank w ∧
    (((lines_scan (stego_read s.outf) false).2 = true ∧ tail = w) ∨
     ((lines_scan (stego_read s.outf) false).2 = false ∧ w = '\t' :: tail)) ∧
    (s.encode_needs_tab = true ↔ (ws_scan tail 0).2 > 0) ∧
    state_tokens s = (lines_scan (stego_read s.outf) false).1 ++ ws_tokens tail 0

/-- The number of zero bits that pad `n` bits to a multiple of 3. -/
def pad_length (n : Nat) : Nat :=
  (3 - n % 3) % 3

/-- The encoder state accounts for the bits `bits` fed to `encode_bit` so
far: the space counts written decode to all of them but the last
`encode_bit_count`, which are held in `encode_value`. -/
structure BitInv (s : EncodeState) (bits : List Bool) : Prop where
  good : Uncoded s ∨ Coded s
  small : ∀ t ∈ state_tokens s, t ≤ 7
  pending : ∃ pend : List Bool, pend.length = s.encode_bit_count ∧ pend.length < 3 ∧
    s.encode_value = bits_value pend ∧
    (state_tokens s).flatMap token_bits ++ pend = bits

/-! ## Huffman tables -/

/-- The bits `compress_bit` passes on for a code string of `0` and `1`. -/
def code_bits (code : List Char) : List Bool :=
  code.map fun ch => decide (ch = '1')

/-- Every code word of the table is a string of `0` and `1`. -/
def binary_words (huffcodes : Nat → List Char) : Prop :=
  ∀ i, i < 256 → ∀ ch ∈ huffcodes i, ch = '0' ∨ ch = '1'

/-- No code word of the table is the beginning of the code word of another
byte (in particular no two bytes share a code word). -/
def no_word_begins_another (huffcodes : Nat → List Char) : Prop :=
  ∀ i j, i < 256 → j < 256 → i ≠ j → ¬ (huffcodes i <+: huffcodes j)

/-- The table whose code word for a byte is its eight bits, most
significant first. -/
def byte_table (i : Nat) : List Char :=
  (byte_bits i).map fun b => if b then '1' else '0'

/-- A table with the one-character code word `0` for byte 0, and for every
other byte a `1` followed by its eight bits. -/
def short_zero_table (i : Nat) : List Char :=
  if i = 0 then ['0'] else '1' :: byte_table i

/-- Settings with compression under the table `tbl`: line length `T`, fuel
`fuel`. -/
def compress_config (tbl : Nat → List Char) (T fuel : Nat) : Config :=
  { compress_flag := true, line_length := T, huffcodes := tbl, fuel := fuel }

/-- A cover of four lines, with and without trailing whitespace. -/
def sample_cover : List (List Char) :=
  [['T', 'h', 'e', ' ', 'c', 'a', 't', '\n'], ['s', 'a', 't', ' ', ' ', '\r', '\n'],
   ['\n'], ['o', 'n', '\t', 'i', 't', '.', '\t', '\n']]

/-- A cover of one line with a CR in the middle. -/
def cr_cover : List (List Char) :=
  [['a', '\r', 'b', '\n']]

/-- A block function standing for a cipher in the examples. -/
def sample_block (blk : List Nat) : List Nat :=
  blk.map fun b => (b * 5 + 131) % 256

/-- A key for the examples: the block function `sample_block` and an
initial feedback register. -/
def sample_key : CryptState :=
  { ice_key := some sample_block, encrypt_iv_block := [1, 2, 3, 4, 5, 6, 7, 8] }

/-- A table with a code word of 256 characters `0` for byte 0, and for
every other byte a `1` followed by its eight bits. -/
def long_zero_table (i : Nat) : List Char :=
  if i = 0 then List.replicate 256 '0' else '1' :: byte_table i

/-! ## encrypt.c: `password_set` -/

/-- The level `password_set` computes from the password and passes to
`ice_key_create`: `(strlen (passwd) * 7 + 63) / 64`, raised to 1 when it is
0 and cut to 128 when it is larger.  Passwords are byte strings without
NUL, far shorter than the range where the C arithmetic would wrap. -/
def password_level (passwd : List Nat) : Nat :=
  let level := (passwd.length * 7 + 63) / 64
  if level = 0 then 1
  else if level > 128 then 128
  else level

/-- A stego text holding only the start tab. -/
def sentinel_text : List (List Char) := [['\t', '\n']]

/-- A line of text whose trailing run begins with a space and spells the
byte 80 in three groups. -/
def spaced_line : List Char := ['a', ' ', ' ', '\t', ' ', '\t', '\t', '\n']

/-- The eight bytes of the feedback register read as one big-endian
number. -/
def register_value (iv : List Nat) : Nat :=
  iv.foldl (fun acc b => acc * 256 + b) 0

/-- The byte left at an index below 7 by one pass of the rotation loop:
`x` shifted left in an unsigned char, with the top bit of the next byte
`y` brought in. -/
def carry_in (x y : Nat) : Nat :=
  if y &&& 128 ≠ 0 then (x <<< 1) % 256 ||| 1 else (x <<< 1) % 256

/-! ## The values written by the encoder (C14) -/

/-- The trailing run of spaces and tabs of a line. -/
def trailing_run (l : List Char) : List Char :=
  l.rtakeWhile is_blank

/-- A string of spaces and tabs has the form `(SPACE{0..7} TAB)* SPACE{0..7}`:
no more than 7 spaces stand before any tab or at the end. -/
def groups_form (w : List Char) : Prop :=
  (∀ t ∈ (ws_scan w 0).1, t ≤ 7) ∧ (ws_scan w 0).2 ≤ 7

/-- The form `TAB (SPACE{0..7} TAB)* [SPACE{1..7}]` of the specification:
a tab followed by a string of the form above. -/
def sentinel_form (w : List Char) : Prop :=
  ∃ rest, w = '\t' :: rest ∧ groups_form rest

/-- The lines the encoder has produced so far: those written to `outf` and
the one in `encode_buffer`. -/
def produced_lines (s : EncodeState) : List (List Char) :=
  s.outf ++ (if s.encode_buffer_loaded then [s.encode_buffer] else [])

/-- The form of the whitespace on the lines produced so far: every trailing
run is made of groups of at most 7 spaces; a pending tab is owed exactly
when spaces end the buffer; before the start tab no line has a trailing
run, and afterwards the first line that has one begins it with a tab. -/
structure Sentinel (s : EncodeState) : Prop where
  formed : ∀ l ∈ produced_lines s, groups_form (trailing_run l)
  current : s.encode_buffer_loaded = true → s.encode_needs_tab = false →
    (ws_scan (trailing_run s.encode_buffer) 0).2 = 0
  before : s.encode_first_tab = false → ∀ l ∈ produced_lines s, trailing_run l = []
  after : s.encode_first_tab = true →
    ∃ (k : Nat) (l : List Char),
      (produced_lines s)[k]? = some l ∧ (trailing_run l).head? = some '\t' ∧
      ∀ (j : Nat) (l1 : List Char), j < k → (produced_lines s)[j]? = some l1 →
        trailing_run l1 = []

/-! ## encrypt.c: the packing loop of `password_set` -/

/-- A store `buf[idx] = v` into the byte buffer: the value is cut to an
unsigned char, and a store outside the buffer gives `none`. -/
def buf_store (buf : List Nat) (idx v : Nat) : Option (List Nat) :=
  if idx < buf.length then some (buf.set idx (v % 256)) else none

/-- The body of the packing loop of `password_set` for the character `p`
at bit position `i`, up to `i += 7`. -/
def pack_char (buf : List Nat) (i p : Nat) : Option (List Nat) :=
  let c := p &&& 0x7f
  let idx := i / 8
  let bit := i &&& 7
  if bit = 0 then buf_store buf idx (c <<< 1)
  else if bit = 1 then buf_store buf idx (buf.getD idx 0 ||| c)
  else
    (buf_store buf idx (buf.getD idx 0 ||| (c >>> (bit - 1)))).bind fun buf1 =>
      buf_store buf1 (idx + 1) (c <<< (9 - bit))

/-- The packing loop of `password_set` from bit position `i`: the buffer
at the end and the characters of the password not consumed; `none` if a
store falls outside the buffer.  The end of the list is the NUL. -/
def pack_loop : List Nat → Nat → List Nat → Option (List Nat × List Nat)
  | [], _, buf => some (buf, [])
  | p :: rest, i, buf =>
    (pack_char buf i p).bind fun buf1 =>
      if i + 7 > 8184 then some (buf1, rest) else pack_loop rest (i + 7) buf1

/-- The buffer `password_set` hands to `ice_key_set`: 1024 zero bytes, then
the packing loop from bit position 0. -/
def password_pack (passwd : List Nat) : Option (List Nat × List Nat) :=
  pack_loop passwd 0 (List.replicate 1024 0)

/-- Bit `k` of a byte buffer read as a bit stream, most significant bit of
each byte first. -/
def stream_bit (buf : List Nat) (k : Nat) : Bool :=
  (buf.getD (k / 8) 0).testBit (7 - k % 8)

/-! ## The encode buffer: length and column (C21, C22, C24) -/

/-- The display column after the first `n` characters of `buf`, tab stops
every 8 columns. -/
def expanded_column (buf : List Char) (n : Nat) : Nat :=
  display_width (buf.take n)

/-- The buffer variables agree with the string in `encode_buffer`:
`encode_buffer_length` is its length, the index of the terminating NUL, and
`encode_buffer_column` is the display column after its characters. -/
def column_ok (s : EncodeState) : Prop :=
  s.encode_buffer_length = s.encode_buffer.length ∧
  s.encode_buffer_column = expanded_column s.encode_buffer s.encode_buffer_length

/-! ## Lines read, lines written and extra lines (C23) -/

/-- The account of lines against the cover `cover`: the unread part of the
cover is what follows the lines produced so far, and `encode_lines_extra`
is the number of lines produced beyond the end of the cover. -/
structure Accounting (cover : List (List Char)) (s : EncodeState) : Prop where
  unread : s.inf = cover.drop (produced_lines s).length
  extra : s.encode_lines_extra = (produced_lines s).length - cover.length

/-! ## The cover seen through `wsgets` (C25) -/

/-- The state with every unread cover line replaced by what `wsgets` makes
of it. -/
def strip_cover (s : EncodeState) : EncodeState :=
  { s with inf := s.inf.map ws_strip }

/-! ## The size of `encode_buffer` and the file read back by `fgets` -/

/-- The characters `wsputs` sends to the file for the strings `lines`: each
string followed by a newline. -/
def file_text (lines : List (List Char)) : List Char :=
  lines.flatMap fun l => l ++ ['\n']

/-- One call of the C library's `fgets` with room for `room` characters
before the NUL (`fgets (buf, n, fp)` has `room = n - 1`), after the C
standard: it reads at most `n - 1` characters and no further than a newline
or the end of the file.  The result is the string read and the characters
left in the file. -/
def fgets_chars : Nat → List Char → List Char × List Char
  | 0, text => ([], text)
  | _ + 1, [] => ([], [])
  | room + 1, c :: text =>
    if c = '\n' then ([c], text)
    else (c :: (fgets_chars room text).1, (fgets_chars room text).2)

/-- The strings returned by successive calls `fgets (buf, BUFSIZ, fp)` on a
file holding the characters `text`, until `fgets` returns NULL at the end of
the file; at most `fuel` calls. -/
def fgets_all (BUFSIZ : Nat) : Nat → List Char → List (List Char)
  | 0, _ => []
  | fuel + 1, text =>
    if text = [] then []
    else (fgets_chars (BUFSIZ - 1) text).1
      :: fgets_all BUFSIZ fuel (fgets_chars (BUFSIZ - 1) text).2

/-- The strings `fgets (buf, BUFSIZ, fp)` returns when the file written by
`wsputs` for the strings `lines` is read back.  Every call but one at the end
of the file takes at least one character when `BUFSIZ` is 2 or more, so one
call per character of the file is enough. -/
def fgets_read (BUFSIZ : Nat) (lines : List (List Char)) : List (List Char) :=
  fgets_all BUFSIZ (file_text lines).length (file_text lines)

/-- The strings `fgets (buf, BUFSIZ, fp)` returns for one string written by
`wsputs`, when it has no newline inside and at most `BUFSIZ - 1`
characters: the string with its newline, or the string and the newline
apart when the two do not fit one call. -/
def line_strings (BUFSIZ : Nat) (l : List Char) : List (List Char) :=
  if l.length + 2 ≤ BUFSIZ then [l ++ ['\n']] else [l, ['\n']]

/-- Every string of the file fits the array `char[BUFSIZ]` with its NUL, as
every string returned by `fgets (buf, BUFSIZ, fp)` does. -/
def fits_buffer (BUFSIZ : Nat) (file : List (List Char)) : Prop :=
  ∀ l ∈ file, l.length ≤ BUFSIZ - 1


/-- Every string of the cover, stripped by `wsgets` and written back by
`wsputs` with its newline, is read by one call `fgets (buf, BUFSIZ, fp)`:
it has no newline inside and, with the newline, at most `BUFSIZ - 1`
characters. -/
def reads_back (BUFSIZ : Nat) (cover : List (List Char)) : Prop :=
  ∀ l ∈ cover, (ws_strip l).length + 2 ≤ BUFSIZ ∧ '\n' ∉ ws_strip l

/-- The strings `fgets (buf, 8192, fp)` returns for a file of two lines, the
first of 8271 characters `x` and the second `yz`: the first 8191 characters,
the rest of the first line, and the second line. -/
def long_cover : List (List Char) :=
  [List.replicate 8191 'x', List.replicate 80 'x' ++ ['\n'], ['y', 'z', '\n']]

/-- A cover of one string of 8191 characters `x`, the most
`fgets (buf, 8192, fp)` returns. -/
def full_cover : List (List Char) :=
  [List.replicate 8191 'x']

/-! ## Theorems -/

/-! ## Capacity estimation -/

theorem tabpos_eq (n : Nat) : tabpos n = n + 8 - n % 8 := by
  unfold tabpos; omega

theorem whitespace_storage_add (T : Nat) (buf : List Char) (n : Nat × Nat) :
    whitespace_storage T buf n =
      (n.1 + (whitespace_storage T buf (0, 0)).1, n.2 + (whitespace_storage T buf (0, 0)).2) := by
  unfold whitespace_storage
  simp only []
  split
  · simp
  · split
    · simp
    · split <;> split <;> simp <;> omega

theorem whitespace_storage_mono (T1 T2 : Nat) (buf : List Char) (h : T1 ≤ T2) :
    (whitespace_storage T1 buf (0, 0)).1 ≤ (whitespace_storage T2 buf (0, 0)).1 ∧
    (whitespace_storage T1 buf (0, 0)).2 ≤ (whitespace_storage T2 buf (0, 0)).2 := by
  unfold whitespace_storage tabpos
  simp only []
  generalize buf.length = L
  split_ifs <;> simp <;> omega

theorem space_loop_mono (T1 T2 : Nat) (h : T1 ≤ T2) (fp : List (List Char)) :
    ∀ n m : Nat × Nat, n.1 ≤ m.1 → n.2 ≤ m.2 →
      (space_loop T1 fp n).1 ≤ (space_loop T2 fp m).1 ∧
      (space_loop T1 fp n).2 ≤ (space_loop T2 fp m).2 := by
  induction fp with
  | nil => intro n m h1 h2; exact ⟨h1, h2⟩
  | cons l rest ih =>
    intro n m h1 h2
    simp only [space_loop]
    have hm := whitespace_storage_mono T1 T2 (ws_strip l) h
    apply ih
    · rw [whitespace_storage_add T1, whitespace_storage_add T2]; simp only []; omega
    · rw [whitespace_storage_add T1, whitespace_storage_add T2]; simp only []; omega

/-- C9, as amended: for a line of stripped length `L` and a target
`T ≥ 8`, `whitespace_storage` adds 0 to `n_lo` and 3 to `n_hi` when
`L ≤ T - 2` and `L / 8 = T / 8`, and in every other case adds what the
capacity rule of the specification says. -/
theorem C9_whitespace_storage_formula (T : Nat) (buf : List Char) (n : Nat × Nat)
    (hT : 8 ≤ T) :
    whitespace_storage T buf n =
      if buf.length ≤ T - 2 ∧ buf.length / 8 = T / 8 then (n.1, n.2 + 3)
      else storage_formula T buf.length n := by
  unfold whitespace_storage storage_formula aligned_length tabpos
  simp only []
  generalize buf.length = L
  obtain ⟨a, b⟩ := n
  by_cases h1 : L + 2 > T
  · have h2 : ¬ (L ≤ T - 2) := by omega
    have h3 : L > T - 2 := by omega
    simp [h1, h2, h3]
  · have h2 : L ≤ T - 2 := by omega
    have h3 : ¬ (L > T - 2) := by omega
    by_cases h4 : L / 8 = T / 8
    · simp [h1, h2, h4]
    · simp only [h1, h2, h3, h4, if_false, and_false, if_true]
      by_cases h5 : L % 8 = 0 <;> by_cases h6 : T % 8 = 0 <;>
        simp [h5, h6, Nat.pos_iff_ne_zero] <;> omega

theorem C9_whitespace_storage_formula_witness :
    whitespace_storage 80 ['a', 'b', 'c'] (0, 0) = (27, 30) :=
  (C9_whitespace_storage_formula 80 ['a', 'b', 'c'] (0, 0) (by decide)).trans (by decide)

/-- C9 fails as stated: for a line of length 9 and target 12 the code adds
3 to `n_hi`, the stated rule 6. -/
theorem C9_counterexample :
    8 ≤ 12 ∧ (List.replicate 9 'x').length = 9 ∧
    whitespace_storage 12 (List.replicate 9 'x') (0, 0) = (0, 3) ∧
    storage_formula 12 9 (0, 0) = (0, 6) := by
  decide

/-- C10, as amended: for a fixed cover and `8 ≤ T1 ≤ T2`, the reported
lower bound is non-decreasing, the upper bound before the initial-tab
decrement is non-decreasing, and the reported upper bound at `T1` exceeds
the one at `T2` by at most 1. -/
theorem C10_capacity_monotone (fp : List (List Char)) (T1 T2 : Nat)
    (_h1 : 8 ≤ T1) (h12 : T1 ≤ T2) :
    (space_calculate T1 fp).1 ≤ (space_calculate T2 fp).1 ∧
    (space_loop T1 fp (0, 0)).2 ≤ (space_loop T2 fp (0, 0)).2 ∧
    (space_calculate T1 fp).2 ≤ (space_calculate T2 fp).2 + 1 := by
  have h := space_loop_mono T1 T2 h12 fp (0, 0) (0, 0) (le_refl _) (le_refl _)
  unfold space_calculate
  simp only []
  refine ⟨?_, h.2, ?_⟩
  · split_ifs <;> omega
  · split_ifs <;> omega

theorem C10_capacity_monotone_witness :
    (space_calculate 15 [['a']]).1 ≤ (space_calculate 16 [['a']]).1 ∧
    (space_loop 15 [['a']] (0, 0)).2 ≤ (space_loop 16 [['a']] (0, 0)).2 ∧
    (space_calculate 15 [['a']]).2 ≤ (space_calculate 16 [['a']]).2 + 1 :=
  C10_capacity_monotone [['a']] 15 16 (by decide) (by decide)

/-- C10 fails as stated: for the one-line cover `a` the reported upper
bound is 6 at line length 15 and 5 at line length 16. -/
theorem C10_counterexample :
    8 ≤ 15 ∧ 15 ≤ 16 ∧
    space_calculate 15 [['a']] = (0, 6) ∧ space_calculate 16 [['a']] = (2, 5) ∧
    ¬ ((space_calculate 15 [['a']]).2 ≤ (space_calculate 16 [['a']]).2) := by
  decide

/-! ## Cipher feedback -/

theorem decrypt_encrypt_step (E : List Nat → List Nat) (iv : List Nat) (b : Bool) :
    decrypt_step E iv (encrypt_step E iv b).1 = (b, (encrypt_step E iv b).2) := by
  unfold decrypt_step encrypt_step
  cases keystream_bit E iv <;> simp

theorem decrypt_encrypt_stream (E : List Nat → List Nat) (bits : List Bool) :
    ∀ iv, decrypt_stream E iv (encrypt_stream E iv bits).1 =
      (bits, (encrypt_stream E iv bits).2) := by
  induction bits with
  | nil => intro iv; rfl
  | cons b bs ih =>
    intro iv
    simp only [encrypt_stream, decrypt_stream, decrypt_encrypt_step, ih]

theorem encrypt_stream_take (E : List Nat → List Nat) (bits : List Bool) :
    ∀ iv n, (encrypt_stream E iv bits).1.take n = (encrypt_stream E iv (bits.take n)).1 := by
  induction bits with
  | nil => intro iv n; simp [encrypt_stream]
  | cons b bs ih =>
    intro iv n
    cases n with
    | zero => simp [encrypt_stream]
    | succ n => simp [encrypt_stream, ih]

/-- C4: for every block function, initial register and bit list `B`, the
first `n` bits produced by `encrypt_bit` on `B`, fed through `decrypt_bit`
from the same register, give back the first `n` bits of `B`, and leave the
decryptor with the register the encryptor has after `n` bits; for `n` the
length of `B` the whole of `B` is recovered. -/
theorem C4_cfb_self_inverse (E : List Nat → List Nat) (iv : List Nat) (B : List Bool) :
    (∀ n, decrypt_stream E iv ((encrypt_stream E iv B).1.take n) =
      (B.take n, (encrypt_stream E iv (B.take n)).2)) ∧
    decrypt_stream E iv (encrypt_stream E iv B).1 = (B, (encrypt_stream E iv B).2) := by
  refine ⟨fun n => ?_, decrypt_encrypt_stream E B iv⟩
  rw [encrypt_stream_take, decrypt_encrypt_stream]

@[simp] theorem Outcome.andThen_ok {σ : Type} (s : σ) (f : σ → Outcome σ) :
    (Outcome.ok s).andThen f = f s := rfl

@[simp] theorem Outcome.andThen_failed {σ : Type} (e : Err) (s : σ) (f : σ → Outcome σ) :
    (Outcome.failed e s).andThen f = .failed e s := rfl

@[simp] theorem Outcome.andThen_looping {σ : Type} (s : σ) (f : σ → Outcome σ) :
    (Outcome.looping s).andThen f = .looping s := rfl

@[simp] theorem Outcome.map_ok {σ τ : Type} (g : σ → τ) (s : σ) :
    (Outcome.ok s).map g = .ok (g s) := rfl

@[simp] theorem Outcome.state_ok {σ : Type} (s : σ) : (Outcome.ok s).state = s := rfl

@[simp] theorem Outcome.state_looping {σ : Type} (s : σ) : (Outcome.looping s).state = s := rfl

@[simp] theorem Outcome.state_failed {σ : Type} (e : Err) (s : σ) :
    (Outcome.failed e s).state = s := rfl

@[simp] theorem Outcome.state_map {σ τ : Type} (g : σ → τ) (o : Outcome σ) :
    (o.map g).state = g o.state := by
  cases o <;> rfl

theorem Outcome.andThen_eq_ok {σ : Type} {o : Outcome σ} {f : σ → Outcome σ} {t : σ} :
    o.andThen f = .ok t ↔ ∃ s, o = .ok s ∧ f s = .ok t := by
  cases o <;> simp [Outcome.andThen]

theorem Outcome.map_eq_ok {σ τ : Type} {o : Outcome σ} {g : σ → τ} {t : τ} :
    o.map g = .ok t ↔ ∃ s, o = .ok s ∧ g s = t := by
  cases o <;> simp [Outcome.map]

/-- A property of states that holds before a step and is kept by the
continuation holds of the state reached, however the run ends. -/
theorem Outcome.state_andThen {σ : Type} (P : σ → Prop) (o : Outcome σ) (f : σ → Outcome σ)
    (ho : P o.state) (hf : ∀ s, P s → P (f s).state) : P (o.andThen f).state := by
  cases o with
  | ok s => exact hf s ho
  | failed e s => exact ho
  | looping s => exact ho

theorem tabpos_ge (n : Nat) : 8 ≤ tabpos n := by
  unfold tabpos; omega

theorem tabpos_gt (n : Nat) : n < tabpos n := by
  unfold tabpos; omega

theorem load_until_tab_fits_8 (fuel : Nat) :
    ∀ s, ∃ t, load_until_tab_fits 8 fuel s = .looping t := by
  induction fuel with
  | zero => intro s; exact ⟨s, by simp [load_until_tab_fits, tabpos_ge]⟩
  | succ n ih =>
    intro s
    simp only [load_until_tab_fits, ge_iff_le, tabpos_ge, if_true]
    exact ih _

/-- C8, at the failing input: with line length 8, which `-l` accepts, the
first call of `encode_write_value` never returns, whatever the cover, the
value and the number of line loads allowed: no line has room for the start
tab, since `tabpos` is at least 8. -/
theorem C8_line_length_8_never_returns (fuel val : Nat) (cover : List (List Char)) :
    ∃ s, encode_write_value 8 fuel val (EncodeState.start cover) = .looping s := by
  obtain ⟨t, ht⟩ := load_until_tab_fits_8 fuel (encode_buffer_load (EncodeState.start cover))
  refine ⟨t, ?_⟩
  have h1 : (EncodeState.start cover).encode_buffer_loaded = false := rfl
  have h2 : (encode_buffer_load (EncodeState.start cover)).encode_first_tab = false := by
    unfold encode_buffer_load
    cases wsgets (EncodeState.start cover).inf <;> rfl
  simp [encode_write_value, h1, h2, ht]

theorem column_after_eq_foldl (l : List Char) : ∀ col,
    column_after col l =
      l.foldl (fun col c => if c = '\t' then (col / 8 + 1) * 8 else col + 1) col := by
  induction l with
  | nil => intro col; rfl
  | cons c cs ih =>
    intro col
    simp only [column_after, List.foldl_cons, ih]
    have : tabpos col = (col / 8 + 1) * 8 := by unfold tabpos; omega
    rw [this]

theorem column_after_zero (l : List Char) : column_after 0 l = display_width l :=
  column_after_eq_foldl l 0

theorem display_width_append_tab (l : List Char) :
    display_width (l ++ ['\t']) = tabpos (display_width l) := by
  unfold display_width tabpos
  simp [List.foldl_append]

theorem display_width_append_space (l : List Char) :
    display_width (l ++ [' ']) = display_width l + 1 := by
  unfold display_width
  simp [List.foldl_append]

theorem all_blank_nil : all_blank [] := by
  intro c hc; cases hc

theorem all_blank_append {a b : List Char} (ha : all_blank a) (hb : all_blank b) :
    all_blank (a ++ b) := by
  intro c hc
  rcases List.mem_append.1 hc with h | h
  · exact ha c h
  · exact hb c h

theorem all_blank_tab : all_blank ['\t'] := by
  intro c hc; simp at hc; subst hc; rfl

theorem all_blank_space : all_blank [' '] := by
  intro c hc; simp at hc; subst hc; rfl

theorem all_blank_spaces (n : Nat) : all_blank (List.replicate n ' ') := by
  intro c hc
  rw [List.mem_replicate] at hc
  rw [hc.2]; rfl

theorem line_ok_base (T : Nat) (base : List Char) : line_ok T base base :=
  ⟨[], all_blank_nil, by simp, Or.inl rfl⟩

theorem line_ok_extend {T : Nat} {base out : List Char} (x : List Char)
    (h : line_ok T base out) (hx : all_blank x) (hw : display_width (out ++ x) < T) :
    line_ok T base (out ++ x) := by
  obtain ⟨w, hw1, hw2, _⟩ := h
  exact ⟨w ++ x, all_blank_append hw1 hx, by rw [hw2, List.append_assoc], Or.inr hw⟩

theorem display_width_append_spaces (l : List Char) (n : Nat) :
    display_width (l ++ List.replicate n ' ') = display_width l + n := by
  induction n with
  | zero => simp
  | succ n ih =>
    rw [List.replicate_succ', ← List.append_assoc, display_width_append_space, ih]
    omega

theorem ws_strip_nil : ws_strip [] = [] := rfl

theorem wsgets_drop (cover : List (List Char)) (n : Nat) :
    (n < cover.length ∧
      wsgets (cover.drop n) = some (nth_base cover n, cover.drop (n + 1))) ∨
    (cover.length ≤ n ∧ wsgets (cover.drop n) = none ∧ nth_base cover n = [] ∧
      cover.drop (n + 1) = []) := by
  rcases Nat.lt_or_ge n cover.length with hn | hn
  · left
    refine ⟨hn, ?_⟩
    rw [List.drop_eq_getElem_cons hn]
    simp [wsgets, nth_base, List.getD_eq_getElem?_getD, List.getElem?_eq_getElem hn]
  · right
    refine ⟨hn, ?_, ?_, List.drop_eq_nil_iff.2 (by omega)⟩
    · rw [List.drop_eq_nil_iff.2 hn]; rfl
    · simp [nth_base, List.getD_eq_getElem?_getD, List.getElem?_eq_none hn, ws_strip_nil]

theorem append_spaces_eq (n : Nat) : ∀ s : EncodeState,
    append_spaces n s =
      { s with encode_buffer := s.encode_buffer ++ List.replicate n ' ',
               encode_buffer_length := s.encode_buffer_length + n,
               encode_buffer_column := s.encode_buffer_column + n } := by
  induction n with
  | zero => intro s; simp [append_spaces]
  | succ n ih =>
    intro s
    simp only [append_spaces, ih, List.replicate_succ, List.append_assoc, List.singleton_append]
    simp only [Nat.add_assoc, Nat.add_comm 1 n]

theorem encode_append_whitespace_eq (T nsp : Nat) (s : EncodeState) :
    encode_append_whitespace T nsp s =
      if chunk_column s.encode_buffer_column s.encode_needs_tab nsp ≥ T then (false, s)
      else (true,
        { s with encode_buffer := s.encode_buffer ++ ws_chunk s.encode_needs_tab nsp,
                 encode_buffer_length :=
                   s.encode_buffer_length + (ws_chunk s.encode_needs_tab nsp).length,
                 encode_buffer_column :=
                   chunk_column s.encode_buffer_column s.encode_needs_tab nsp,
                 encode_needs_tab := decide (nsp ≠ 0) }) := by
  unfold encode_append_whitespace chunk_column ws_chunk
  cases hn : s.encode_needs_tab <;> by_cases h0 : nsp = 0 <;>
    simp [h0, append_tab, append_spaces_eq, Nat.add_assoc, Nat.add_comm 1 nsp]

theorem display_width_ws_chunk (l : List Char) (b : Bool) (nsp : Nat) :
    display_width (l ++ ws_chunk b nsp) = chunk_column (display_width l) b nsp := by
  unfold ws_chunk chunk_column
  cases b <;> by_cases h0 : nsp = 0 <;>
    simp only [h0, if_true, if_false, List.nil_append, Bool.false_eq_true, ← List.append_assoc,
      display_width_append_tab, display_width_append_spaces]

theorem all_blank_ws_chunk (b : Bool) (nsp : Nat) : all_blank (ws_chunk b nsp) := by
  unfold ws_chunk
  apply all_blank_append
  · cases b
    · exact all_blank_nil
    · exact all_blank_tab
  · split
    · exact all_blank_tab
    · exact all_blank_spaces nsp

/-! ### The steps of the encoder keep the layout -/

theorem layout_start (T : Nat) (cover : List (List Char)) :
    Layout T cover (EncodeState.start cover) where
  written := by intro i l h; simp [EncodeState.start] at h
  current := by intro h; simp [EncodeState.start] at h
  idle := by intro _; simp [EncodeState.start]

theorem layout_load_idle {T : Nat} {cover : List (List Char)} {s : EncodeState}
    (h : Layout T cover s) (hl : s.encode_buffer_loaded = false) :
    Layout T cover (encode_buffer_load s) := by
  have hinf := h.idle hl
  unfold encode_buffer_load
  rcases wsgets_drop cover s.outf.length with ⟨_, hw⟩ | ⟨_, hw, hb, hd⟩
  · rw [hinf, hw]
    exact { written := h.written
            current := fun _ => ⟨line_ok_base T _, column_after_zero _, rfl⟩
            idle := fun hc => by simp at hc }
  · rw [hinf, hw]
    refine { written := h.written, current := fun _ => ⟨?_, rfl, ?_⟩,
             idle := fun hc => by simp at hc }
    · show line_ok T (nth_base cover s.outf.length) []
      rw [hb]; exact line_ok_base T []
    · show List.drop s.outf.length cover = List.drop (s.outf.length + 1) cover
      rw [hd, List.drop_eq_nil_iff.2 (by assumption)]

theorem layout_wsputs_idle {T : Nat} {cover : List (List Char)} {s : EncodeState}
    (h : Layout T cover s) (hl : s.encode_buffer_loaded = true) :
    Layout T cover { wsputs_buffer s with encode_buffer_loaded := false,
                                          encode_buffer_length := 0,
                                          encode_buffer_column := 0 } := by
  obtain ⟨h1, h2, h3⟩ := h.current hl
  refine { written := ?_, current := fun hc => by simp at hc, idle := fun _ => ?_ }
  · intro i l hi
    simp only [wsputs_buffer] at hi
    rcases Nat.lt_or_ge i s.outf.length with hlt | hge
    · rw [List.getElem?_append_left hlt] at hi
      exact h.written i l hi
    · rw [List.getElem?_append_right hge] at hi
      rcases Nat.eq_zero_or_pos (i - s.outf.length) with h0 | hpos
      · rw [h0] at hi
        simp only [List.getElem?_cons_zero, Option.some.injEq] at hi
        have hi' : i = s.outf.length := by omega
        rw [hi', ← hi]; exact h1
      · rw [List.getElem?_eq_none (by simp only [List.length_singleton]; omega)] at hi
        cases hi
  · simp [wsputs_buffer, h3]

theorem encode_buffer_load_wsputs (s : EncodeState) :
    encode_buffer_load (wsputs_buffer s) =
      encode_buffer_load { wsputs_buffer s with encode_buffer_loaded := false,
                                                encode_buffer_length := 0,
                                                encode_buffer_column := 0 } := by
  unfold encode_buffer_load
  cases h : wsgets (wsputs_buffer s).inf <;> simp [h]

theorem layout_next_line {T : Nat} {cover : List (List Char)} {s : EncodeState}
    (h : Layout T cover s) (hl : s.encode_buffer_loaded = true) :
    Layout T cover (encode_buffer_load (wsputs_buffer s)) := by
  rw [encode_buffer_load_wsputs]
  exact layout_load_idle (layout_wsputs_idle h hl) rfl

theorem encode_buffer_load_loaded (s : EncodeState) :
    (encode_buffer_load s).encode_buffer_loaded = true := by
  unfold encode_buffer_load
  cases wsgets s.inf <;> rfl

theorem layout_append_tab {T : Nat} {cover : List (List Char)} {s : EncodeState}
    (h : Layout T cover s) (hl : s.encode_buffer_loaded = true)
    (hfit : tabpos s.encode_buffer_column < T) :
    Layout T cover (append_tab s) := by
  obtain ⟨h1, h2, h3⟩ := h.current hl
  refine { written := h.written, current := fun _ => ⟨?_, ?_, h3⟩, idle := fun hc => ?_ }
  · exact line_ok_extend _ h1 all_blank_tab (by rw [display_width_append_tab, ← h2]; exact hfit)
  · simp [append_tab, display_width_append_tab, h2]
  · simp [append_tab, hl] at hc

theorem layout_append_whitespace {T : Nat} {cover : List (List Char)} {s : EncodeState}
    (nsp : Nat) (h : Layout T cover s) (hl : s.encode_buffer_loaded = true) :
    Layout T cover (encode_append_whitespace T nsp s).2 ∧
    (encode_append_whitespace T nsp s).2.encode_buffer_loaded = true := by
  rw [encode_append_whitespace_eq]
  split
  · exact ⟨h, hl⟩
  · rename_i hfit
    obtain ⟨h1, h2, h3⟩ := h.current hl
    refine ⟨{ written := h.written, current := fun _ => ⟨?_, ?_, h3⟩, idle := fun hc => ?_ }, hl⟩
    · exact line_ok_extend _ h1 (all_blank_ws_chunk _ _)
        (by rw [display_width_ws_chunk, ← h2]; omega)
    · simp only [display_width_ws_chunk, h2]
    · simp [hl] at hc

theorem layout_load_until_tab_fits {T : Nat} {cover : List (List Char)} (fuel : Nat) :
    ∀ s, Layout T cover s → s.encode_buffer_loaded = true →
      Layout T cover (load_until_tab_fits T fuel s).state ∧
      (load_until_tab_fits T fuel s).state.encode_buffer_loaded = true ∧
      ∀ t, load_until_tab_fits T fuel s = .ok t → tabpos t.encode_buffer_column < T := by
  induction fuel with
  | zero =>
    intro s h hl
    unfold load_until_tab_fits
    split
    · exact ⟨h, hl, fun t ht => by cases ht⟩
    · rename_i hc
      exact ⟨h, hl, fun t ht => by cases ht; omega⟩
  | succ n ih =>
    intro s h hl
    unfold load_until_tab_fits
    split
    · exact ih _ (layout_next_line h hl) (encode_buffer_load_loaded _)
    · rename_i hc
      exact ⟨h, hl, fun t ht => by cases ht; omega⟩

theorem layout_append_until_fits {T : Nat} {cover : List (List Char)} (nspc fuel : Nat) :
    ∀ s, Layout T cover s → s.encode_buffer_loaded = true →
      Layout T cover (append_until_fits T nspc fuel s).state ∧
      (append_until_fits T nspc fuel s).state.encode_buffer_loaded = true := by
  induction fuel with
  | zero =>
    intro s h hl
    have := layout_append_whitespace nspc h hl
    unfold append_until_fits
    rcases hr : encode_append_whitespace T nspc s with ⟨b, s1⟩
    rw [hr] at this
    cases b <;> exact this
  | succ n ih =>
    intro s h hl
    have := layout_append_whitespace nspc h hl
    unfold append_until_fits
    rcases hr : encode_append_whitespace T nspc s with ⟨b, s1⟩
    rw [hr] at this
    cases b
    · exact ih _ (layout_next_line this.1 this.2) (encode_buffer_load_loaded _)
    · exact this

theorem layout_set_counters {T : Nat} {cover : List (List Char)} {s : EncodeState}
    (h : Layout T cover s) (a b c d : Nat) (f : Bool) :
    Layout T cover { s with encode_bit_count := a, encode_value := b, encode_bits_used := c,
                            encode_bits_available := d, encode_first_tab := f } :=
  { written := h.written, current := h.current, idle := h.idle }

theorem layout_encode_write_value {T : Nat} {cover : List (List Char)} (fuel val : Nat)
    (s : EncodeState) (h : Layout T cover s) :
    Layout T cover (encode_write_value T fuel val s).state ∧
    (encode_write_value T fuel val s).state.encode_buffer_loaded = true := by
  unfold encode_write_value
  simp only []
  have h1 : Layout T cover (if s.encode_buffer_loaded then s else encode_buffer_load s) ∧
      (if s.encode_buffer_loaded then s else encode_buffer_load s).encode_buffer_loaded = true := by
    cases hl : s.encode_buffer_loaded
    · exact ⟨layout_load_idle h hl, encode_buffer_load_loaded s⟩
    · exact ⟨h, hl⟩
  generalize (if s.encode_buffer_loaded then s else encode_buffer_load s) = s1 at h1
  let P : EncodeState → Prop := fun t => Layout T cover t ∧ t.encode_buffer_loaded = true
  have h2 : P (if s1.encode_first_tab = true then Outcome.ok s1
      else (load_until_tab_fits T fuel s1).andThen fun s2 =>
        .ok { append_tab s2 with encode_first_tab := true }).state := by
    split
    · exact h1
    · have hL := layout_load_until_tab_fits fuel s1 h1.1 h1.2
      rcases ho : load_until_tab_fits T fuel s1 with t | ⟨e, t⟩ | t
      · rw [ho] at hL
        have := layout_append_tab hL.1 hL.2.1 (hL.2.2 t rfl)
        exact ⟨layout_set_counters this _ _ _ _ true, hL.2.1⟩
      · rw [ho] at hL; exact ⟨hL.1, hL.2.1⟩
      · rw [ho] at hL; exact ⟨hL.1, hL.2.1⟩
  refine Outcome.state_andThen P _ _ h2 ?_
  intro s3 h3
  refine Outcome.state_andThen P _ _ (layout_append_until_fits _ fuel s3 h3.1 h3.2) ?_
  intro s4 h4
  split
  · exact ⟨layout_set_counters h4.1 _ _ _ _ _, h4.2⟩
  · exact h4

theorem layout_encode_bit {T : Nat} {cover : List (List Char)} (fuel : Nat) (bit : Bool)
    (s : EncodeState) (h : Layout T cover s) :
    Layout T cover (encode_bit T fuel bit s).state := by
  unfold encode_bit
  simp only []
  split
  · refine Outcome.state_andThen (Layout T cover) _ _
      (layout_encode_write_value fuel _ _ (layout_set_counters h _ _ _ _ _)).1 ?_
    intro s2 h2
    exact layout_set_counters h2 _ _ _ _ _
  · exact layout_set_counters h _ _ _ _ _

theorem encode_pad_layout {T : Nat} {cover : List (List Char)} (k : Nat) :
    ∀ s, Layout T cover s → Layout T cover (encode_pad k s) := by
  induction k with
  | zero => intro s h; exact h
  | succ k ih =>
    intro s h
    unfold encode_pad
    split
    · exact ih _ (layout_set_counters h _ _ _ _ _)
    · exact h

theorem copy_rest_eq (T : Nat) (ls : List (List Char)) :
    ∀ n out, (copy_rest T ls n out).2 = out ++ ls.map ws_strip := by
  induction ls with
  | nil => intro n out; simp [copy_rest]
  | cons l rest ih => intro n out; simp [copy_rest, ih]

theorem layout_encode_write_flush {T : Nat} {cover : List (List Char)}
    (s : EncodeState) (h : Layout T cover s) :
    Layout T cover (encode_write_flush T s) ∧
    cover.length ≤ (encode_write_flush T s).outf.length := by
  unfold encode_write_flush
  simp only []
  have h1 : Layout T cover (if s.encode_buffer_loaded = true then
      { wsputs_buffer s with encode_buffer_loaded := false,
                             encode_buffer_length := 0, encode_buffer_column := 0 }
      else s) ∧ (if s.encode_buffer_loaded = true then
      { wsputs_buffer s with encode_buffer_loaded := false,
                             encode_buffer_length := 0, encode_buffer_column := 0 }
      else s).encode_buffer_loaded = false := by
    cases hl : s.encode_buffer_loaded
    · exact ⟨h, hl⟩
    · exact ⟨layout_wsputs_idle h hl, rfl⟩
  generalize (if s.encode_buffer_loaded = true then
      { wsputs_buffer s with encode_buffer_loaded := false,
                             encode_buffer_length := 0, encode_buffer_column := 0 }
      else s) = s1 at h1
  have hinf := h1.1.idle h1.2
  rw [copy_rest_eq]
  have hlen : cover.length ≤ (s1.outf ++ s1.inf.map ws_strip).length := by
    rw [hinf]; simp; omega
  refine ⟨{ written := ?_, current := fun hc => ?_, idle := fun _ => ?_ }, hlen⟩
  · intro i l hi
    simp only at hi
    rcases Nat.lt_or_ge i s1.outf.length with hlt | hge
    · rw [List.getElem?_append_left hlt] at hi
      exact h1.1.written i l hi
    · rw [List.getElem?_append_right hge, hinf, List.getElem?_map, List.getElem?_drop] at hi
      have hidx : s1.outf.length + (i - s1.outf.length) = i := by omega
      rw [hidx] at hi
      rcases hc : cover[i]? with _ | x
      · rw [hc] at hi; cases hi
      · rw [hc] at hi
        simp only [Option.map_some', Option.some.injEq] at hi
        rw [← hi]
        have : nth_base cover i = ws_strip x := by
          simp [nth_base, List.getD_eq_getElem?_getD, hc]
        rw [this]
        exact line_ok_base T _
  · simp only at hc; rw [h1.2] at hc; cases hc
  · simp only
    exact (List.drop_eq_nil_iff.2 hlen).symm

theorem layout_encode_flush {T : Nat} {cover : List (List Char)} (fuel : Nat)
    (s : EncodeState) (h : Layout T cover s) :
    Layout T cover (encode_flush T fuel s).state ∧
    ∀ t, encode_flush T fuel s = .ok t → cover.length ≤ t.outf.length := by
  unfold encode_flush
  simp only []
  have h2 : Layout T cover (if s.encode_bit_count > 0 then
      encode_write_value T fuel (encode_pad 3 s).encode_value (encode_pad 3 s)
      else Outcome.ok s).state := by
    split
    · exact (layout_encode_write_value fuel _ _ (encode_pad_layout 3 s h)).1
    · exact h
  generalize (if s.encode_bit_count > 0 then
      encode_write_value T fuel (encode_pad 3 s).encode_value (encode_pad 3 s)
      else Outcome.ok s) = o at h2
  cases o with
  | ok s2 =>
    refine ⟨(layout_encode_write_flush s2 h2).1, fun t ht => ?_⟩
    simp only [Outcome.andThen_ok, Outcome.ok.injEq] at ht
    rw [← ht]
    exact (layout_encode_write_flush s2 h2).2
  | failed e s2 => exact ⟨h2, fun t ht => by cases ht⟩
  | looping s2 => exact ⟨h2, fun t ht => by cases ht⟩

/-! ### The layout through the cipher and Huffman stages -/

theorem layout_encrypt_bit {cover : List (List Char)} (cfg : Config) (bit : Bool)
    (st : EmbedState) (h : Layout cfg.line_length cover st.enc) :
    Layout cfg.line_length cover (encrypt_bit cfg bit st).state.enc := by
  unfold encrypt_bit
  split <;> simp only [Outcome.state_map] <;> exact layout_encode_bit _ _ _ h

theorem layout_compress_emit {cover : List (List Char)} (cfg : Config) (code : List Char) :
    ∀ st : EmbedState, Layout cfg.line_length cover st.enc →
      Layout cfg.line_length cover (compress_emit cfg code st).state.enc := by
  induction code with
  | nil => intro st h; exact h
  | cons c cs ih =>
    intro st h
    unfold compress_emit
    split
    · exact Outcome.state_andThen (fun t : EmbedState => Layout cfg.line_length cover t.enc) _ _
        (layout_encrypt_bit cfg _ st h) (fun s hs => ih _ hs)
    · exact h

theorem layout_compress_bit {cover : List (List Char)} (cfg : Config) (bit : Bool)
    (st : EmbedState) (h : Layout cfg.line_length cover st.enc) :
    Layout cfg.line_length cover (compress_bit cfg bit st).state.enc := by
  unfold compress_bit
  split
  · exact layout_encrypt_bit cfg bit st h
  · simp only []
    split
    · exact Outcome.state_andThen (fun t : EmbedState => Layout cfg.line_length cover t.enc) _ _
        (layout_compress_emit cfg _ _ h) (fun s hs => hs)
    · exact h

theorem layout_character_encode_from {cover : List (List Char)} (cfg : Config) (c n : Nat) :
    ∀ i (st : EmbedState), Layout cfg.line_length cover st.enc →
      Layout cfg.line_length cover (character_encode_from cfg c n i st).state.enc := by
  induction n with
  | zero => intro i st h; exact h
  | succ n ih =>
    intro i st h
    unfold character_encode_from
    exact Outcome.state_andThen (fun t : EmbedState => Layout cfg.line_length cover t.enc) _ _
      (layout_compress_bit cfg _ st h) (fun s hs => ih _ s hs)

theorem layout_message_loop {cover : List (List Char)} (cfg : Config) (msg : List Nat) :
    ∀ st : EmbedState, Layout cfg.line_length cover st.enc →
      Layout cfg.line_length cover (message_loop cfg msg st).state.enc := by
  induction msg with
  | nil => intro st h; exact h
  | cons c cs ih =>
    intro st h
    unfold message_loop
    exact Outcome.state_andThen (fun t : EmbedState => Layout cfg.line_length cover t.enc) _ _
      (layout_character_encode_from cfg c 8 0 st h) (fun s hs => ih s hs)

theorem layout_compress_flush {cover : List (List Char)} (cfg : Config)
    (st : EmbedState) (h : Layout cfg.line_length cover st.enc) :
    Layout cfg.line_length cover (compress_flush cfg st).state.enc ∧
    ∀ t, compress_flush cfg st = .ok t → cover.length ≤ t.enc.outf.length := by
  unfold compress_flush encrypt_flush
  have := layout_encode_flush cfg.fuel st.enc h
  refine ⟨by simpa using this.1, fun t ht => ?_⟩
  obtain ⟨e, he, hte⟩ := Outcome.map_eq_ok.1 ht
  rw [← hte]
  exact this.2 e he

theorem compress_init_start (crypt : CryptState) (cover : List (List Char)) :
    compress_init (EmbedState.start crypt cover) = EmbedState.start crypt cover := rfl

theorem layout_embed (cfg : Config) (crypt : CryptState) (msg : List Nat)
    (cover : List (List Char)) :
    Layout cfg.line_length cover (embed cfg crypt msg cover).state.enc ∧
    ∀ t, embed cfg crypt msg cover = .ok t → cover.length ≤ t.enc.outf.length := by
  unfold embed message_fp_encode
  rw [compress_init_start]
  have h0 : Layout cfg.line_length cover (EmbedState.start crypt cover).enc :=
    layout_start _ cover
  have h1 := layout_message_loop cfg msg _ h0
  generalize message_loop cfg msg (EmbedState.start crypt cover) = o at h1
  cases o with
  | ok s => exact layout_compress_flush cfg s h1
  | failed e s => exact ⟨h1, fun t ht => by cases ht⟩
  | looping s => exact ⟨h1, fun t ht => by cases ht⟩

theorem rdropWhile_append_all (p : Char → Bool) (l w : List Char) (hw : ∀ c ∈ w, p c = true) :
    (l ++ w).rdropWhile p = l.rdropWhile p := by
  induction w using List.reverseRecOn with
  | nil => simp
  | append_singleton w c ih =>
    rw [← List.append_assoc, List.rdropWhile_concat_pos _ _ _ (hw c (by simp))]
    exact ih (fun x hx => hw x (by simp [hx]))

theorem rdropWhile_blank_ws_strip (l : List Char) :
    (ws_strip l).rdropWhile is_blank = ws_strip l := by
  rw [List.rdropWhile_eq_self_iff]
  intro hl hb
  have := List.rdropWhile_last_not is_strip_char l hl
  apply this
  unfold is_blank at hb
  unfold is_strip_char
  simp only [Bool.or_eq_true] at hb ⊢
  rcases hb with hb | hb
  · exact Or.inl (Or.inl (Or.inl hb))
  · exact Or.inl (Or.inl (Or.inr hb))

/-! ## Failures of the extractor -/

theorem output_bit_ok (bit : Bool) (st : DecodeState) : ∃ t, output_bit bit st = .ok t := by
  unfold output_bit
  simp only []
  split <;> exact ⟨_, rfl⟩

theorem output_code_ok (code n : Nat) : ∀ i st, ∃ t, output_code code n i st = .ok t := by
  induction n with
  | zero => intro i st; exact ⟨st, rfl⟩
  | succ n ih =>
    intro i st
    unfold output_code
    obtain ⟨t, ht⟩ := output_bit_ok (decide ((code &&& (128 >>> i)) ≠ 0)) st
    rw [ht]
    exact ih (i + 1) t

theorem uncompress_bit_cases (cfg : Config) (bit : Bool) (st : DecodeState) :
    (∃ t, uncompress_bit cfg bit st = .ok t) ∨
    (cfg.compress_flag = true ∧ ∃ t, uncompress_bit cfg bit st = .failed .huffman_overflow t) := by
  unfold uncompress_bit
  cases hc : cfg.compress_flag
  · left; simpa using output_bit_ok bit st
  · simp only [Bool.not_true, Bool.false_eq_true, if_false]
    have key : ∀ o : Outcome DecodeState, (∃ t, o = .ok t) →
        (∃ t, (o.andThen fun st3 =>
          if st3.uncompress_bit_count ≥ 255 then .failed .huffman_overflow st3 else .ok st3)
            = .ok t) ∨
        (∃ t, (o.andThen fun st3 =>
          if st3.uncompress_bit_count ≥ 255 then .failed .huffman_overflow st3 else .ok st3)
            = .failed .huffman_overflow t) := by
      rintro o ⟨t, rfl⟩
      simp only [Outcome.andThen_ok]
      split
      · right; exact ⟨t, rfl⟩
      · left; exact ⟨t, rfl⟩
    refine (key _ ?_).imp id (fun h => ⟨trivial, h⟩)
    split
    · rename_i code _
      obtain ⟨t, ht⟩ := output_code_ok code 8 0
        { st with uncompress_value := st.uncompress_value.take st.uncompress_bit_count ++
                    [if bit then '1' else '0'],
                  uncompress_bit_count := st.uncompress_bit_count + 1 }
      rw [ht]
      exact ⟨_, rfl⟩
    · exact ⟨_, rfl⟩

theorem decrypt_bit_cases (cfg : Config) (bit : Bool) (st : ExtractState) :
    (∃ t, decrypt_bit cfg bit st = .ok t) ∨
    (cfg.compress_flag = true ∧ ∃ t, decrypt_bit cfg bit st = .failed .huffman_overflow t) := by
  unfold decrypt_bit
  split
  · rcases uncompress_bit_cases cfg bit st.dec with ⟨t, ht⟩ | ⟨hc, t, ht⟩
    · left; rw [ht]; exact ⟨_, rfl⟩
    · right; rw [ht]; exact ⟨hc, _, rfl⟩
  · rename_i E _
    simp only []
    rcases uncompress_bit_cases cfg (decrypt_step E st.crypt.encrypt_iv_block bit).1 st.dec
      with ⟨t, ht⟩ | ⟨hc, t, ht⟩
    · left; rw [ht]; exact ⟨_, rfl⟩
    · right; rw [ht]; exact ⟨hc, _, rfl⟩

theorem fails_decoding_andThen {cfg : Config} {o : Outcome ExtractState}
    (f : ExtractState → Outcome ExtractState) (h : fails_decoding cfg o) :
    fails_decoding cfg (o.andThen f) := by
  obtain ⟨e, st, rfl, he⟩ := h
  exact ⟨e, st, rfl, he⟩

theorem decrypt_bit_ok_or_fails (cfg : Config) (bit : Bool) (st : ExtractState) :
    (∃ t, decrypt_bit cfg bit st = .ok t) ∨ fails_decoding cfg (decrypt_bit cfg bit st) := by
  rcases decrypt_bit_cases cfg bit st with h | ⟨hc, t, ht⟩
  · exact Or.inl h
  · exact Or.inr ⟨_, t, ht, Or.inr ⟨hc, rfl⟩⟩

theorem decode_bits_ok_or_fails (cfg : Config) (spc : Nat) (st : ExtractState) :
    (∃ t, decode_bits cfg spc st = .ok t) ∨ fails_decoding cfg (decode_bits cfg spc st) := by
  unfold decode_bits
  split
  · rename_i h
    exact Or.inr ⟨_, st, rfl, Or.inl ⟨spc, h, rfl⟩⟩
  · rcases decrypt_bit_ok_or_fails cfg (decide ((spc &&& 1) ≠ 0)) st with ⟨t1, h1⟩ | h1
    · rw [h1, Outcome.andThen_ok]
      rcases decrypt_bit_ok_or_fails cfg (decide ((spc &&& 2) ≠ 0)) t1 with ⟨t2, h2⟩ | h2
      · rw [h2, Outcome.andThen_ok]
        exact decrypt_bit_ok_or_fails cfg _ t2
      · exact Or.inr (fails_decoding_andThen _ h2)
    · exact Or.inr (fails_decoding_andThen _ h1)

theorem decode_bits_fails (cfg : Config) (spc : Nat) (st : ExtractState) (h : 7 < spc) :
    fails_decoding cfg (decode_bits cfg spc st) := by
  unfold decode_bits
  rw [if_pos h]
  exact ⟨_, st, rfl, Or.inl ⟨spc, h, rfl⟩⟩

theorem decode_whitespace_ok_or_fails (cfg : Config) (s : List Char) :
    ∀ spc st, (∃ t, decode_whitespace cfg s spc st = .ok t) ∨
      fails_decoding cfg (decode_whitespace cfg s spc st) := by
  induction s with
  | nil =>
    intro spc st
    unfold decode_whitespace
    split
    · exact decode_bits_ok_or_fails cfg spc st
    · exact Or.inl ⟨st, rfl⟩
  | cons c cs ih =>
    intro spc st
    unfold decode_whitespace
    split
    · exact ih _ _
    · split
      · rcases decode_bits_ok_or_fails cfg spc st with ⟨t, ht⟩ | hf
        · rw [ht, Outcome.andThen_ok]; exact ih _ _
        · exact Or.inr (fails_decoding_andThen _ hf)
      · split
        · split
          · exact decode_bits_ok_or_fails cfg spc st
          · exact Or.inl ⟨st, rfl⟩
        · exact ih _ _

theorem decode_whitespace_spaces (cfg : Config) (n : Nat) (rest : List Char) :
    ∀ spc st, decode_whitespace cfg (List.replicate n ' ' ++ rest) spc st =
      decode_whitespace cfg rest (spc + n) st := by
  induction n with
  | zero => intro spc st; simp
  | succ n ih =>
    intro spc st
    rw [List.replicate_succ, List.cons_append, decode_whitespace, if_pos rfl, ih]
    congr 1; omega

theorem decode_whitespace_long_run (cfg : Config) (A B : List Char) (n : Nat) (hn : 8 ≤ n)
    (hA : all_blank A) :
    ∀ spc st, fails_decoding cfg
      (decode_whitespace cfg (A ++ List.replicate n ' ' ++ '\t' :: B) spc st) := by
  induction A with
  | nil =>
    intro spc st
    rw [List.nil_append, decode_whitespace_spaces, decode_whitespace,
      if_neg (by decide), if_pos rfl]
    exact fails_decoding_andThen _ (decode_bits_fails cfg _ st (by omega))
  | cons c cs ih =>
    intro spc st
    have hcs : all_blank cs := fun x hx => hA x (List.mem_cons_of_mem _ hx)
    have hc := hA c (List.mem_cons_self _ _)
    simp only [is_blank, Bool.or_eq_true, beq_iff_eq] at hc
    simp only [List.cons_append]
    unfold decode_whitespace
    rcases hc with hc | hc
    · rw [if_pos hc]; exact ih hcs _ _
    · subst hc
      rw [if_neg (by decide), if_pos rfl]
      rcases decode_bits_ok_or_fails cfg spc st with ⟨t, ht⟩ | hf
      · rw [ht, Outcome.andThen_ok]; exact ih hcs _ _
      · exact fails_decoding_andThen _ hf

theorem scan_line_blank (l : List Char) :
    ∀ acc r, (∀ a, acc = some a → all_blank a) → scan_line l acc = some r → all_blank r := by
  induction l with
  | nil =>
    intro acc r hacc h
    exact hacc r h
  | cons c cs ih =>
    intro acc r hacc h
    unfold scan_line at h
    split at h
    · exact hacc r h
    · split at h
      · exact ih none r (fun a ha => by cases ha) h
      · rename_i hb
        have hcb : all_blank [c] := by
          intro x hx
          simp only [List.mem_singleton] at hx
          subst hx
          simp only [not_and_or, not_not] at hb
          rcases hb with hb | hb <;> rw [hb] <;> rfl
        split at h
        · exact ih _ r (fun a ha => by cases ha; exact hcb) h
        · rename_i run
          exact ih _ r (fun a ha => by
            cases ha; exact all_blank_append (hacc run rfl) hcb) h

theorem line_action_found_of_found (buf : List Char) :
    (line_action buf true).1 = true := by
  unfold line_action
  split
  · rfl
  · simp

theorem line_action_found_of_tab (buf : List Char) (start : Bool) (r : List Char)
    (h : scan_line buf none = some ('\t' :: r)) : (line_action buf start).1 = true := by
  unfold line_action
  rw [h]
  cases start
  · simp only [Bool.not_false, List.head?_cons, Option.some.injEq, true_and, List.tail_cons]
    rw [if_neg (by decide), if_pos trivial]
    split <;> rfl
  · simp

theorem extract_loop_rejects (cfg : Config) (L A B : List Char) (post : List (List Char))
    (n : Nat) (hn : 8 ≤ n)
    (hrun : scan_line L none = some (A ++ List.replicate n ' ' ++ '\t' :: B))
    (pre : List (List Char)) :
    ∀ start st,
      (start = true ∨ (∃ l ∈ pre, ∃ r, scan_line l none = some ('\t' :: r)) ∨
        ∃ r, A = '\t' :: r) →
      fails_decoding cfg (extract_loop cfg (pre ++ L :: post) start st) := by
  have hblank := scan_line_blank L none _ (fun a ha => by cases ha) hrun
  have hA : all_blank A := fun c hc => hblank c (by simp [hc])
  induction pre with
  | nil =>
    intro start st hs
    rw [List.nil_append]
    unfold extract_loop
    have hact : ∃ A1, all_blank A1 ∧ line_action L start =
        (true, some (A1 ++ List.replicate n ' ' ++ '\t' :: B)) := by
      unfold line_action
      rw [hrun]
      cases start
      · rcases hs with hs | ⟨l, hl, _⟩ | ⟨r, hr⟩
        · cases hs
        · cases hl
        · subst hr
          refine ⟨r, fun c hc => hA c (List.mem_cons_of_mem _ hc), ?_⟩
          simp only [Bool.not_false, List.cons_append, List.head?_cons, Option.some.injEq,
            true_and, List.tail_cons]
          rw [if_neg (by decide), if_pos trivial, if_neg]
          intro h
          have := congrArg List.length h
          simp at this
      · exact ⟨A, hA, by simp⟩
    obtain ⟨A1, hA1, hact⟩ := hact
    rw [hact]
    exact fails_decoding_andThen _ (decode_whitespace_long_run cfg A1 B n hn hA1 0 st)
  | cons l pre ih =>
    intro start st hs
    rw [List.cons_append]
    unfold extract_loop
    have hnext : (line_action l start).1 = true ∨
        (∃ l0 ∈ pre, ∃ r, scan_line l0 none = some ('\t' :: r)) ∨ ∃ r, A = '\t' :: r := by
      rcases hs with hs | ⟨l0, hl0, r, hr⟩ | hs
      · left; rw [hs]; exact line_action_found_of_found l
      · rcases List.mem_cons.1 hl0 with h | h
        · left; subst h; exact line_action_found_of_tab _ start r hr
        · right; left; exact ⟨l0, h, r, hr⟩
      · right; right; exact hs
    rcases hact : line_action l start with ⟨found, _ | s⟩
    · rw [hact] at hnext
      exact ih found st hnext
    · rw [hact] at hnext
      simp only []
      rcases decode_whitespace_ok_or_fails cfg s 0 st with ⟨t, ht⟩ | hf
      · rw [ht, Outcome.andThen_ok]
        exact ih found t hnext
      · exact fails_decoding_andThen _ hf

/-- C7, as amended: when the trailing whitespace run of a line holds eight
or more consecutive spaces followed by a tab, and the start tab is found no
later than on this line (the run begins with a tab, or the run of an earlier
line does), `message_extract` returns FALSE: with the illegal-encoding error
for a count above 7 or, with compression on, with the Huffman overflow error
raised before that point. -/
theorem C7_illegal_encoding_rejected (cfg : Config) (crypt : CryptState)
    (pre post : List (List Char)) (L A B : List Char) (n : Nat) (hn : 8 ≤ n)
    (hrun : scan_line L none = some (A ++ List.replicate n ' ' ++ '\t' :: B))
    (hstart : (∃ l ∈ pre, ∃ r, scan_line l none = some ('\t' :: r)) ∨ ∃ r, A = '\t' :: r) :
    ∃ e st, message_extract cfg crypt (pre ++ L :: post) = .failed e st ∧
      ((∃ k, 7 < k ∧ e = .illegal_encoding k) ∨
       (cfg.compress_flag = true ∧ e = .huffman_overflow)) :=
  extract_loop_rejects cfg L A B post n hn hrun pre false _ (Or.inr hstart)

theorem C7_illegal_encoding_rejected_witness :
    ∃ e st, message_extract (plain_config 80 0) no_key
        ([] ++ ('x' :: '\t' :: (List.replicate 8 ' ' ++ ['\t', '\n'])) :: []) = .failed e st ∧
      ((∃ k, 7 < k ∧ e = .illegal_encoding k) ∨
       ((plain_config 80 0).compress_flag = true ∧ e = .huffman_overflow)) :=
  C7_illegal_encoding_rejected (plain_config 80 0) no_key [] []
    ('x' :: '\t' :: (List.replicate 8 ' ' ++ ['\t', '\n'])) ['\t'] [] 8 (by decide) (by rfl)
    (Or.inr ⟨[], rfl⟩)

/-- C7 fails as stated: the only line of the input has a trailing run of
eight spaces followed by a tab, and `message_extract` returns TRUE, the
line being skipped because no start tab has been found. -/
theorem C7_counterexample :
    scan_line ('x' :: (List.replicate 8 ' ' ++ ['\t', '\n'])) none =
      some (List.replicate 8 ' ' ++ ['\t']) ∧
    (message_extract (plain_config 80 0) no_key
      ['x' :: (List.replicate 8 ' ' ++ ['\t', '\n'])]).isOk = true := by
  decide

/-- C6 fails as stated: with line length 9 the first line written for the
one-line cover of ten `x` is that line, of display width 10. -/
theorem C6_counterexample :
    8 ≤ 9 ∧
    (embed_lines (plain_config 9 10) no_key [72] [List.replicate 10 'x'])[0]? =
      some (List.replicate 10 'x') ∧
    display_width (List.replicate 10 'x') = 10 ∧ ¬ 10 < 9 := by
  decide

/-! ## The extractor as a decoder of space counts -/

theorem feed_append {σ : Type} (f : Bool → σ → Outcome σ) (a b : List Bool) :
    ∀ st, feed f (a ++ b) st = (feed f a st).andThen (feed f b) := by
  induction a with
  | nil => intro st; rfl
  | cons x xs ih =>
    intro st
    simp only [List.cons_append, feed]
    cases f x st with
    | ok s => exact ih s
    | failed e s => rfl
    | looping s => rfl

theorem decode_tokens_append (cfg : Config) (a b : List Nat) :
    ∀ st, decode_tokens cfg (a ++ b) st = (decode_tokens cfg a st).andThen (decode_tokens cfg b) := by
  induction a with
  | nil => intro st; rfl
  | cons x xs ih =>
    intro st
    simp only [List.cons_append, decode_tokens]
    cases decode_bits cfg x st with
    | ok s => exact ih s
    | failed e s => rfl
    | looping s => rfl

theorem decode_whitespace_eq_tokens (cfg : Config) (s : List Char) :
    ∀ spc st, decode_whitespace cfg s spc st = decode_tokens cfg (ws_tokens s spc) st := by
  have hone : ∀ spc st, (if spc > 0 then decode_bits cfg spc st else Outcome.ok st) =
      decode_tokens cfg (if spc > 0 then [spc] else []) st := by
    intro spc st
    split
    · simp only [decode_tokens]
      cases decode_bits cfg spc st <;> rfl
    · rfl
  induction s with
  | nil => intro spc st; simp only [decode_whitespace, ws_tokens, hone]
  | cons c cs ih =>
    intro spc st
    unfold decode_whitespace ws_tokens
    split
    · exact ih _ _
    · split
      · simp only [decode_tokens]
        congr 1
        funext t
        exact ih 0 t
      · split
        · exact hone spc st
        · exact ih _ _

theorem extract_loop_eq_tokens (cfg : Config) (lines : List (List Char)) :
    ∀ start st, extract_loop cfg lines start st =
      decode_tokens cfg (lines_scan lines start).1 st := by
  induction lines with
  | nil => intro start st; rfl
  | cons buf rest ih =>
    intro start st
    rw [extract_loop, lines_scan]
    rcases line_action buf start with ⟨found, _ | s⟩
    · exact ih found st
    · simp only [decode_tokens_append, decode_whitespace_eq_tokens]
      congr 1
      funext t
      exact ih found t

theorem lines_scan_cons (buf : List Char) (rest : List (List Char)) (start : Bool) :
    lines_scan (buf :: rest) start =
      ((match (line_action buf start).2 with
        | none => []
        | some s => ws_tokens s 0) ++ (lines_scan rest (line_action buf start).1).1,
       (lines_scan rest (line_action buf start).1).2) := by
  rw [lines_scan]
  rcases line_action buf start with ⟨found, _ | s⟩ <;> rfl

theorem lines_scan_append (a b : List (List Char)) :
    ∀ start, lines_scan (a ++ b) start =
      ((lines_scan a start).1 ++ (lines_scan b (lines_scan a start).2).1,
       (lines_scan b (lines_scan a start).2).2) := by
  induction a with
  | nil => intro start; rfl
  | cons buf rest ih =>
    intro start
    rw [List.cons_append, lines_scan_cons, lines_scan_cons buf rest, ih]
    simp only [List.append_assoc]

theorem decode_bits_eq_feed (cfg : Config) (spc : Nat) (st : ExtractState) (h : spc ≤ 7) :
    decode_bits cfg spc st = feed (decrypt_bit cfg) (token_bits spc) st := by
  unfold decode_bits token_bits
  rw [if_neg (by omega)]
  simp only [feed]
  congr 1
  funext s1
  congr 1
  funext s2
  cases decrypt_bit cfg (decide ((spc &&& 4) ≠ 0)) s2 <;> rfl

theorem decode_tokens_eq_feed (cfg : Config) (ts : List Nat) (h : ∀ t ∈ ts, t ≤ 7) :
    ∀ st, decode_tokens cfg ts st = feed (decrypt_bit cfg) (ts.flatMap token_bits) st := by
  induction ts with
  | nil => intro st; rfl
  | cons t ts ih =>
    intro st
    rw [decode_tokens, List.flatMap_cons, feed_append,
      decode_bits_eq_feed cfg t st (h t (List.mem_cons_self _ _))]
    congr 1
    funext s
    exact ih (fun x hx => h x (List.mem_cons_of_mem _ hx)) s

/-! ## How the extractor scans the lines the embedder writes -/

theorem clean_line_nil : clean_line [] :=
  ⟨fun c hc => (by cases hc), rfl⟩

theorem clean_line_ws_strip {cover : List (List Char)} (h : clean_cover cover)
    {l : List Char} (hl : l ∈ cover) : clean_line (ws_strip l) :=
  ⟨h l hl, rdropWhile_blank_ws_strip l⟩

theorem clean_cover_drop {cover : List (List Char)} (h : clean_cover cover) (n : Nat) :
    clean_cover (cover.drop n) :=
  fun l hl => h l (List.mem_of_mem_drop hl)

theorem is_blank_not_line_end {c : Char} (h : is_blank c = true) : is_line_end c = false := by
  simp only [is_blank, Bool.or_eq_true, beq_iff_eq] at h
  rcases h with h | h <;> subst h <;> rfl

theorem scan_line_cons (c : Char) (cs : List Char) (acc : Option (List Char)) :
    scan_line (c :: cs) acc =
      if is_line_end c then acc
      else if c ≠ ' ' ∧ c ≠ '\t' then scan_line cs none
      else scan_line cs (some (acc.getD [] ++ [c])) := by
  cases acc <;> simp only [scan_line, Option.getD, List.nil_append]

theorem scan_line_skip (l rest : List Char) (hne : l ≠ [])
    (hend : ∀ c ∈ l, is_line_end c = false)
    (hlast : is_blank (l.getLast hne) = false) :
    ∀ acc, scan_line (l ++ rest) acc = scan_line rest none := by
  induction l with
  | nil => exact absurd rfl hne
  | cons c cs ih =>
    intro acc
    have hc : is_line_end c = false := hend c (List.mem_cons_self _ _)
    rw [List.cons_append, scan_line_cons, if_neg (by simp [hc])]
    by_cases hcs : cs = []
    · subst hcs
      simp only [List.getLast_singleton, is_blank, Bool.or_eq_false_iff, beq_eq_false_iff_ne,
        ne_eq] at hlast
      rw [if_pos hlast]
      rfl
    · have hlast' : is_blank (cs.getLast hcs) = false := by
        rw [List.getLast_cons hcs] at hlast; exact hlast
      have ih' := ih hcs (fun x hx => hend x (List.mem_cons_of_mem _ hx)) hlast'
      split
      · exact ih' none
      · exact ih' _

theorem scan_line_blank_run (w rest : List Char) (hw : all_blank w) :
    ∀ run, scan_line (w ++ '\n' :: rest) (some run) = some (run ++ w) := by
  induction w with
  | nil => intro run; simp [scan_line, is_line_end]
  | cons c cs ih =>
    intro run
    have hc := hw c (List.mem_cons_self _ _)
    have hcs : all_blank cs := fun x hx => hw x (List.mem_cons_of_mem _ hx)
    rw [List.cons_append, scan_line_cons, if_neg (by simp [is_blank_not_line_end hc])]
    have hb : ¬ (c ≠ ' ' ∧ c ≠ '\t') := by
      simp only [is_blank, Bool.or_eq_true, beq_iff_eq] at hc
      rcases hc with hc | hc <;> simp [hc]
    rw [if_neg hb, ih hcs]
    simp

theorem scan_line_blank_start (w rest : List Char) (hw : all_blank w) :
    scan_line (w ++ '\n' :: rest) none = if w = [] then none else some w := by
  cases w with
  | nil => simp [scan_line, is_line_end]
  | cons c cs =>
    have hc := hw c (List.mem_cons_self _ _)
    have hcs : all_blank cs := fun x hx => hw x (List.mem_cons_of_mem _ hx)
    rw [List.cons_append, scan_line_cons, if_neg (by simp [is_blank_not_line_end hc])]
    have hb : ¬ (c ≠ ' ' ∧ c ≠ '\t') := by
      simp only [is_blank, Bool.or_eq_true, beq_iff_eq] at hc
      rcases hc with hc | hc <;> simp [hc]
    rw [if_neg hb, scan_line_blank_run cs rest hcs]
    simp

theorem scan_line_clean (base w : List Char) (hb : clean_line base) (hw : all_blank w) :
    scan_line (base ++ w ++ ['\n']) none = if w = [] then none else some w := by
  by_cases hne : base = []
  · subst hne
    rw [List.nil_append]
    exact scan_line_blank_start w [] hw
  · have hlast : is_blank (base.getLast hne) = false := by
      have := (List.rdropWhile_eq_self_iff.1 hb.2) hne
      simpa using this
    rw [List.append_assoc, scan_line_skip base _ hne hb.1 hlast]
    exact scan_line_blank_start w [] hw

theorem line_action_clean (base : List Char) (hb : clean_line base) (start : Bool) :
    line_action (base ++ ['\n']) start = (start, none) := by
  have := scan_line_clean base [] hb all_blank_nil
  rw [List.append_nil, if_pos rfl] at this
  rw [line_action, this]

theorem line_action_started (base w : List Char) (hb : clean_line base) (hw : all_blank w)
    (hne : w ≠ []) :
    line_action (base ++ w ++ ['\n']) true = (true, some w) := by
  rw [line_action, scan_line_clean base w hb hw, if_neg hne]
  simp

theorem line_action_sentinel (base w : List Char) (hb : clean_line base) (hw : all_blank w) :
    line_action (base ++ '\t' :: w ++ ['\n']) false =
      (true, if w = [] then none else some w) := by
  have hw' : all_blank ('\t' :: w) := by
    intro c hc
    rcases List.mem_cons.1 hc with h | h
    · subst h; rfl
    · exact hw c h
  have := scan_line_clean base ('\t' :: w) hb hw'
  rw [if_neg (by simp)] at this
  rw [line_action]
  simp only [List.append_assoc] at this ⊢
  rw [this]
  simp only [Bool.not_false, List.head?_cons, Option.some.injEq, true_and, List.tail_cons]
  rw [if_neg (by decide), if_pos trivial]
  split <;> rfl

theorem lines_scan_clean (ls : List (List Char)) (h : ∀ l ∈ ls, clean_line l) :
    ∀ start, lines_scan (stego_read ls) start = ([], start) := by
  induction ls with
  | nil => intro start; rfl
  | cons l rest ih =>
    intro start
    simp only [stego_read, List.map_cons]
    rw [lines_scan_cons, line_action_clean l (h l (List.mem_cons_self _ _))]
    simp only [List.nil_append]
    exact ih (fun x hx => h x (List.mem_cons_of_mem _ hx)) start

theorem stego_read_append (a b : List (List Char)) :
    stego_read (a ++ b) = stego_read a ++ stego_read b := by
  simp [stego_read]

/-! ### Space counts in a run of spaces and tabs -/

theorem ws_scan_append (a b : List Char) :
    ∀ spc, ws_scan (a ++ b) spc =
      ((ws_scan a spc).1 ++ (ws_scan b (ws_scan a spc).2).1,
       (ws_scan b (ws_scan a spc).2).2) := by
  induction a with
  | nil => intro spc; rfl
  | cons c cs ih =>
    intro spc
    rw [List.cons_append, ws_scan, ws_scan]
    split
    · exact ih _
    · split
      · simp only [ih 0, List.cons_append]
      · exact ih _

theorem ws_tokens_eq_scan (w : List Char) (hw : all_blank w) :
    ∀ spc, ws_tokens w spc =
      (ws_scan w spc).1 ++ (if (ws_scan w spc).2 > 0 then [(ws_scan w spc).2] else []) := by
  induction w with
  | nil => intro spc; simp [ws_tokens, ws_scan]
  | cons c cs ih =>
    intro spc
    have hc := hw c (List.mem_cons_self _ _)
    have hcs : all_blank cs := fun x hx => hw x (List.mem_cons_of_mem _ hx)
    simp only [is_blank, Bool.or_eq_true, beq_iff_eq] at hc
    rw [ws_tokens, ws_scan]
    rcases hc with hc | hc
    · rw [if_pos hc, if_pos hc]; exact ih hcs _
    · subst hc
      rw [if_neg (by decide), if_pos rfl, if_neg (by decide), if_pos rfl]
      simp only [List.cons_append, ih hcs 0]

theorem ws_scan_spaces (n : Nat) : ∀ spc, ws_scan (List.replicate n ' ') spc = ([], spc + n) := by
  induction n with
  | zero => intro spc; rfl
  | succ n ih =>
    intro spc
    rw [List.replicate_succ, ws_scan, if_pos rfl, ih]
    congr 1; omega

theorem ws_scan_chunk (needs_tab : Bool) (nsp r : Nat) (hr : needs_tab = true ↔ r > 0) :
    (ws_scan (ws_chunk needs_tab nsp) r).1 ++
      (if (ws_scan (ws_chunk needs_tab nsp) r).2 > 0 then
        [(ws_scan (ws_chunk needs_tab nsp) r).2] else []) =
      (if r > 0 then [r] else []) ++ [nsp] ∧
    (nsp ≠ 0 ↔ (ws_scan (ws_chunk needs_tab nsp) r).2 > 0) := by
  unfold ws_chunk
  cases needs_tab
  · have hr0 : r = 0 := by
      by_contra h
      have := hr.2 (Nat.pos_of_ne_zero h)
      cases this
    subst hr0
    by_cases h0 : nsp = 0
    · subst h0
      simp [ws_scan]
    · have hpos : 0 < nsp := Nat.pos_of_ne_zero h0
      simp [h0, ws_scan_spaces, hpos]
  · have hr1 : r > 0 := hr.1 rfl
    by_cases h0 : nsp = 0
    · subst h0
      simp [ws_scan, hr1]
    · have hpos : 0 < nsp := Nat.pos_of_ne_zero h0
      simp [h0, ws_scan, ws_scan_spaces, hpos, hr1]

/-! ## The encoder writes what the extractor reads -/

theorem lines_scan_shape (outf : List (List Char)) (base w tail : List Char)
    (hb : clean_line base) (hw : all_blank w)
    (h : ((lines_scan (stego_read outf) false).2 = true ∧ tail = w) ∨
         ((lines_scan (stego_read outf) false).2 = false ∧ w = '\t' :: tail)) :
    lines_scan (stego_read (outf ++ [base ++ w])) false =
      ((lines_scan (stego_read outf) false).1 ++ ws_tokens tail 0,
       if w = [] then (lines_scan (stego_read outf) false).2 else true) := by
  rw [stego_read_append, lines_scan_append]
  generalize lines_scan (stego_read outf) false = r at h ⊢
  obtain ⟨done, flag⟩ := r
  simp only [stego_read, List.map_cons, List.map_nil] at h ⊢
  rw [lines_scan_cons]
  simp only [lines_scan, List.append_nil]
  rcases h with ⟨hf, ht⟩ | ⟨hf, ht⟩
  · subst hf ht
    by_cases hne : tail = []
    · subst hne
      rw [List.append_nil, line_action_clean base hb]
      simp [ws_tokens]
    · rw [line_action_started base tail hb hw hne]
      simp [hne]
  · subst hf ht
    have hw' : all_blank tail := fun c hc => hw c (List.mem_cons_of_mem _ hc)
    rw [line_action_sentinel base tail hb hw']
    by_cases hne : tail = []
    · subst hne; simp [ws_tokens]
    · simp [hne]

theorem encode_buffer_load_fields (s : EncodeState) :
    (encode_buffer_load s).encode_first_tab = s.encode_first_tab ∧
    (encode_buffer_load s).encode_needs_tab = false ∧
    (encode_buffer_load s).outf = s.outf ∧
    (encode_buffer_load s).encode_bit_count = s.encode_bit_count ∧
    (encode_buffer_load s).encode_value = s.encode_value ∧
    (encode_buffer_load s).inf = s.inf.tail ∧
    (encode_buffer_load s).encode_buffer = ws_strip (s.inf.headD []) := by
  unfold encode_buffer_load wsgets
  rcases s.inf with _ | ⟨l, rest⟩ <;> simp [ws_strip_nil]

theorem clean_cover_tail {cover : List (List Char)} (h : clean_cover cover) :
    clean_cover cover.tail :=
  fun l hl => h l (List.mem_of_mem_tail hl)

theorem clean_line_head {cover : List (List Char)} (h : clean_cover cover) :
    clean_line (ws_strip (cover.headD [])) := by
  cases cover with
  | nil => exact clean_line_nil
  | cons l rest => exact clean_line_ws_strip h (List.mem_cons_self _ _)

theorem uncoded_load {s : EncodeState} (h : Uncoded s) : Uncoded (encode_buffer_load s) := by
  obtain ⟨f1, f2, f3, _, _, f6, f7⟩ := encode_buffer_load_fields s
  exact { first_tab := by rw [f1]; exact h.first_tab
          inf_clean := by rw [f6]; exact clean_cover_tail h.inf_clean
          out_clean := by rw [f3]; exact h.out_clean
          buf_clean := fun _ => ⟨by rw [f7]; exact clean_line_head h.inf_clean, f2⟩ }

theorem uncoded_wsputs {s : EncodeState} (h : Uncoded s)
    (hl : s.encode_buffer_loaded = true) : Uncoded (wsputs_buffer s) :=
  { first_tab := h.first_tab
    inf_clean := h.inf_clean
    out_clean := by
      intro l hl'
      simp only [wsputs_buffer, List.mem_append, List.mem_singleton] at hl'
      rcases hl' with h1 | h1
      · exact h.out_clean l h1
      · rw [h1]; exact (h.buf_clean hl).1
    buf_clean := h.buf_clean }

theorem uncoded_load_until_tab_fits (T fuel : Nat) :
    ∀ s t, Uncoded s → s.encode_buffer_loaded = true →
      load_until_tab_fits T fuel s = .ok t → Uncoded t ∧ t.encode_buffer_loaded = true := by
  induction fuel with
  | zero =>
    intro s t h hl ht
    unfold load_until_tab_fits at ht
    split at ht
    · cases ht
    · cases ht; exact ⟨h, hl⟩
  | succ n ih =>
    intro s t h hl ht
    unfold load_until_tab_fits at ht
    split at ht
    · exact ih _ t (uncoded_load (uncoded_wsputs h hl)) (encode_buffer_load_loaded _) ht
    · cases ht; exact ⟨h, hl⟩

theorem state_tokens_uncoded {s : EncodeState} (h : Uncoded s) : state_tokens s = [] := by
  unfold state_tokens
  rw [h.first_tab]
  rfl

theorem coded_first_tab {s : EncodeState} (h : Uncoded s)
    (hl : s.encode_buffer_loaded = true) :
    Coded { append_tab s with encode_first_tab := true } ∧
    state_tokens { append_tab s with encode_first_tab := true } = [] := by
  have hscan := lines_scan_clean s.outf h.out_clean false
  have hshape := lines_scan_shape s.outf s.encode_buffer ['\t'] []
    (h.buf_clean hl).1 all_blank_tab (Or.inr ⟨by rw [hscan], rfl⟩)
  have htok : state_tokens { append_tab s with encode_first_tab := true } = [] := by
    simp only [state_tokens, append_tab, if_true]
    rw [hshape, hscan]
    simp [ws_tokens]
  refine ⟨{ first_tab := rfl, loaded := hl, inf_clean := h.inf_clean, shape := ?_ }, htok⟩
  refine ⟨s.encode_buffer, ['\t'], [], rfl, (h.buf_clean hl).1, all_blank_tab,
    Or.inr ⟨by simp only [append_tab]; rw [hscan], rfl⟩, ?_, ?_⟩
  · simp only [append_tab, (h.buf_clean hl).2, ws_scan]
    simp
  · rw [htok]
    simp only [append_tab]
    rw [hscan]
    simp [ws_tokens]

theorem coded_next_line {s : EncodeState} (h : Coded s) :
    Coded (encode_buffer_load (wsputs_buffer s)) ∧
    state_tokens (encode_buffer_load (wsputs_buffer s)) = state_tokens s := by
  obtain ⟨base, w, tail, hbuf, hbase, hw, hcase, _, htok⟩ := h.shape
  obtain ⟨f1, f2, f3, _, _, f6, f7⟩ := encode_buffer_load_fields (wsputs_buffer s)
  have hshape := lines_scan_shape s.outf base w tail hbase hw hcase
  have hflag : (lines_scan (stego_read (s.outf ++ [s.encode_buffer])) false).2 = true := by
    rw [hbuf, hshape]
    simp only
    rcases hcase with ⟨hf, _⟩ | ⟨_, hwt⟩
    · rw [hf]; simp
    · rw [hwt]; simp
  have hdone : (lines_scan (stego_read (s.outf ++ [s.encode_buffer])) false).1 =
      state_tokens s := by
    rw [hbuf, hshape, htok]
  have hnew : clean_line (encode_buffer_load (wsputs_buffer s)).encode_buffer := by
    rw [f7]; exact clean_line_head h.inf_clean
  have hout : (encode_buffer_load (wsputs_buffer s)).outf = s.outf ++ [s.encode_buffer] := f3
  have hft : (encode_buffer_load (wsputs_buffer s)).encode_first_tab = true := by
    rw [f1]; exact h.first_tab
  have hshape2 := lines_scan_shape (s.outf ++ [s.encode_buffer])
    (encode_buffer_load (wsputs_buffer s)).encode_buffer [] [] hnew all_blank_nil
    (Or.inl ⟨hflag, rfl⟩)
  have htok2 : state_tokens (encode_buffer_load (wsputs_buffer s)) = state_tokens s := by
    rw [state_tokens, hft, if_pos rfl, hout]
    rw [List.append_nil] at hshape2
    rw [hshape2, hdone]
    simp [ws_tokens]
  refine ⟨{ first_tab := hft, loaded := encode_buffer_load_loaded _,
            inf_clean := by rw [f6]; exact clean_cover_tail h.inf_clean, shape := ?_ }, htok2⟩
  refine ⟨_, [], [], (List.append_nil _).symm, hnew, all_blank_nil,
    Or.inl ⟨by rw [hout]; exact hflag, rfl⟩, ?_, ?_⟩
  · rw [f2]; simp [ws_scan]
  · rw [htok2, hout, hdone]; simp [ws_tokens]

theorem coded_append {T nsp : Nat} {s s1 : EncodeState} (h : Coded s)
    (happ : encode_append_whitespace T nsp s = (true, s1)) :
    Coded s1 ∧ state_tokens s1 = state_tokens s ++ [nsp] := by
  rw [encode_append_whitespace_eq] at happ
  split at happ
  · cases happ
  · simp only [Prod.mk.injEq, true_and] at happ
    obtain ⟨base, w, tail, hbuf, hbase, hw, hcase, hneed, htok⟩ := h.shape
    have hchunk := all_blank_ws_chunk s.encode_needs_tab nsp
    have hw2 : all_blank (w ++ ws_chunk s.encode_needs_tab nsp) := all_blank_append hw hchunk
    have hcase2 : ((lines_scan (stego_read s.outf) false).2 = true ∧
          tail ++ ws_chunk s.encode_needs_tab nsp = w ++ ws_chunk s.encode_needs_tab nsp) ∨
        ((lines_scan (stego_read s.outf) false).2 = false ∧
          w ++ ws_chunk s.encode_needs_tab nsp =
            '\t' :: (tail ++ ws_chunk s.encode_needs_tab nsp)) := by
      rcases hcase with ⟨hf, ht⟩ | ⟨hf, ht⟩
      · exact Or.inl ⟨hf, by rw [ht]⟩
      · exact Or.inr ⟨hf, by rw [ht]; rfl⟩
    have htail : all_blank tail := by
      rcases hcase with ⟨_, ht⟩ | ⟨_, ht⟩
      · rw [ht]; exact hw
      · intro c hc; exact hw c (by rw [ht]; exact List.mem_cons_of_mem _ hc)
    have hsc := ws_scan_chunk s.encode_needs_tab nsp (ws_scan tail 0).2 hneed
    have htoks : ws_tokens (tail ++ ws_chunk s.encode_needs_tab nsp) 0 =
        ws_tokens tail 0 ++ [nsp] := by
      rw [ws_tokens_eq_scan _ (all_blank_append htail hchunk), ws_scan_append,
        ws_tokens_eq_scan _ htail]
      simp only [List.append_assoc]
      rw [hsc.1]
    have hshape := lines_scan_shape s.outf base (w ++ ws_chunk s.encode_needs_tab nsp)
      (tail ++ ws_chunk s.encode_needs_tab nsp) hbase hw2 hcase2
    have hs1tok : state_tokens s1 = state_tokens s ++ [nsp] := by
      rw [← happ, state_tokens]
      simp only [h.first_tab, if_true]
      rw [hbuf, List.append_assoc, hshape, htoks, htok]
      simp only [List.append_assoc]
    refine ⟨{ first_tab := by rw [← happ]; exact h.first_tab
              loaded := by rw [← happ]; exact h.loaded
              inf_clean := by rw [← happ]; exact h.inf_clean
              shape := ?_ }, hs1tok⟩
    refine ⟨base, w ++ ws_chunk s.encode_needs_tab nsp,
      tail ++ ws_chunk s.encode_needs_tab nsp, ?_, hbase, hw2, ?_, ?_, ?_⟩
    · rw [← happ]; simp only; rw [hbuf, List.append_assoc]
    · rw [← happ]; exact hcase2
    · rw [← happ]
      simp only [decide_eq_true_eq]
      rw [ws_scan_append]
      exact hsc.2
    · rw [hs1tok, htok, ← happ]
      simp only
      rw [htoks, List.append_assoc]

theorem coded_append_until_fits (T nspc fuel : Nat) :
    ∀ s t, Coded s → append_until_fits T nspc fuel s = .ok t →
      Coded t ∧ state_tokens t = state_tokens s ++ [nspc] := by
  induction fuel with
  | zero =>
    intro s t h ht
    unfold append_until_fits at ht
    rcases happ : encode_append_whitespace T nspc s with ⟨b, s1⟩
    rw [happ] at ht
    cases b
    · cases ht
    · simp only [Outcome.ok.injEq] at ht
      subst ht
      exact coded_append h happ
  | succ n ih =>
    intro s t h ht
    unfold append_until_fits at ht
    rcases happ : encode_append_whitespace T nspc s with ⟨b, s1⟩
    rw [happ] at ht
    cases b
    · simp only at ht
      have hs1 : s1 = s := by
        rw [encode_append_whitespace_eq] at happ
        split at happ
        · simp only [Prod.mk.injEq, true_and] at happ; exact happ.symm
        · simp at happ
      subst hs1
      have hn := coded_next_line h
      have := ih _ t hn.1 ht
      exact ⟨this.1, by rw [this.2, hn.2]⟩
    · simp only [Outcome.ok.injEq] at ht
      subst ht
      exact coded_append h happ

theorem coded_counters {s : EncodeState} (h : Coded s) (a b c d : Nat) :
    Coded { s with encode_bit_count := a, encode_value := b, encode_bits_used := c,
                   encode_bits_available := d } ∧
    state_tokens { s with encode_bit_count := a, encode_value := b, encode_bits_used := c,
                          encode_bits_available := d } = state_tokens s :=
  ⟨{ first_tab := h.first_tab, loaded := h.loaded, inf_clean := h.inf_clean,
     shape := h.shape }, rfl⟩

theorem uncoded_counters {s : EncodeState} (h : Uncoded s) (a b c d : Nat) :
    Uncoded { s with encode_bit_count := a, encode_value := b, encode_bits_used := c,
                     encode_bits_available := d } :=
  { first_tab := h.first_tab, inf_clean := h.inf_clean, out_clean := h.out_clean,
    buf_clean := h.buf_clean }

theorem load_until_tab_fits_counters (T fuel : Nat) :
    ∀ s t, load_until_tab_fits T fuel s = .ok t →
      t.encode_bit_count = s.encode_bit_count ∧ t.encode_value = s.encode_value := by
  induction fuel with
  | zero =>
    intro s t ht
    unfold load_until_tab_fits at ht
    split at ht
    · cases ht
    · cases ht; exact ⟨rfl, rfl⟩
  | succ n ih =>
    intro s t ht
    unfold load_until_tab_fits at ht
    split at ht
    · obtain ⟨_, _, _, f4, f5, _, _⟩ := encode_buffer_load_fields (wsputs_buffer s)
      have := ih _ t ht
      exact ⟨by rw [this.1, f4]; rfl, by rw [this.2, f5]; rfl⟩
    · cases ht; exact ⟨rfl, rfl⟩

theorem encode_append_whitespace_counters (T nsp : Nat) (s : EncodeState) :
    (encode_append_whitespace T nsp s).2.encode_bit_count = s.encode_bit_count ∧
    (encode_append_whitespace T nsp s).2.encode_value = s.encode_value := by
  rw [encode_append_whitespace_eq]
  split <;> exact ⟨rfl, rfl⟩

theorem append_until_fits_counters (T nspc fuel : Nat) :
    ∀ s t, append_until_fits T nspc fuel s = .ok t →
      t.encode_bit_count = s.encode_bit_count ∧ t.encode_value = s.encode_value := by
  induction fuel with
  | zero =>
    intro s t ht
    have hc := encode_append_whitespace_counters T nspc s
    unfold append_until_fits at ht
    rcases happ : encode_append_whitespace T nspc s with ⟨b, s1⟩
    rw [happ] at ht hc
    cases b
    · cases ht
    · simp only [Outcome.ok.injEq] at ht
      subst ht
      exact hc
  | succ n ih =>
    intro s t ht
    have hc := encode_append_whitespace_counters T nspc s
    unfold append_until_fits at ht
    rcases happ : encode_append_whitespace T nspc s with ⟨b, s1⟩
    rw [happ] at ht hc
    cases b
    · simp only at ht
      obtain ⟨_, _, _, f4, f5, _, _⟩ := encode_buffer_load_fields (wsputs_buffer s1)
      have := ih _ t ht
      exact ⟨by rw [this.1, f4]; exact hc.1, by rw [this.2, f5]; exact hc.2⟩
    · simp only [Outcome.ok.injEq] at ht
      subst ht
      exact hc

theorem encode_write_value_counters (T fuel val : Nat) (s t : EncodeState)
    (ht : encode_write_value T fuel val s = .ok t) :
    t.encode_bit_count = s.encode_bit_count ∧ t.encode_value = s.encode_value := by
  unfold encode_write_value at ht
  simp only [] at ht
  obtain ⟨s3, h3, ht⟩ := Outcome.andThen_eq_ok.1 ht
  obtain ⟨s4, h4, ht⟩ := Outcome.andThen_eq_ok.1 ht
  have h1 : (if s.encode_buffer_loaded = true then s else encode_buffer_load s).encode_bit_count
        = s.encode_bit_count ∧
      (if s.encode_buffer_loaded = true then s else encode_buffer_load s).encode_value
        = s.encode_value := by
    split
    · exact ⟨rfl, rfl⟩
    · exact ⟨(encode_buffer_load_fields s).2.2.2.1, (encode_buffer_load_fields s).2.2.2.2.1⟩
  have hs3 : s3.encode_bit_count = s.encode_bit_count ∧ s3.encode_value = s.encode_value := by
    generalize (if s.encode_buffer_loaded = true then s else encode_buffer_load s) = s1
      at h1 h3
    split at h3
    · cases h3; exact h1
    · obtain ⟨s2, h2, h3⟩ := Outcome.andThen_eq_ok.1 h3
      have := load_until_tab_fits_counters T fuel _ s2 h2
      cases h3
      exact ⟨by simp only [append_tab]; rw [this.1, h1.1],
        by simp only [append_tab]; rw [this.2, h1.2]⟩
  have hs4 := append_until_fits_counters T _ fuel s3 s4 h4
  simp only [Outcome.ok.injEq] at ht
  rw [← ht]
  split
  · exact ⟨by simp only; rw [hs4.1, hs3.1], by simp only; rw [hs4.2, hs3.2]⟩
  · exact ⟨by rw [hs4.1, hs3.1], by rw [hs4.2, hs3.2]⟩

theorem coded_encode_write_value (T fuel val : Nat) (s t : EncodeState)
    (h : Uncoded s ∨ Coded s) (ht : encode_write_value T fuel val s = .ok t) :
    Coded t ∧ state_tokens t = state_tokens s ++ [reverse_bits val] := by
  unfold encode_write_value at ht
  simp only [] at ht
  obtain ⟨s3, h3, ht⟩ := Outcome.andThen_eq_ok.1 ht
  obtain ⟨s4, h4, ht⟩ := Outcome.andThen_eq_ok.1 ht
  have hs3 : Coded s3 ∧ state_tokens s3 = state_tokens s := by
    rcases h with hu | hc
    · have hft : (if s.encode_buffer_loaded = true then s
          else encode_buffer_load s).encode_first_tab = false := by
        split
        · exact hu.first_tab
        · rw [(encode_buffer_load_fields s).1]; exact hu.first_tab
      rw [hft] at h3
      simp only [Bool.false_eq_true, if_false] at h3
      obtain ⟨s2, h2, h3⟩ := Outcome.andThen_eq_ok.1 h3
      have hu1 : Uncoded (if s.encode_buffer_loaded = true then s else encode_buffer_load s) ∧
          (if s.encode_buffer_loaded = true then s
            else encode_buffer_load s).encode_buffer_loaded = true := by
        split
        · rename_i hl; exact ⟨hu, hl⟩
        · exact ⟨uncoded_load hu, encode_buffer_load_loaded s⟩
      have hu2 := uncoded_load_until_tab_fits T fuel _ s2 hu1.1 hu1.2 h2
      simp only [Outcome.ok.injEq] at h3
      rw [← h3, state_tokens_uncoded hu]
      exact coded_first_tab hu2.1 hu2.2
    · rw [hc.loaded] at h3
      simp only [if_true, hc.first_tab, Outcome.ok.injEq] at h3
      rw [← h3]
      exact ⟨hc, rfl⟩
  have hs4 := coded_append_until_fits T (reverse_bits val) fuel s3 s4 hs3.1 h4
  simp only [Outcome.ok.injEq] at ht
  rw [← ht]
  split
  · exact ⟨(coded_counters hs4.1 _ _ _ _).1, by
      rw [← hs3.2, ← hs4.2]; exact (coded_counters hs4.1 _ _ _ _).2⟩
  · exact ⟨hs4.1, by rw [hs4.2, hs3.2]⟩

/-! ### Bits and 3-bit groups -/

theorem bits_value_concat (p : List Bool) (b : Bool) :
    bits_value (p ++ [b]) = (bits_value p <<< 1) ||| b.toNat := by
  simp [bits_value, List.foldl_append]

theorem token_bits_reverse (a b c : Bool) :
    token_bits (reverse_bits (bits_value [a, b, c])) = [a, b, c] ∧
    reverse_bits (bits_value [a, b, c]) ≤ 7 := by
  cases a <;> cases b <;> cases c <;> decide

theorem token_bits_reverse_list (p : List Bool) (h : p.length = 3) :
    token_bits (reverse_bits (bits_value p)) = p ∧ reverse_bits (bits_value p) ≤ 7 := by
  match p, h with
  | [a, b, c], _ => exact token_bits_reverse a b c

theorem flatMap_token_bits_length (ts : List Nat) :
    (ts.flatMap token_bits).length = 3 * ts.length := by
  induction ts with
  | nil => rfl
  | cons t ts ih =>
    rw [List.flatMap_cons, List.length_append, ih]
    simp [token_bits]
    omega

theorem bitinv_start (cover : List (List Char)) (h : clean_cover cover) :
    BitInv (EncodeState.start cover) [] :=
  { good := Or.inl { first_tab := rfl, inf_clean := h,
                     out_clean := fun l hl => (by cases hl),
                     buf_clean := fun hl => (by cases hl) }
    small := fun t ht => (by cases ht)
    pending := ⟨[], rfl, by decide, rfl, rfl⟩ }

theorem good_counters {s : EncodeState} (h : Uncoded s ∨ Coded s) (a b c d : Nat) :
    (Uncoded { s with encode_bit_count := a, encode_value := b, encode_bits_used := c,
                      encode_bits_available := d } ∨
     Coded { s with encode_bit_count := a, encode_value := b, encode_bits_used := c,
                    encode_bits_available := d }) := by
  rcases h with h | h
  · exact Or.inl (uncoded_counters h a b c d)
  · exact Or.inr (coded_counters h a b c d).1

theorem state_tokens_counters (s : EncodeState) (a b c d : Nat) :
    state_tokens { s with encode_bit_count := a, encode_value := b, encode_bits_used := c,
                          encode_bits_available := d } = state_tokens s := rfl

theorem bitinv_encode_bit (T fuel : Nat) (b : Bool) (s t : EncodeState) (bits : List Bool)
    (h : BitInv s bits) (ht : encode_bit T fuel b s = .ok t) : BitInv t (bits ++ [b]) := by
  obtain ⟨pend, hlen, hlt, hval, hbits⟩ := h.pending
  unfold encode_bit at ht
  simp only [] at ht
  split at ht
  · rename_i h3
    obtain ⟨s2, h2, ht⟩ := Outcome.andThen_eq_ok.1 ht
    simp only [Outcome.ok.injEq] at ht
    have hg := good_counters h.good (s.encode_bit_count + 1)
      ((s.encode_value <<< 1) ||| b.toNat) (s.encode_bits_used + 1) s.encode_bits_available
    have hc := coded_encode_write_value T fuel _ _ s2 hg h2
    rw [state_tokens_counters] at hc
    have hp3 : (pend ++ [b]).length = 3 := by
      rw [List.length_append, hlen]; simpa using h3
    have hv : (s.encode_value <<< 1) ||| b.toNat = bits_value (pend ++ [b]) := by
      rw [bits_value_concat, hval]
    rw [hv] at hc
    have htr := token_bits_reverse_list _ hp3
    have htok : state_tokens t = state_tokens s ++ [reverse_bits (bits_value (pend ++ [b]))] := by
      rw [← ht]; exact hc.2
    refine { good := ?_, small := ?_, pending := ⟨[], ?_, by decide, ?_, ?_⟩ }
    · rw [← ht]
      exact Or.inr (coded_counters hc.1 0 0 s2.encode_bits_used s2.encode_bits_available).1
    · intro x hx
      rw [htok] at hx
      rcases List.mem_append.1 hx with hx | hx
      · exact h.small x hx
      · rw [List.mem_singleton] at hx; rw [hx]; exact htr.2
    · rw [← ht]; rfl
    · rw [← ht]; rfl
    · rw [htok, List.flatMap_append, List.append_nil]
      simp only [List.flatMap_cons, List.flatMap_nil, List.append_nil]
      rw [htr.1, ← List.append_assoc, hbits]
  · rename_i h3
    simp only [Outcome.ok.injEq] at ht
    refine { good := ?_, small := ?_, pending := ⟨pend ++ [b], ?_, ?_, ?_, ?_⟩ }
    · rw [← ht]
      exact good_counters h.good _ _ _ _
    · rw [← ht]; exact h.small
    · rw [← ht, List.length_append, hlen]; rfl
    · rw [List.length_append, hlen]
      simp only [List.length_singleton]
      rw [hlen] at hlt
      omega
    · rw [← ht, bits_value_concat, hval]
    · rw [← ht, ← List.append_assoc]
      show (state_tokens s).flatMap token_bits ++ pend ++ [b] = bits ++ [b]
      rw [hbits]

theorem bitinv_feed (T fuel : Nat) (X : List Bool) :
    ∀ s t bits, BitInv s bits → feed (encode_bit T fuel) X s = .ok t → BitInv t (bits ++ X) := by
  induction X with
  | nil =>
    intro s t bits h ht
    simp only [feed, Outcome.ok.injEq] at ht
    rw [← ht, List.append_nil]; exact h
  | cons b bs ih =>
    intro s t bits h ht
    rw [feed] at ht
    obtain ⟨s1, h1, ht⟩ := Outcome.andThen_eq_ok.1 ht
    have := ih s1 t (bits ++ [b]) (bitinv_encode_bit T fuel b s s1 bits h h1) ht
    rw [List.append_assoc] at this
    exact this

theorem encode_write_flush_outf (T : Nat) (s : EncodeState) :
    (encode_write_flush T s).outf =
      (if s.encode_buffer_loaded = true then s.outf ++ [s.encode_buffer] else s.outf) ++
        s.inf.map ws_strip := by
  unfold encode_write_flush
  simp only []
  rw [copy_rest_eq]
  split <;> rfl

theorem clean_map_ws_strip {ls : List (List Char)} (h : clean_cover ls) :
    ∀ l ∈ ls.map ws_strip, clean_line l := by
  intro l hl
  obtain ⟨x, hx, rfl⟩ := List.mem_map.1 hl
  exact clean_line_ws_strip h hx

theorem tokens_encode_write_flush (T : Nat) (s : EncodeState) (h : Uncoded s ∨ Coded s) :
    (lines_scan (stego_read (encode_write_flush T s).outf) false).1 = state_tokens s := by
  rw [encode_write_flush_outf]
  rcases h with h | h
  · rw [state_tokens_uncoded h]
    have : ∀ l ∈ (if s.encode_buffer_loaded = true then s.outf ++ [s.encode_buffer]
        else s.outf) ++ s.inf.map ws_strip, clean_line l := by
      intro l hl
      rcases List.mem_append.1 hl with hl | hl
      · split at hl
        · rename_i hld
          rcases List.mem_append.1 hl with hl | hl
          · exact h.out_clean l hl
          · rw [List.mem_singleton] at hl; rw [hl]; exact (h.buf_clean hld).1
        · exact h.out_clean l hl
      · exact clean_map_ws_strip h.inf_clean l hl
    rw [lines_scan_clean _ this]
  · rw [h.loaded, if_pos rfl, stego_read_append, lines_scan_append,
      lines_scan_clean _ (clean_map_ws_strip h.inf_clean)]
    simp only [List.append_nil]
    rw [state_tokens, h.first_tab, if_pos rfl]

theorem encode_pad_one (s : EncodeState) (h : s.encode_bit_count = 2) :
    encode_pad 3 s = { s with encode_value := s.encode_value <<< 1, encode_bit_count := 3 } := by
  simp [encode_pad, h]

theorem encode_pad_two (s : EncodeState) (h : s.encode_bit_count = 1) :
    encode_pad 3 s =
      { s with encode_value := (s.encode_value <<< 1) <<< 1, encode_bit_count := 3 } := by
  simp [encode_pad, h]

theorem bits_value_pad (p : List Bool) : bits_value (p ++ [false]) = bits_value p <<< 1 := by
  rw [bits_value_concat]; simp

theorem tokens_encode_flush (T fuel : Nat) (s t : EncodeState) (bits : List Bool)
    (h : BitInv s bits) (ht : encode_flush T fuel s = .ok t) :
    (lines_scan (stego_read t.outf) false).1.flatMap token_bits =
      bits ++ List.replicate (pad_length bits.length) false ∧
    ∀ x ∈ (lines_scan (stego_read t.outf) false).1, x ≤ 7 := by
  obtain ⟨pend, hlen, hlt, hval, hbits⟩ := h.pending
  have hblen : bits.length = 3 * (state_tokens s).length + pend.length := by
    rw [← hbits, List.length_append, flatMap_token_bits_length]
  unfold encode_flush at ht
  simp only [] at ht
  obtain ⟨s2, h2, ht⟩ := Outcome.andThen_eq_ok.1 ht
  simp only [Outcome.ok.injEq] at ht
  split at h2
  · rename_i hpos
    have hpad : ∃ z, z = 3 - pend.length ∧
        (encode_pad 3 s).encode_value = bits_value (pend ++ List.replicate z false) ∧
        (Uncoded (encode_pad 3 s) ∨ Coded (encode_pad 3 s)) ∧
        state_tokens (encode_pad 3 s) = state_tokens s := by
      have hk : s.encode_bit_count = 1 ∨ s.encode_bit_count = 2 := by
        rw [hlen] at hlt; omega
      rcases hk with hk | hk
      · refine ⟨2, by rw [hlen, hk], ?_, ?_, ?_⟩
        · rw [encode_pad_two s hk]
          show (s.encode_value <<< 1) <<< 1 = bits_value (pend ++ [false, false])
          rw [show pend ++ [false, false] = (pend ++ [false]) ++ [false] by simp,
            bits_value_pad, bits_value_pad, hval]
        · rw [encode_pad_two s hk]
          exact good_counters h.good _ _ s.encode_bits_used s.encode_bits_available
        · rw [encode_pad_two s hk]; rfl
      · refine ⟨1, by rw [hlen, hk], ?_, ?_, ?_⟩
        · rw [encode_pad_one s hk]
          show s.encode_value <<< 1 = bits_value (pend ++ [false])
          rw [bits_value_pad, hval]
        · rw [encode_pad_one s hk]
          exact good_counters h.good _ _ s.encode_bits_used s.encode_bits_available
        · rw [encode_pad_one s hk]; rfl
    obtain ⟨z, hz, hv, hg, hst⟩ := hpad
    have hc := coded_encode_write_value T fuel _ _ s2 hg h2
    rw [hv, hst] at hc
    have hp3 : (pend ++ List.replicate z false).length = 3 := by
      rw [List.length_append, List.length_replicate, hz]; omega
    have htr := token_bits_reverse_list _ hp3
    have hfin := tokens_encode_write_flush T s2 (Or.inr hc.1)
    rw [ht] at hfin
    rw [hfin, hc.2]
    have hpl : pad_length bits.length = z := by
      rw [hblen, hz]; unfold pad_length
      have : 0 < pend.length := by rw [hlen]; exact hpos
      omega
    refine ⟨?_, ?_⟩
    · rw [List.flatMap_append]
      simp only [List.flatMap_cons, List.flatMap_nil, List.append_nil]
      rw [htr.1, ← List.append_assoc, hbits, hpl]
    · intro x hx
      rcases List.mem_append.1 hx with hx | hx
      · exact h.small x hx
      · rw [List.mem_singleton] at hx; rw [hx]; exact htr.2
  · rename_i hpos
    simp only [Outcome.ok.injEq] at h2
    subst h2
    have hfin := tokens_encode_write_flush T s h.good
    rw [ht] at hfin
    rw [hfin]
    have hp0 : pend = [] := by
      apply List.eq_nil_of_length_eq_zero
      rw [hlen]; omega
    have hpl : pad_length bits.length = 0 := by
      rw [hblen, hp0]; unfold pad_length; simp
    refine ⟨?_, h.small⟩
    rw [hpl, List.replicate_zero, List.append_nil, ← hbits, hp0, List.append_nil]

/-! ## The stages of the embedder as transformations of bit streams -/

theorem character_encode_from_eq_feed (cfg : Config) (c n : Nat) :
    ∀ i st, character_encode_from cfg c n i st =
      feed (compress_bit cfg)
        ((List.range' i n).map fun j => decide ((c &&& (128 >>> j)) ≠ 0)) st := by
  induction n with
  | zero => intro i st; rfl
  | succ n ih =>
    intro i st
    rw [character_encode_from, List.range'_succ, List.map_cons, feed]
    congr 1
    funext s
    exact ih (i + 1) s

theorem character_encode_eq_feed (cfg : Config) (c : Nat) (st : EmbedState) :
    character_encode cfg c st = feed (compress_bit cfg) (byte_bits c) st := by
  rw [character_encode, character_encode_from_eq_feed, byte_bits, List.range_eq_range']

theorem message_loop_eq_feed (cfg : Config) (msg : List Nat) :
    ∀ st, message_loop cfg msg st = feed (compress_bit cfg) (msg.flatMap byte_bits) st := by
  induction msg with
  | nil => intro st; rfl
  | cons c cs ih =>
    intro st
    rw [message_loop, List.flatMap_cons, feed_append, character_encode_eq_feed]
    congr 1
    funext s
    exact ih s

theorem compress_bit_off (cfg : Config) (h : cfg.compress_flag = false) :
    compress_bit cfg = encrypt_bit cfg := by
  funext bit st
  simp [compress_bit, h]

theorem encrypt_stream_append (E : List Nat → List Nat) (a b : List Bool) :
    ∀ iv, encrypt_stream E iv (a ++ b) =
      ((encrypt_stream E iv a).1 ++ (encrypt_stream E (encrypt_stream E iv a).2 b).1,
       (encrypt_stream E (encrypt_stream E iv a).2 b).2) := by
  induction a with
  | nil => intro iv; rfl
  | cons x xs ih =>
    intro iv
    rw [List.cons_append, encrypt_stream, encrypt_stream, ih]
    rfl

theorem decrypt_stream_append (E : List Nat → List Nat) (a b : List Bool) :
    ∀ iv, decrypt_stream E iv (a ++ b) =
      ((decrypt_stream E iv a).1 ++ (decrypt_stream E (decrypt_stream E iv a).2 b).1,
       (decrypt_stream E (decrypt_stream E iv a).2 b).2) := by
  induction a with
  | nil => intro iv; rfl
  | cons x xs ih =>
    intro iv
    rw [List.cons_append, decrypt_stream, decrypt_stream, ih]
    rfl

theorem decrypt_stream_length (E : List Nat → List Nat) (a : List Bool) :
    ∀ iv, (decrypt_stream E iv a).1.length = a.length := by
  induction a with
  | nil => intro iv; rfl
  | cons x xs ih => intro iv; simp only [decrypt_stream, List.length_cons, ih]

theorem encrypt_view_key (crypt : CryptState) (bits : List Bool) :
    (encrypt_view crypt bits).2.ice_key = crypt.ice_key := by
  unfold encrypt_view
  split <;> rfl

theorem encrypt_view_nil (crypt : CryptState) : encrypt_view crypt [] = ([], crypt) := by
  unfold encrypt_view
  split <;> rfl

theorem encrypt_view_append (crypt : CryptState) (a b : List Bool) :
    encrypt_view crypt (a ++ b) =
      ((encrypt_view crypt a).1 ++ (encrypt_view (encrypt_view crypt a).2 b).1,
       (encrypt_view (encrypt_view crypt a).2 b).2) := by
  rcases hk : crypt.ice_key with _ | E
  · simp [encrypt_view, hk]
  · simp [encrypt_view, hk, encrypt_stream_append]

theorem decrypt_view_append (crypt : CryptState) (a b : List Bool) :
    decrypt_view crypt (a ++ b) =
      ((decrypt_view crypt a).1 ++ (decrypt_view (decrypt_view crypt a).2 b).1,
       (decrypt_view (decrypt_view crypt a).2 b).2) := by
  rcases hk : crypt.ice_key with _ | E
  · simp [decrypt_view, hk]
  · simp [decrypt_view, hk, decrypt_stream_append]

theorem decrypt_view_length (crypt : CryptState) (a : List Bool) :
    (decrypt_view crypt a).1.length = a.length := by
  unfold decrypt_view
  split
  · rfl
  · exact decrypt_stream_length _ a _

theorem decrypt_encrypt_view (crypt : CryptState) (bits : List Bool) :
    decrypt_view crypt (encrypt_view crypt bits).1 = (bits, (encrypt_view crypt bits).2) := by
  rcases hk : crypt.ice_key with _ | E
  · simp [decrypt_view, encrypt_view, hk]
  · simp [decrypt_view, encrypt_view, hk, decrypt_encrypt_stream]

theorem encrypt_bit_ok (cfg : Config) (b : Bool) (st t : EmbedState)
    (h : encrypt_bit cfg b st = .ok t) :
    encode_bit cfg.line_length cfg.fuel (encrypt_view st.crypt [b]).1.head! st.enc = .ok t.enc ∧
    t.crypt = (encrypt_view st.crypt [b]).2 ∧ t.comp = st.comp ∧
    (encrypt_view st.crypt [b]).1.length = 1 := by
  rcases hk : st.crypt.ice_key with _ | E
  · simp only [encrypt_bit, hk] at h
    obtain ⟨e, he, ht⟩ := Outcome.map_eq_ok.1 h
    simp only [encrypt_view, hk]
    rw [← ht]
    exact ⟨he, rfl, rfl, rfl⟩
  · simp only [encrypt_bit, hk] at h
    obtain ⟨e, he, ht⟩ := Outcome.map_eq_ok.1 h
    simp only [encrypt_view, hk, encrypt_stream]
    rw [← ht]
    exact ⟨he, by simp only [hk], rfl, rfl⟩

theorem feed_encrypt_bit_ok (cfg : Config) (bits : List Bool) :
    ∀ st t, feed (encrypt_bit cfg) bits st = .ok t →
      feed (encode_bit cfg.line_length cfg.fuel) (encrypt_view st.crypt bits).1 st.enc
        = .ok t.enc ∧
      t.crypt = (encrypt_view st.crypt bits).2 ∧ t.comp = st.comp := by
  induction bits with
  | nil =>
    intro st t h
    simp only [feed, Outcome.ok.injEq] at h
    rw [encrypt_view_nil, ← h]
    exact ⟨rfl, rfl, rfl⟩
  | cons b bs ih =>
    intro st t h
    rw [feed] at h
    obtain ⟨s1, h1, h⟩ := Outcome.andThen_eq_ok.1 h
    obtain ⟨e1, c1, k1, l1⟩ := encrypt_bit_ok cfg b st s1 h1
    obtain ⟨e2, c2, k2⟩ := ih s1 t h
    have hcons : b :: bs = [b] ++ bs := rfl
    rw [hcons, encrypt_view_append, ← c1]
    refine ⟨?_, c2, by rw [k2, k1]⟩
    simp only []
    rw [feed_append]
    have hx : (encrypt_view st.crypt [b]).1 = [(encrypt_view st.crypt [b]).1.head!] := by
      match hv : (encrypt_view st.crypt [b]).1, l1 with
      | [x], _ => rfl
    rw [hx]
    simp only [feed, e1, Outcome.andThen_ok]
    exact e2

/-! ## The stages of the extractor as transformations of bit streams -/

set_option maxRecDepth 100000 in
theorem bits_value_byte_bits : ∀ c, c < 256 → bits_value (byte_bits c) = c := by
  decide

theorem byte_bits_length (c : Nat) : (byte_bits c).length = 8 := by
  simp [byte_bits]

theorem decrypt_view_nil (crypt : CryptState) : decrypt_view crypt [] = ([], crypt) := by
  unfold decrypt_view
  split <;> rfl

theorem decrypt_bit_eq (cfg : Config) (b : Bool) (st : ExtractState) :
    decrypt_bit cfg b st =
      (uncompress_bit cfg (decrypt_view st.crypt [b]).1.head! st.dec).map
        (fun d => { crypt := (decrypt_view st.crypt [b]).2, dec := d }) ∧
    (decrypt_view st.crypt [b]).1.length = 1 := by
  rcases hk : st.crypt.ice_key with _ | E
  · simp only [decrypt_bit, hk, decrypt_view]
    exact ⟨rfl, rfl⟩
  · simp only [decrypt_bit, hk, decrypt_view, decrypt_stream]
    exact ⟨rfl, rfl⟩

theorem feed_decrypt_bit_ok (cfg : Config) (bits : List Bool) :
    ∀ (st : ExtractState) (d : DecodeState),
      feed (uncompress_bit cfg) (decrypt_view st.crypt bits).1 st.dec = .ok d →
      feed (decrypt_bit cfg) bits st =
        .ok { crypt := (decrypt_view st.crypt bits).2, dec := d } := by
  induction bits with
  | nil =>
    intro st d h
    rw [decrypt_view_nil] at h ⊢
    simp only [feed, Outcome.ok.injEq] at h ⊢
    rw [← h]
  | cons b bs ih =>
    intro st d h
    have hcons : b :: bs = [b] ++ bs := rfl
    obtain ⟨hstep, hlen⟩ := decrypt_bit_eq cfg b st
    rw [hcons, decrypt_view_append] at h ⊢
    simp only [] at h ⊢
    have hx : (decrypt_view st.crypt [b]).1 = [(decrypt_view st.crypt [b]).1.head!] := by
      match hv : (decrypt_view st.crypt [b]).1, hlen with
      | [x], _ => rfl
    rw [feed_append, hx] at h
    simp only [feed] at h
    obtain ⟨d1, h1, h⟩ := Outcome.andThen_eq_ok.1 h
    obtain ⟨d1', h1', h1⟩ := Outcome.andThen_eq_ok.1 h1
    simp only [Outcome.ok.injEq] at h1
    subst h1
    rw [List.singleton_append, feed, hstep, h1']
    simp only [Outcome.map_ok, Outcome.andThen_ok]
    exact ih { crypt := (decrypt_view st.crypt [b]).2, dec := d1' } d h

theorem uncompress_bit_off (cfg : Config) (h : cfg.compress_flag = false) :
    uncompress_bit cfg = output_bit := by
  funext bit st
  simp [uncompress_bit, h]

theorem feed_output_bit (p : List Bool) :
    ∀ d : DecodeState, d.output_bit_count + p.length < 8 →
      feed output_bit p d =
        .ok { d with output_value := p.foldl (fun v b => (v <<< 1) ||| b.toNat) d.output_value,
                     output_bit_count := d.output_bit_count + p.length } := by
  induction p with
  | nil => intro d _; rfl
  | cons b bs ih =>
    intro d h
    simp only [List.length_cons] at h
    rw [feed, output_bit]
    rw [if_neg (by omega), Outcome.andThen_ok, ih _ (by simp only []; omega)]
    simp only [List.foldl_cons, List.length_cons, Outcome.ok.injEq]
    congr 1
    omega

theorem feed_output_byte (c : Nat) (hc : c < 256) (d : DecodeState)
    (h0 : d.output_bit_count = 0) (hv : d.output_value = 0) :
    feed output_bit (byte_bits c) d = .ok { d with outf := d.outf ++ [c] } := by
  have hsplit : byte_bits c = (byte_bits c).take 7 ++ [decide ((c &&& 1) ≠ 0)] :=
    (List.take_append_drop 7 (byte_bits c)).symm
  have hval := bits_value_byte_bits c hc
  have hql : ((byte_bits c).take 7).length = 7 := by
    rw [List.length_take, byte_bits_length]; rfl
  generalize (byte_bits c).take 7 = q at hsplit hql
  rw [hsplit] at hval ⊢
  rw [feed_append, feed_output_bit q d (by rw [h0, hql]; decide)]
  simp only [Outcome.andThen_ok, feed, output_bit]
  rw [if_pos (by show d.output_bit_count + q.length + 1 = 8; rw [h0, hql])]
  simp only [Outcome.andThen_ok, Outcome.ok.injEq]
  rw [bits_value_concat, bits_value] at hval
  rw [hv, hval, Nat.mod_eq_of_lt hc]
  cases d
  simp only [] at h0 hv
  subst h0 hv
  rfl

theorem feed_output_message (msg : List Nat) (hmsg : ∀ c ∈ msg, c < 256) :
    ∀ d : DecodeState, d.output_bit_count = 0 → d.output_value = 0 →
      feed output_bit (msg.flatMap byte_bits) d = .ok { d with outf := d.outf ++ msg } := by
  induction msg with
  | nil => intro d _ _; simp [feed]
  | cons c cs ih =>
    intro d h0 hv
    rw [List.flatMap_cons, feed_append,
      feed_output_byte c (hmsg c (List.mem_cons_self _ _)) d h0 hv, Outcome.andThen_ok,
      ih (fun x hx => hmsg x (List.mem_cons_of_mem _ hx)) { d with outf := d.outf ++ [c] }
        h0 hv]
    simp

/-! ## Round trips -/

theorem pad_length_le (n : Nat) : pad_length n ≤ 2 := by
  unfold pad_length; omega

/-- What a completed run of the encoder wrote, read back by the extractor:
the space counts decode to the bits fed to `encode_bit`, followed by the
zero bits padding the last group. -/
theorem encode_tokens (cfg : Config) (crypt : CryptState) (cover : List (List Char))
    (hcov : clean_cover cover) (X : List Bool) (e1 e2 : EncodeState)
    (hfeed : feed (encode_bit cfg.line_length cfg.fuel) X (EncodeState.start cover) = .ok e1)
    (hflush : encode_flush cfg.line_length cfg.fuel e1 = .ok e2) :
    message_extract cfg crypt (stego_read e2.outf) =
      feed (decrypt_bit cfg) (X ++ List.replicate (pad_length X.length) false)
        (ExtractState.start crypt) := by
  have hinv := bitinv_feed cfg.line_length cfg.fuel _ _ e1 []
    (bitinv_start cover hcov) hfeed
  rw [List.nil_append] at hinv
  have htok := tokens_encode_flush cfg.line_length cfg.fuel e1 e2 _ hinv hflush
  rw [message_extract, extract_loop_eq_tokens, decode_tokens_eq_feed _ _ htok.2, htok.1]

theorem embed_tokens (cfg : Config) (crypt : CryptState) (cover : List (List Char))
    (hcov : clean_cover cover) (B : List Bool) (s1 st : EmbedState)
    (hfeed : feed (encrypt_bit cfg) B (EmbedState.start crypt cover) = .ok s1)
    (hflush : compress_flush cfg s1 = .ok st) :
    message_extract cfg crypt (stego_read st.enc.outf) =
      feed (decrypt_bit cfg)
        ((encrypt_view crypt B).1 ++
          List.replicate (pad_length (encrypt_view crypt B).1.length) false)
        (ExtractState.start crypt) := by
  obtain ⟨he, _, _⟩ := feed_encrypt_bit_ok cfg B _ s1 hfeed
  unfold compress_flush encrypt_flush at hflush
  obtain ⟨e2, hfl, hst⟩ := Outcome.map_eq_ok.1 hflush
  have hout : st.enc.outf = e2.outf := by rw [← hst]
  rw [hout]
  exact encode_tokens cfg crypt cover hcov _ s1.enc e2 he hfl

theorem roundtrip_uncompressed (cfg : Config) (hflag : cfg.compress_flag = false)
    (crypt : CryptState) (msg : List Nat) (hmsg : ∀ c ∈ msg, c < 256)
    (cover : List (List Char)) (hcov : clean_cover cover) (st : EmbedState)
    (hemb : embed cfg crypt msg cover = .ok st) :
    ∃ x, message_extract cfg crypt (stego_read st.enc.outf) = .ok x ∧ x.dec.outf = msg := by
  unfold embed message_fp_encode at hemb
  rw [compress_init_start, message_loop_eq_feed, compress_bit_off cfg hflag] at hemb
  obtain ⟨s1, hfeed, hflush⟩ := Outcome.andThen_eq_ok.1 hemb
  rw [embed_tokens cfg crypt cover hcov _ s1 st hfeed hflush]
  generalize hZ : List.replicate (pad_length
    (encrypt_view crypt (msg.flatMap byte_bits)).1.length) false = Z
  have hZlen : Z.length ≤ 2 := by
    rw [← hZ, List.length_replicate]; exact pad_length_le _
  have hview : (decrypt_view (ExtractState.start crypt).crypt
      ((encrypt_view crypt (msg.flatMap byte_bits)).1 ++ Z)).1 =
      msg.flatMap byte_bits ++
        (decrypt_view (encrypt_view crypt (msg.flatMap byte_bits)).2 Z).1 := by
    show (decrypt_view crypt _).1 = _
    rw [decrypt_view_append, decrypt_encrypt_view]
  have hg : (decrypt_view (encrypt_view crypt (msg.flatMap byte_bits)).2 Z).1.length ≤ 2 := by
    rw [decrypt_view_length]; exact hZlen
  generalize (decrypt_view (encrypt_view crypt (msg.flatMap byte_bits)).2 Z).1 = g at hview hg
  have hout : feed (uncompress_bit cfg)
      (decrypt_view (ExtractState.start crypt).crypt
        ((encrypt_view crypt (msg.flatMap byte_bits)).1 ++ Z)).1
      (ExtractState.start crypt).dec =
      .ok { (ExtractState.start crypt).dec with
              outf := msg,
              output_value := g.foldl (fun v b => (v <<< 1) ||| b.toNat) 0,
              output_bit_count := g.length } := by
    rw [hview, uncompress_bit_off cfg hflag, feed_append,
      feed_output_message msg hmsg _ rfl rfl, Outcome.andThen_ok,
      feed_output_bit g _ (by show 0 + g.length < 8; omega)]
    simp [ExtractState.start]
  exact ⟨_, feed_decrypt_bit_ok cfg _ _ _ hout, rfl⟩

/-! ## The Huffman stage of the extractor -/

theorem output_code_eq_feed (code n : Nat) :
    ∀ i d, output_code code n i d =
      feed output_bit ((List.range' i n).map fun j => decide ((code &&& (128 >>> j)) ≠ 0)) d := by
  induction n with
  | zero => intro i d; rfl
  | succ n ih =>
    intro i d
    rw [output_code, List.range'_succ, List.map_cons, feed]
    congr 1
    funext s
    exact ih (i + 1) s

theorem output_code_byte (c : Nat) (hc : c < 256) (d : DecodeState)
    (h0 : d.output_bit_count = 0) (hv : d.output_value = 0) :
    output_code c 8 0 d = .ok { d with outf := d.outf ++ [c] } := by
  rw [output_code_eq_feed, ← List.range_eq_range']
  exact feed_output_byte c hc d h0 hv

theorem huffcode_find_hit (tbl : Nat → List Char) (c : Nat) (hc : c < 256)
    (hinj : ∀ i, i < 256 → tbl i = tbl c → i = c) :
    huffcode_find tbl (tbl c) = some c := by
  unfold huffcode_find
  rcases h : (List.range 256).find? (fun i => decide (tbl c = tbl i)) with _ | i
  · rw [List.find?_eq_none] at h
    have := h c (List.mem_range.2 hc)
    simp at this
  · have hp := List.find?_some h
    have hm := List.mem_of_find?_eq_some h
    simp only [decide_eq_true_eq] at hp
    rw [hinj i (List.mem_range.1 hm) hp.symm]

theorem huffcode_find_miss (tbl : Nat → List Char) (s : List Char)
    (h : ∀ i, i < 256 → tbl i ≠ s) : huffcode_find tbl s = none := by
  unfold huffcode_find
  rw [List.find?_eq_none]
  intro i hi
  simp only [decide_eq_true_eq]
  exact fun heq => h i (List.mem_range.1 hi) heq.symm

theorem uncompress_bit_miss (cfg : Config) (hflag : cfg.compress_flag = true) (b : Bool)
    (d : DecodeState)
    (hfind : huffcode_find cfg.huffcodes
      (d.uncompress_value.take d.uncompress_bit_count ++ [if b then '1' else '0']) = none)
    (hlen : d.uncompress_bit_count + 1 < 255) :
    uncompress_bit cfg b d =
      .ok { d with uncompress_value :=
                     d.uncompress_value.take d.uncompress_bit_count ++ [if b then '1' else '0'],
                   uncompress_bit_count := d.uncompress_bit_count + 1 } := by
  unfold uncompress_bit
  simp only [hflag, Bool.not_true, Bool.false_eq_true, if_false, hfind, Outcome.andThen_ok]
  rw [if_neg (by show ¬ (d.uncompress_bit_count + 1 ≥ 255); omega)]

theorem uncompress_bit_hit (cfg : Config) (hflag : cfg.compress_flag = true) (b : Bool)
    (d : DecodeState) (c : Nat) (hc : c < 256)
    (hfind : huffcode_find cfg.huffcodes
      (d.uncompress_value.take d.uncompress_bit_count ++ [if b then '1' else '0']) = some c)
    (h0 : d.output_bit_count = 0) (hv : d.output_value = 0) :
    uncompress_bit cfg b d =
      .ok { d with uncompress_value :=
                     d.uncompress_value.take d.uncompress_bit_count ++ [if b then '1' else '0'],
                   uncompress_bit_count := 0, outf := d.outf ++ [c] } := by
  unfold uncompress_bit
  simp only [hflag, Bool.not_true, Bool.false_eq_true, if_false, hfind]
  have := output_code_byte c hc
    { d with uncompress_value :=
               d.uncompress_value.take d.uncompress_bit_count ++ [if b then '1' else '0'],
             uncompress_bit_count := d.uncompress_bit_count + 1 } h0 hv
  rw [this]
  simp

theorem code_char_round (ch : Char) (h : ch = '0' ∨ ch = '1') :
    (if decide (ch = '1') then '1' else '0') = ch := by
  rcases h with h | h <;> subst h <;> rfl

theorem uncompress_word (cfg : Config) (hflag : cfg.compress_flag = true)
    (h01 : binary_words cfg.huffcodes) (hpf : no_word_begins_another cfg.huffcodes)
    (hlen : ∀ i, i < 256 → (cfg.huffcodes i).length ≤ 255)
    (c : Nat) (hc : c < 256) (r : List Char) :
    ∀ (q : List Char) (d : DecodeState), q ++ r = cfg.huffcodes c → r ≠ [] →
      d.uncompress_bit_count = q.length →
      d.uncompress_value.take d.uncompress_bit_count = q →
      d.output_bit_count = 0 → d.output_value = 0 →
      feed (uncompress_bit cfg) (code_bits r) d =
        .ok { d with uncompress_value := cfg.huffcodes c, uncompress_bit_count := 0,
                     outf := d.outf ++ [c] } := by
  induction r with
  | nil => intro q d _ hne; exact absurd rfl hne
  | cons ch rest ih =>
    intro q d hw _ hcount hcur h0 hv
    have hch : ch = '0' ∨ ch = '1' :=
      h01 c hc ch (by rw [← hw]; simp)
    rw [code_bits, List.map_cons, feed]
    by_cases hrest : rest = []
    · subst hrest
      have hfind : huffcode_find cfg.huffcodes
          (d.uncompress_value.take d.uncompress_bit_count ++
            [if decide (ch = '1') then '1' else '0']) = some c := by
        rw [hcur, code_char_round ch hch, hw]
        apply huffcode_find_hit _ c hc
        intro i hi heq
        by_contra hne
        exact hpf i c hi hc hne (by rw [heq])
      rw [uncompress_bit_hit cfg hflag _ d c hc hfind h0 hv, hcur, code_char_round ch hch, hw]
      rfl
    · have hlt : q.length + 1 < (cfg.huffcodes c).length := by
        rw [← hw, List.length_append, List.length_cons]
        have := List.length_pos.2 hrest
        omega
      have hfind : huffcode_find cfg.huffcodes
          (d.uncompress_value.take d.uncompress_bit_count ++
            [if decide (ch = '1') then '1' else '0']) = none := by
        rw [hcur, code_char_round ch hch]
        apply huffcode_find_miss
        intro i hi heq
        have hpre : cfg.huffcodes i <+: cfg.huffcodes c :=
          ⟨rest, by rw [heq, ← hw]; simp⟩
        by_cases hic : i = c
        · subst hic
          have := congrArg List.length heq
          rw [List.length_append, List.length_singleton] at this
          omega
        · exact hpf i c hi hc hic hpre
      have hlen' : d.uncompress_bit_count + 1 < 255 := by
        have := hlen c hc
        omega
      rw [uncompress_bit_miss cfg hflag _ d hfind hlen', Outcome.andThen_ok, hcur,
        code_char_round ch hch]
      have := ih (q ++ [ch])
        { d with uncompress_value := q ++ [ch],
                 uncompress_bit_count := d.uncompress_bit_count + 1 }
        (by rw [← hw]; simp) hrest (by simp [hcount])
        (by simp [hcount]) h0 hv
      rw [code_bits] at this
      rw [this]

theorem uncompress_message (cfg : Config) (hflag : cfg.compress_flag = true)
    (h01 : binary_words cfg.huffcodes) (hne : ∀ i, i < 256 → cfg.huffcodes i ≠ [])
    (hpf : no_word_begins_another cfg.huffcodes)
    (hlen : ∀ i, i < 256 → (cfg.huffcodes i).length ≤ 255)
    (msg : List Nat) (hmsg : ∀ c ∈ msg, c < 256) :
    ∀ d : DecodeState, d.uncompress_bit_count = 0 → d.output_bit_count = 0 →
      d.output_value = 0 →
      ∃ d1, feed (uncompress_bit cfg) (msg.flatMap fun c => code_bits (cfg.huffcodes c)) d
          = .ok d1 ∧
        d1.outf = d.outf ++ msg ∧ d1.uncompress_bit_count = 0 ∧
        d1.output_bit_count = 0 ∧ d1.output_value = 0 := by
  induction msg with
  | nil => intro d hc h0 hv; exact ⟨d, rfl, by simp, hc, h0, hv⟩
  | cons c cs ih =>
    intro d hcnt h0 hv
    have hc := hmsg c (List.mem_cons_self _ _)
    have hword := uncompress_word cfg hflag h01 hpf hlen c hc (cfg.huffcodes c) [] d
      rfl (hne c hc) (by rw [hcnt]; rfl) (by rw [hcnt]; rfl) h0 hv
    obtain ⟨d1, hd1, ho, hrest⟩ := ih (fun x hx => hmsg x (List.mem_cons_of_mem _ hx))
      { d with uncompress_value := cfg.huffcodes c, uncompress_bit_count := 0,
               outf := d.outf ++ [c] } rfl h0 hv
    refine ⟨d1, ?_, ?_, hrest⟩
    · rw [List.flatMap_cons, feed_append, hword, Outcome.andThen_ok]
      exact hd1
    · rw [ho]; simp

theorem uncompress_padding (cfg : Config) (hflag : cfg.compress_flag = true)
    (hpad : ∀ i, i < 256 → cfg.huffcodes i ≠ ['0'] ∧ cfg.huffcodes i ≠ ['0', '0'])
    (z : Nat) (hz : z ≤ 2) (d : DecodeState) (hcnt : d.uncompress_bit_count = 0) :
    ∃ d1, feed (uncompress_bit cfg) (List.replicate z false) d = .ok d1 ∧ d1.outf = d.outf := by
  have hm1 : huffcode_find cfg.huffcodes ['0'] = none :=
    huffcode_find_miss _ _ (fun i hi => (hpad i hi).1)
  have hm2 : huffcode_find cfg.huffcodes ['0', '0'] = none :=
    huffcode_find_miss _ _ (fun i hi => (hpad i hi).2)
  have step1 : uncompress_bit cfg false d =
      .ok { d with uncompress_value := ['0'], uncompress_bit_count := 1 } := by
    rw [uncompress_bit_miss cfg hflag false d (by rw [hcnt]; simpa using hm1)
      (by rw [hcnt]; decide), hcnt]
    simp
  have step2 : uncompress_bit cfg false
      { d with uncompress_value := ['0'], uncompress_bit_count := 1 } =
      .ok { d with uncompress_value := ['0', '0'], uncompress_bit_count := 2 } := by
    rw [uncompress_bit_miss cfg hflag false _ (by simpa using hm2)
      (by show 1 + 1 < 255; decide)]
    simp
  match z, hz with
  | 0, _ => exact ⟨d, rfl, rfl⟩
  | 1, _ =>
    exact ⟨{ d with uncompress_value := ['0'], uncompress_bit_count := 1 },
      by simp only [List.replicate, feed, step1, Outcome.andThen_ok], rfl⟩
  | 2, _ =>
    exact ⟨{ d with uncompress_value := ['0', '0'], uncompress_bit_count := 2 },
      by simp only [List.replicate, feed, step1, step2, Outcome.andThen_ok], rfl⟩

/-! ## The Huffman stage of the embedder -/

theorem feed_compress_bit_partial (cfg : Config) (hflag : cfg.compress_flag = true)
    (p : List Bool) :
    ∀ st : EmbedState, st.comp.compress_bit_count + p.length < 8 →
      feed (compress_bit cfg) p st =
        .ok { st with comp :=
          { st.comp with
              compress_bits_in := st.comp.compress_bits_in + p.length,
              compress_value := p.foldl (fun v b => (v <<< 1) ||| b.toNat) st.comp.compress_value,
              compress_bit_count := st.comp.compress_bit_count + p.length } } := by
  induction p with
  | nil => intro st _; rfl
  | cons b bs ih =>
    intro st h
    simp only [List.length_cons] at h
    rw [feed, compress_bit]
    simp only [hflag, Bool.not_true, Bool.false_eq_true, if_false]
    rw [if_neg (by omega), Outcome.andThen_ok, ih _ (by simp only []; omega)]
    simp only [List.foldl_cons, List.length_cons, Outcome.ok.injEq]
    congr 2 <;> omega

theorem feed_compress_byte (cfg : Config) (hflag : cfg.compress_flag = true)
    (c : Nat) (hc : c < 256) (st : EmbedState)
    (h0 : st.comp.compress_bit_count = 0) (hv : st.comp.compress_value = 0) :
    feed (compress_bit cfg) (byte_bits c) st =
      (compress_emit cfg (cfg.huffcodes c)
        { st with comp := { st.comp with compress_bits_in := st.comp.compress_bits_in + 8,
                                         compress_value := c,
                                         compress_bit_count := 8 } }).andThen fun st2 =>
        .ok { st2 with comp := { st2.comp with compress_value := 0,
                                               compress_bit_count := 0 } } := by
  have hsplit : byte_bits c = (byte_bits c).take 7 ++ [decide ((c &&& 1) ≠ 0)] :=
    (List.take_append_drop 7 (byte_bits c)).symm
  have hval := bits_value_byte_bits c hc
  have hql : ((byte_bits c).take 7).length = 7 := by
    rw [List.length_take, byte_bits_length]; rfl
  generalize (byte_bits c).take 7 = q at hsplit hql
  rw [hsplit] at hval ⊢
  rw [feed_append, feed_compress_bit_partial cfg hflag q st (by rw [h0, hql]; decide)]
  simp only [Outcome.andThen_ok, feed, compress_bit, hflag, Bool.not_true,
    Bool.false_eq_true, if_false]
  rw [if_pos (by show st.comp.compress_bit_count + q.length + 1 = 8; rw [h0, hql])]
  rw [bits_value_concat, bits_value] at hval
  rw [hv, hval, hql]
  cases hcomp : compress_emit cfg (cfg.huffcodes c)
      { st with comp := { st.comp with compress_bits_in := st.comp.compress_bits_in + 7 + 1,
                                       compress_value := c,
                                       compress_bit_count := st.comp.compress_bit_count + 7 + 1 } }
    <;> simp [h0] at hcomp ⊢ <;> rw [hcomp] <;> rfl

theorem compress_emit_ok (cfg : Config) (code : List Char) :
    ∀ st t, compress_emit cfg code st = .ok t →
      feed (encode_bit cfg.line_length cfg.fuel) (encrypt_view st.crypt (code_bits code)).1
        st.enc = .ok t.enc ∧
      t.crypt = (encrypt_view st.crypt (code_bits code)).2 ∧
      t.comp.compress_bit_count = st.comp.compress_bit_count ∧
      t.comp.compress_value = st.comp.compress_value := by
  induction code with
  | nil =>
    intro st t h
    simp only [compress_emit, Outcome.ok.injEq] at h
    rw [code_bits, List.map_nil, encrypt_view_nil, ← h]
    exact ⟨rfl, rfl, rfl, rfl⟩
  | cons ch cs ih =>
    intro st t h
    rw [compress_emit] at h
    split at h
    · obtain ⟨s1, h1, h⟩ := Outcome.andThen_eq_ok.1 h
      obtain ⟨e1, c1, k1, l1⟩ := encrypt_bit_ok cfg _ st s1 h1
      obtain ⟨e2, c2, k2, v2⟩ := ih _ t h
      have hcons : code_bits (ch :: cs) = [decide (ch = '1')] ++ code_bits cs := rfl
      rw [hcons, encrypt_view_append, ← c1]
      refine ⟨?_, c2, by rw [k2]; simp only []; rw [k1], by rw [v2]; simp only []; rw [k1]⟩
      simp only []
      rw [feed_append]
      have hx : (encrypt_view st.crypt [decide (ch = '1')]).1 =
          [(encrypt_view st.crypt [decide (ch = '1')]).1.head!] := by
        match hv : (encrypt_view st.crypt [decide (ch = '1')]).1, l1 with
        | [x], _ => rfl
      rw [hx]
      simp only [feed, e1, Outcome.andThen_ok]
      exact e2
    · cases h

theorem compress_message_ok (cfg : Config) (hflag : cfg.compress_flag = true)
    (msg : List Nat) (hmsg : ∀ c ∈ msg, c < 256) :
    ∀ st t, st.comp.compress_bit_count = 0 → st.comp.compress_value = 0 →
      feed (compress_bit cfg) (msg.flatMap byte_bits) st = .ok t →
      feed (encode_bit cfg.line_length cfg.fuel)
        (encrypt_view st.crypt (msg.flatMap fun c => code_bits (cfg.huffcodes c))).1 st.enc
        = .ok t.enc ∧
      t.crypt = (encrypt_view st.crypt (msg.flatMap fun c => code_bits (cfg.huffcodes c))).2 := by
  induction msg with
  | nil =>
    intro st t _ _ h
    simp only [List.flatMap_nil, feed, Outcome.ok.injEq] at h
    rw [List.flatMap_nil, encrypt_view_nil, ← h]
    exact ⟨rfl, rfl⟩
  | cons c cs ih =>
    intro st t h0 hv h
    have hc := hmsg c (List.mem_cons_self _ _)
    rw [List.flatMap_cons, feed_append, feed_compress_byte cfg hflag c hc st h0 hv] at h
    obtain ⟨s2, h2, h⟩ := Outcome.andThen_eq_ok.1 h
    obtain ⟨s1, h1, h2⟩ := Outcome.andThen_eq_ok.1 h2
    simp only [Outcome.ok.injEq] at h2
    obtain ⟨e1, c1, _, _⟩ := compress_emit_ok cfg _ _ s1 h1
    have hs2e : s2.enc = s1.enc := by rw [← h2]
    have hs2c : s2.crypt = s1.crypt := by rw [← h2]
    obtain ⟨e2, c2⟩ := ih (fun x hx => hmsg x (List.mem_cons_of_mem _ hx)) s2 t
      (by rw [← h2]) (by rw [← h2]) h
    rw [List.flatMap_cons, encrypt_view_append]
    simp only [] at e1 c1 ⊢
    rw [hs2c, c1] at e2 c2
    rw [hs2e] at e2
    refine ⟨?_, c2⟩
    rw [feed_append, e1, Outcome.andThen_ok]
    exact e2

theorem decrypt_view_no_key (crypt : CryptState) (h : crypt.ice_key = none) (bits : List Bool) :
    decrypt_view crypt bits = (bits, crypt) := by
  simp [decrypt_view, h]

theorem encrypt_view_no_key (crypt : CryptState) (h : crypt.ice_key = none) (bits : List Bool) :
    encrypt_view crypt bits = (bits, crypt) := by
  simp [encrypt_view, h]

theorem clean_sample_cover : clean_cover sample_cover := by
  unfold clean_cover
  decide

/-! ## Two tables -/

theorem byte_table_length (i : Nat) : (byte_table i).length = 8 := by
  simp [byte_table, byte_bits_length]

theorem byte_table_injective (i j : Nat) (hi : i < 256) (hj : j < 256)
    (h : byte_table i = byte_table j) : i = j := by
  have hb : byte_bits i = byte_bits j := by
    unfold byte_table at h
    refine List.map_injective_iff.2 ?_ h
    intro a b hab
    cases a <;> cases b <;> simp at hab <;> rfl
  rw [← bits_value_byte_bits i hi, ← bits_value_byte_bits j hj, hb]

theorem byte_table_binary : binary_words byte_table := by
  intro i _ ch hch
  unfold byte_table at hch
  obtain ⟨b, _, hb⟩ := List.mem_map.1 hch
  cases b
  · left; exact hb.symm
  · right; exact hb.symm

theorem eq_of_begins_of_length {a b : List Char} (h : a <+: b) (hl : a.length = b.length) :
    a = b :=
  h.eq_of_length hl

theorem byte_table_separate : no_word_begins_another byte_table := by
  intro i j hi hj hne hpre
  apply hne
  apply byte_table_injective i j hi hj
  exact eq_of_begins_of_length hpre (by rw [byte_table_length, byte_table_length])

theorem byte_table_nonempty (i : Nat) (_ : i < 256) : byte_table i ≠ [] := by
  intro h
  have := byte_table_length i
  rw [h] at this
  cases this

theorem byte_table_short (i : Nat) (_ : i < 256) : (byte_table i).length ≤ 255 := by
  rw [byte_table_length]; decide

theorem byte_table_no_padding (i : Nat) (_ : i < 256) :
    byte_table i ≠ ['0'] ∧ byte_table i ≠ ['0', '0'] := by
  constructor <;> intro h <;> have := byte_table_length i <;> rw [h] at this <;> cases this

theorem short_zero_table_binary : binary_words short_zero_table := by
  intro i hi ch hch
  unfold short_zero_table at hch
  split at hch
  · left; simpa using hch
  · rcases List.mem_cons.1 hch with h | h
    · right; exact h
    · exact byte_table_binary i hi ch h

theorem short_zero_table_nonempty (i : Nat) (_ : i < 256) : short_zero_table i ≠ [] := by
  unfold short_zero_table
  split <;> simp

theorem short_zero_table_separate : no_word_begins_another short_zero_table := by
  intro i j hi hj hne hpre
  unfold short_zero_table at hpre
  by_cases h0 : i = 0 <;> by_cases h1 : j = 0
  · exact hne (by rw [h0, h1])
  · rw [if_pos h0, if_neg h1] at hpre
    obtain ⟨t, ht⟩ := hpre
    simp at ht
  · rw [if_neg h0, if_pos h1] at hpre
    obtain ⟨t, ht⟩ := hpre
    simp at ht
  · rw [if_neg h0, if_neg h1] at hpre
    have hp : byte_table i <+: byte_table j := by
      obtain ⟨t, ht⟩ := hpre
      exact ⟨t, by simpa using ht⟩
    exact byte_table_separate i j hi hj hne hp

/-! ## Termination for line lengths above 8 -/

theorem reverse_bits_le (val : Nat) : reverse_bits val ≤ 7 := by
  unfold reverse_bits
  have h1 : val &&& 1 ≤ 1 := Nat.and_le_right
  have h2 : val &&& 2 ≤ 2 := Nat.and_le_right
  have h4 : val &&& 4 ≤ 4 := Nat.and_le_right
  have a : (val &&& 1) <<< 2 < 2 ^ 3 := by
    rw [Nat.shiftLeft_eq]; omega
  have b : val &&& 2 < 2 ^ 3 := by omega
  have c : (val &&& 4) >>> 2 < 2 ^ 3 := by
    rw [Nat.shiftRight_eq_div_pow]; omega
  have := Nat.or_lt_two_pow (Nat.or_lt_two_pow a b) c
  omega

theorem encode_buffer_load_inf (s : EncodeState) :
    (encode_buffer_load s).inf = s.inf.tail ∧
    (s.inf = [] → (encode_buffer_load s).encode_buffer_column = 0) := by
  unfold encode_buffer_load wsgets
  rcases s.inf with _ | ⟨l, rest⟩ <;> simp

theorem load_until_tab_fits_completes (T : Nat) (hT : 9 ≤ T) (fuel : Nat) :
    ∀ s, (s.inf.length < fuel ∨ tabpos s.encode_buffer_column < T) →
      ∃ t, load_until_tab_fits T fuel s = .ok t ∧ t.inf.length ≤ s.inf.length := by
  induction fuel with
  | zero =>
    intro s h
    rcases h with h | h
    · cases h
    · exact ⟨s, by rw [load_until_tab_fits, if_neg (by omega)], le_refl _⟩
  | succ n ih =>
    intro s h
    rw [load_until_tab_fits]
    split
    · rename_i hc
      have hlen : s.inf.length < n + 1 := by
        rcases h with h | h
        · exact h
        · omega
      obtain ⟨hi, hcol⟩ := encode_buffer_load_inf (wsputs_buffer s)
      have hnext : (encode_buffer_load (wsputs_buffer s)).inf.length < n ∨
          tabpos (encode_buffer_load (wsputs_buffer s)).encode_buffer_column < T := by
        by_cases hnil : s.inf = []
        · right
          rw [hcol hnil]
          unfold tabpos; omega
        · left
          rw [hi]
          have : 0 < s.inf.length := List.length_pos.2 hnil
          simp only [wsputs_buffer, List.length_tail]
          omega
      obtain ⟨t, ht, hle⟩ := ih _ hnext
      refine ⟨t, ht, le_trans hle ?_⟩
      rw [hi]
      simp [wsputs_buffer]
    · exact ⟨s, rfl, le_refl _⟩

theorem encode_append_whitespace_fits (T nsp : Nat) (s : EncodeState)
    (h : chunk_column s.encode_buffer_column s.encode_needs_tab nsp < T) :
    ∃ t, encode_append_whitespace T nsp s = (true, t) ∧ t.inf = s.inf := by
  rw [encode_append_whitespace_eq, if_neg (by omega)]
  exact ⟨_, rfl, rfl⟩

theorem append_until_fits_completes (T nspc : Nat) (hT : 9 ≤ T) (hn : nspc ≤ 7) (fuel : Nat) :
    ∀ s, (s.inf.length < fuel ∨
        chunk_column s.encode_buffer_column s.encode_needs_tab nspc < T) →
      ∃ t, append_until_fits T nspc fuel s = .ok t ∧ t.inf.length ≤ s.inf.length := by
  induction fuel with
  | zero =>
    intro s h
    rcases h with h | h
    · cases h
    · obtain ⟨t, ht, hi⟩ := encode_append_whitespace_fits T nspc s h
      exact ⟨t, by rw [append_until_fits, ht], by rw [hi]⟩
  | succ n ih =>
    intro s h
    by_cases hfit : chunk_column s.encode_buffer_column s.encode_needs_tab nspc < T
    · obtain ⟨t, ht, hi⟩ := encode_append_whitespace_fits T nspc s hfit
      exact ⟨t, by rw [append_until_fits, ht], by rw [hi]⟩
    · have hlen : s.inf.length < n + 1 := by
        rcases h with h | h
        · exact h
        · exact absurd h hfit
      have happ : encode_append_whitespace T nspc s = (false, s) := by
        rw [encode_append_whitespace_eq, if_pos (by omega)]
      rw [append_until_fits, happ]
      simp only []
      obtain ⟨hi, hcol⟩ := encode_buffer_load_inf (wsputs_buffer s)
      have hnt := (encode_buffer_load_fields (wsputs_buffer s)).2.1
      have hnext : (encode_buffer_load (wsputs_buffer s)).inf.length < n ∨
          chunk_column (encode_buffer_load (wsputs_buffer s)).encode_buffer_column
            (encode_buffer_load (wsputs_buffer s)).encode_needs_tab nspc < T := by
        by_cases hnil : s.inf = []
        · right
          rw [hcol hnil, hnt]
          unfold chunk_column tabpos
          simp only [Bool.false_eq_true, if_false]
          split <;> omega
        · left
          rw [hi]
          have : 0 < s.inf.length := List.length_pos.2 hnil
          simp only [wsputs_buffer, List.length_tail]
          omega
      obtain ⟨t, ht, hle⟩ := ih _ hnext
      refine ⟨t, ht, le_trans hle ?_⟩
      rw [hi]
      simp [wsputs_buffer]

theorem encode_write_value_completes (T : Nat) (hT : 9 ≤ T) (fuel val : Nat)
    (s : EncodeState) (h : s.inf.length < fuel) :
    ∃ t, encode_write_value T fuel val s = .ok t ∧ t.inf.length ≤ s.inf.length := by
  unfold encode_write_value
  simp only []
  have h1 : (if s.encode_buffer_loaded = true then s else encode_buffer_load s).inf.length
      ≤ s.inf.length := by
    split
    · exact le_refl _
    · rw [(encode_buffer_load_inf s).1]; simp
  generalize (if s.encode_buffer_loaded = true then s else encode_buffer_load s) = s1 at h1
  have h3 : ∃ s3, (if s1.encode_first_tab = true then Outcome.ok s1
      else (load_until_tab_fits T fuel s1).andThen fun s2 =>
        .ok { append_tab s2 with encode_first_tab := true }) = .ok s3 ∧
      s3.inf.length ≤ s.inf.length := by
    split
    · exact ⟨s1, rfl, h1⟩
    · obtain ⟨s2, h2, hle⟩ := load_until_tab_fits_completes T hT fuel s1 (Or.inl (by omega))
      rw [h2]
      exact ⟨_, rfl, by simp only [append_tab]; omega⟩
  obtain ⟨s3, h3, hle3⟩ := h3
  rw [h3, Outcome.andThen_ok]
  obtain ⟨s4, h4, hle4⟩ := append_until_fits_completes T (reverse_bits val) hT
    (reverse_bits_le val) fuel s3 (Or.inl (by omega))
  rw [h4, Outcome.andThen_ok]
  split
  · exact ⟨_, rfl, by simp only []; omega⟩
  · exact ⟨_, rfl, by omega⟩

theorem encode_bit_completes (T : Nat) (hT : 9 ≤ T) (fuel : Nat) (b : Bool)
    (s : EncodeState) (h : s.inf.length < fuel) :
    ∃ t, encode_bit T fuel b s = .ok t ∧ t.inf.length ≤ s.inf.length := by
  unfold encode_bit
  simp only []
  split
  · obtain ⟨t, ht, hle⟩ := encode_write_value_completes T hT fuel
      ((s.encode_value <<< 1) ||| b.toNat)
      { s with encode_value := (s.encode_value <<< 1) ||| b.toNat,
               encode_bits_used := s.encode_bits_used + 1,
               encode_bit_count := s.encode_bit_count + 1 } h
    rw [ht]
    exact ⟨_, rfl, hle⟩
  · exact ⟨_, rfl, le_refl _⟩

theorem encode_pad_inf (k : Nat) : ∀ s, (encode_pad k s).inf = s.inf := by
  induction k with
  | zero => intro s; rfl
  | succ k ih =>
    intro s
    rw [encode_pad]
    split
    · rw [ih]
    · rfl

theorem encode_flush_completes (T : Nat) (hT : 9 ≤ T) (fuel : Nat)
    (s : EncodeState) (h : s.inf.length < fuel) :
    ∃ t, encode_flush T fuel s = .ok t := by
  unfold encode_flush
  simp only []
  split
  · obtain ⟨t, ht, _⟩ := encode_write_value_completes T hT fuel (encode_pad 3 s).encode_value
      (encode_pad 3 s) (by rw [encode_pad_inf]; exact h)
    rw [ht]
    exact ⟨_, rfl⟩
  · exact ⟨_, rfl⟩

theorem encrypt_bit_completes (cfg : Config) (hT : 9 ≤ cfg.line_length) (b : Bool)
    (st : EmbedState) (h : st.enc.inf.length < cfg.fuel) :
    ∃ t, encrypt_bit cfg b st = .ok t ∧ t.enc.inf.length ≤ st.enc.inf.length ∧
      t.comp = st.comp := by
  unfold encrypt_bit
  split
  · obtain ⟨e, he, hle⟩ := encode_bit_completes cfg.line_length hT cfg.fuel b st.enc h
    rw [he]
    exact ⟨_, rfl, hle, rfl⟩
  · rename_i E _
    obtain ⟨e, he, hle⟩ := encode_bit_completes cfg.line_length hT cfg.fuel
      (encrypt_step E st.crypt.encrypt_iv_block b).1 st.enc h
    simp only []
    rw [he]
    exact ⟨_, rfl, hle, rfl⟩

theorem feed_encrypt_bit_completes (cfg : Config) (hT : 9 ≤ cfg.line_length)
    (bits : List Bool) :
    ∀ st : EmbedState, st.enc.inf.length < cfg.fuel →
      ∃ t, feed (encrypt_bit cfg) bits st = .ok t ∧ t.enc.inf.length ≤ st.enc.inf.length := by
  induction bits with
  | nil => intro st _; exact ⟨st, rfl, le_refl _⟩
  | cons b bs ih =>
    intro st h
    obtain ⟨s1, h1, hle1, _⟩ := encrypt_bit_completes cfg hT b st h
    obtain ⟨t, ht, hle⟩ := ih s1 (by omega)
    exact ⟨t, by rw [feed, h1, Outcome.andThen_ok]; exact ht, by omega⟩

theorem compress_emit_completes (cfg : Config) (hT : 9 ≤ cfg.line_length)
    (code : List Char) (hcode : ∀ ch ∈ code, ch = '0' ∨ ch = '1') :
    ∀ st : EmbedState, st.enc.inf.length < cfg.fuel →
      ∃ t, compress_emit cfg code st = .ok t ∧ t.enc.inf.length ≤ st.enc.inf.length := by
  induction code with
  | nil => intro st _; exact ⟨st, rfl, le_refl _⟩
  | cons ch cs ih =>
    intro st h
    have hch := hcode ch (List.mem_cons_self _ _)
    obtain ⟨s1, h1, hle1, _⟩ := encrypt_bit_completes cfg hT (decide (ch = '1')) st h
    obtain ⟨t, ht, hle⟩ := ih (fun x hx => hcode x (List.mem_cons_of_mem _ hx))
      { s1 with comp := { s1.comp with
          compress_bits_out := s1.comp.compress_bits_out + 1 } } (by simp only []; omega)
    refine ⟨t, ?_, by simp only [] at hle; omega⟩
    rw [compress_emit, if_pos (by rcases hch with h | h <;> simp [h]), h1, Outcome.andThen_ok]
    exact ht

theorem feed_compress_completes (cfg : Config) (hT : 9 ≤ cfg.line_length)
    (hflag : cfg.compress_flag = true) (h01 : binary_words cfg.huffcodes)
    (msg : List Nat) (hmsg : ∀ c ∈ msg, c < 256) :
    ∀ st : EmbedState, st.enc.inf.length < cfg.fuel →
      st.comp.compress_bit_count = 0 → st.comp.compress_value = 0 →
      ∃ t, feed (compress_bit cfg) (msg.flatMap byte_bits) st = .ok t ∧
        t.enc.inf.length ≤ st.enc.inf.length := by
  induction msg with
  | nil => intro st _ _ _; exact ⟨st, rfl, le_refl _⟩
  | cons c cs ih =>
    intro st h h0 hv
    have hc := hmsg c (List.mem_cons_self _ _)
    obtain ⟨s1, h1, hle1⟩ := compress_emit_completes cfg hT (cfg.huffcodes c) (h01 c hc)
      { st with comp := { st.comp with compress_bits_in := st.comp.compress_bits_in + 8,
                                       compress_value := c,
                                       compress_bit_count := 8 } } h
    obtain ⟨t, ht, hle⟩ := ih (fun x hx => hmsg x (List.mem_cons_of_mem _ hx))
      { s1 with comp := { s1.comp with compress_value := 0, compress_bit_count := 0 } }
      (by simp only [] at hle1 ⊢; omega) rfl rfl
    refine ⟨t, ?_, by simp only [] at hle hle1; omega⟩
    rw [List.flatMap_cons, feed_append, feed_compress_byte cfg hflag c hc st h0 hv, h1]
    simp only [Outcome.andThen_ok]
    exact ht

/-- For every line length of 9 or more, embedding returns TRUE as soon as
the number of line loads allowed to each call of `encode_write_value`
exceeds the number of cover lines (with compression on, for a table of
words of `0` and `1`). -/
theorem embed_completes (cfg : Config) (hT : 9 ≤ cfg.line_length)
    (crypt : CryptState) (msg : List Nat) (hmsg : ∀ c ∈ msg, c < 256)
    (cover : List (List Char)) (hfuel : cover.length < cfg.fuel)
    (h01 : cfg.compress_flag = true → binary_words cfg.huffcodes) :
    ∃ st, embed cfg crypt msg cover = .ok st := by
  unfold embed message_fp_encode
  rw [compress_init_start, message_loop_eq_feed]
  have hloop : ∃ s1, feed (compress_bit cfg) (msg.flatMap byte_bits)
      (EmbedState.start crypt cover) = .ok s1 ∧ s1.enc.inf.length ≤ cover.length := by
    cases hflag : cfg.compress_flag
    · rw [compress_bit_off cfg hflag]
      exact feed_encrypt_bit_completes cfg hT _ _ hfuel
    · exact feed_compress_completes cfg hT hflag (h01 hflag) msg hmsg _ hfuel rfl rfl
  obtain ⟨s1, h1, hle⟩ := hloop
  rw [h1, Outcome.andThen_ok]
  unfold compress_flush encrypt_flush
  obtain ⟨e, he⟩ := encode_flush_completes cfg.line_length hT cfg.fuel s1.enc (by omega)
  rw [he]
  exact ⟨_, rfl⟩

/-! ## The round-trip claims -/

theorem roundtrip_compressed (cfg : Config) (hflag : cfg.compress_flag = true)
    (crypt : CryptState) (hkey : crypt.ice_key = none)
    (h01 : binary_words cfg.huffcodes) (hne : ∀ i, i < 256 → cfg.huffcodes i ≠ [])
    (hpf : no_word_begins_another cfg.huffcodes)
    (hlen : ∀ i, i < 256 → (cfg.huffcodes i).length ≤ 255)
    (hpad : ∀ i, i < 256 → cfg.huffcodes i ≠ ['0'] ∧ cfg.huffcodes i ≠ ['0', '0'])
    (msg : List Nat) (hmsg : ∀ c ∈ msg, c < 256)
    (cover : List (List Char)) (hcov : clean_cover cover) (st : EmbedState)
    (hemb : embed cfg crypt msg cover = .ok st) :
    ∃ x, message_extract cfg crypt (stego_read st.enc.outf) = .ok x ∧ x.dec.outf = msg := by
  unfold embed message_fp_encode at hemb
  rw [compress_init_start, message_loop_eq_feed] at hemb
  obtain ⟨s1, hfeed, hflush⟩ := Outcome.andThen_eq_ok.1 hemb
  obtain ⟨he, _⟩ := compress_message_ok cfg hflag msg hmsg _ s1 rfl rfl hfeed
  unfold compress_flush encrypt_flush at hflush
  obtain ⟨e2, hfl, hst⟩ := Outcome.map_eq_ok.1 hflush
  have hout : st.enc.outf = e2.outf := by rw [← hst]
  have hcr : (EmbedState.start crypt cover).crypt = crypt := rfl
  rw [hcr, encrypt_view_no_key crypt hkey] at he
  rw [hout, encode_tokens cfg crypt cover hcov _ s1.enc e2 he hfl]
  obtain ⟨d1, hd1, ho1, hc1, _, _⟩ := uncompress_message cfg hflag h01 hne hpf hlen msg hmsg
    (ExtractState.start crypt).dec rfl rfl rfl
  obtain ⟨d2, hd2, ho2⟩ := uncompress_padding cfg hflag hpad
    (pad_length (msg.flatMap fun c => code_bits (cfg.huffcodes c)).length)
    (pad_length_le _) d1 hc1
  have hall : feed (uncompress_bit cfg)
      (decrypt_view (ExtractState.start crypt).crypt
        ((msg.flatMap fun c => code_bits (cfg.huffcodes c)) ++ List.replicate
          (pad_length (msg.flatMap fun c => code_bits (cfg.huffcodes c)).length) false)).1
      (ExtractState.start crypt).dec = .ok d2 := by
    rw [show (ExtractState.start crypt).crypt = crypt from rfl,
      decrypt_view_no_key crypt hkey]
    simp only []
    rw [feed_append, hd1, Outcome.andThen_ok]
    exact hd2
  refine ⟨_, feed_decrypt_bit_ok cfg _ _ _ hall, ?_⟩
  simp only []
  rw [ho2, ho1]
  rfl

/-! ## Capacity of empty lines and the key level (C11, C12) -/

theorem space_loop_empty (T : Nat) (hT : 8 ≤ T) (h8 : T % 8 = 0) :
    ∀ (cover : List (List Char)) (n : Nat × Nat), (∀ l ∈ cover, ws_strip l = []) →
      space_loop T cover n = (n.1 + cover.length * (T / 8 * 3), n.2 + cover.length * (T / 8 * 3)) := by
  intro cover
  induction cover with
  | nil => intro n _; simp [space_loop]
  | cons l rest ih =>
    intro n h
    have hl : ws_strip l = [] := h l (List.mem_cons_self _ _)
    have hr : ∀ x ∈ rest, ws_strip x = [] := fun x hx => h x (List.mem_cons_of_mem _ hx)
    have hw : whitespace_storage T [] n = (n.1 + T / 8 * 3, n.2 + T / 8 * 3) := by
      unfold whitespace_storage
      have h1 : ¬ (([] : List Char).length + 2 > T) := by simp; omega
      have h2 : ¬ (([] : List Char).length / 8 = T / 8) := by simp; omega
      simp only [h1, h2, if_false]
      simp [h8]
    rw [space_loop, hl, hw, ih _ hr]
    simp only [List.length_cons]
    ext <;> simp <;> ring

/-- C11: on a cover of `k ≥ 1` lines that are empty once stripped, with a
line length `T ≥ 8` that is a multiple of 8, `space_calculate` reports
`n_lo = n_hi = k * ((T / 8) * 3) - 1`. -/
theorem C11_empty_lines_capacity (T : Nat) (cover : List (List Char))
    (hT : 8 ≤ T) (h8 : T % 8 = 0) (hk : 1 ≤ cover.length)
    (hempty : ∀ l ∈ cover, ws_strip l = []) :
    space_calculate T cover
      = (cover.length * ((T / 8) * 3) - 1, cover.length * ((T / 8) * 3) - 1) := by
  unfold space_calculate
  rw [space_loop_empty T hT h8 cover (0, 0) hempty]
  have hpos : 0 < cover.length * (T / 8 * 3) := by
    have : 1 ≤ T / 8 := by omega
    positivity
  simp [hpos]

/-- C11 at three empty lines and line length 80: both estimates are 89. -/
theorem C11_empty_lines_capacity_witness :
    (8 ≤ 80 ∧ 80 % 8 = 0 ∧ 1 ≤ ([[], [], []] : List (List Char)).length) ∧
      space_calculate 80 [[], [], []] = (89, 89) :=
  ⟨by decide, C11_empty_lines_capacity 80 [[], [], []] (by decide) (by decide) (by decide)
    (by intro l hl; simp at hl; subst hl; rfl)⟩

theorem password_level_ceil (n : Nat) : ⌈((7 * n : ℕ) : ℚ) / 64⌉₊ = (n * 7 + 63) / 64 := by
  apply le_antisymm
  · rw [Nat.ceil_le, div_le_iff₀ (by norm_num)]
    have h : 7 * n ≤ (n * 7 + 63) / 64 * 64 := by omega
    exact_mod_cast h
  · by_cases h0 : (n * 7 + 63) / 64 = 0
    · omega
    · have h1 : (n * 7 + 63) / 64 - 1 < ⌈((7 * n : ℕ) : ℚ) / 64⌉₊ := by
        rw [Nat.lt_ceil, lt_div_iff₀ (by norm_num)]
        have h : ((n * 7 + 63) / 64 - 1) * 64 < 7 * n := by omega
        exact_mod_cast h
      omega

/-- C12: the level `password_set` passes to `ice_key_create` is
`ceil (7 * n / 64)` clamped to the range from 1 to 128, where `n` is the
length of the password; it is 1 for the empty password and 128 for every
password of 1171 characters or more. -/
theorem C12_key_level :
    (∀ passwd : List Nat,
      password_level passwd = max 1 (min 128 ⌈((7 * passwd.length : ℕ) : ℚ) / 64⌉₊)) ∧
    password_level [] = 1 ∧
    (∀ passwd : List Nat, 1171 ≤ passwd.length → password_level passwd = 128) := by
  refine ⟨?_, rfl, ?_⟩
  · intro passwd
    rw [password_level_ceil]
    unfold password_level
    simp only []
    split_ifs <;> omega
  · intro passwd h
    unfold password_level
    simp only []
    split_ifs <;> omega

/-! ## Lines without a leading tab in their trailing run (C16) -/

theorem extract_loop_cons (cfg : Config) (buf : List Char) (rest : List (List Char))
    (found : Bool) (st : ExtractState) :
    extract_loop cfg (buf :: rest) found st
      = match line_action buf found with
        | (found1, none) => extract_loop cfg rest found1 st
        | (found1, some s) =>
          (decode_whitespace cfg s 0 st).andThen (extract_loop cfg rest found1) := by
  rw [extract_loop]

theorem line_action_no_run (x : List Char) (found : Bool) (h : scan_line x none = none) :
    line_action x found = (found, none) := by
  simp [line_action, h]

theorem line_action_space_run (x run : List Char) (h : scan_line x none = some run)
    (hs : run.head? = some ' ') : line_action x false = (false, none) := by
  simp [line_action, h, hs]

theorem line_action_keeps_false (l : List Char)
    (h : ∀ run, scan_line l none = some run → run.head? ≠ some '\t') :
    (line_action l false).1 = false := by
  unfold line_action
  cases hsc : scan_line l none with
  | none => rfl
  | some run =>
    have := h run hsc
    simp only []
    split_ifs <;> simp_all

theorem extract_loop_insert_no_run (cfg : Config) (x : List Char) (post : List (List Char))
    (h : scan_line x none = none) :
    ∀ (pre : List (List Char)) (found : Bool) (st : ExtractState),
      extract_loop cfg (pre ++ x :: post) found st = extract_loop cfg (pre ++ post) found st := by
  intro pre
  induction pre with
  | nil => intro found st; simp [extract_loop_cons, line_action_no_run x found h]
  | cons l pre ih =>
    intro found st
    simp only [List.cons_append, extract_loop_cons]
    rcases hla : line_action l found with ⟨f1, _ | s⟩
    · exact ih f1 st
    · simp only []
      congr 1
      funext st1
      exact ih f1 st1

theorem extract_loop_insert_space_run (cfg : Config) (x run : List Char)
    (post : List (List Char)) (h : scan_line x none = some run) (hs : run.head? = some ' ') :
    ∀ (pre : List (List Char)) (st : ExtractState),
      (∀ l ∈ pre, ∀ r, scan_line l none = some r → r.head? ≠ some '\t') →
      extract_loop cfg (pre ++ x :: post) false st = extract_loop cfg (pre ++ post) false st := by
  intro pre
  induction pre with
  | nil => intro st _; simp [extract_loop_cons, line_action_space_run x run h hs]
  | cons l pre ih =>
    intro st hpre
    have hl := line_action_keeps_false l (hpre l (List.mem_cons_self _ _))
    have hr : ∀ l ∈ pre, ∀ r, scan_line l none = some r → r.head? ≠ some '\t' :=
      fun y hy => hpre y (List.mem_cons_of_mem _ hy)
    simp only [List.cons_append, extract_loop_cons]
    rcases hla : line_action l false with ⟨f1, _ | s⟩
    · rw [hla] at hl
      simp only [] at hl
      subst hl
      exact ih st hr
    · rw [hla] at hl
      simp only [] at hl
      subst hl
      simp only []
      congr 1
      funext st1
      exact ih st1 hr

/-- C16 fails as stated: after the line holding the start tab, a line whose
trailing run begins with a space is decoded.  Appending such a line to a
text that yields no byte makes `message_extract` write the byte 80. -/
theorem C16_counterexample :
    scan_line spaced_line none = some [' ', ' ', '\t', ' ', '\t', '\t'] ∧
      (message_extract (plain_config 80 100) no_key sentinel_text).isOk = true ∧
      (message_extract (plain_config 80 100) no_key sentinel_text).state.dec.outf = [] ∧
      (message_extract (plain_config 80 100) no_key (sentinel_text ++ [spaced_line])).state.dec.outf
        = [80] ∧
      message_extract (plain_config 80 100) no_key (sentinel_text ++ [spaced_line])
        ≠ message_extract (plain_config 80 100) no_key sentinel_text := by
  refine ⟨by decide, by decide, by decide, by decide, ?_⟩
  intro h
  have h2 := congrArg (fun o => o.state.dec.outf) h
  revert h2
  decide

/-- C16, amended: a line with no trailing whitespace run can be inserted
anywhere, and a line whose trailing run begins with a space can be inserted
before the first line whose trailing run begins with a tab, without changing
the result of `message_extract` (same bytes, same success or failure). -/
theorem C16_inert_lines (cfg : Config) (crypt : CryptState) (pre post : List (List Char))
    (x : List Char)
    (h : scan_line x none = none ∨
      ((∃ run, scan_line x none = some run ∧ run.head? = some ' ') ∧
        ∀ l ∈ pre, ∀ r, scan_line l none = some r → r.head? ≠ some '\t')) :
    message_extract cfg crypt (pre ++ x :: post) = message_extract cfg crypt (pre ++ post) := by
  unfold message_extract
  rcases h with h | ⟨⟨run, h, hs⟩, hpre⟩
  · exact extract_loop_insert_no_run cfg x post h pre false _
  · exact extract_loop_insert_space_run cfg x run post h hs pre _ hpre

/-- C16 at a one-line text: the line of the counterexample placed before the
line holding the start tab is not decoded. -/
theorem C16_inert_lines_witness :
    message_extract (plain_config 80 100) no_key ([] ++ spaced_line :: sentinel_text)
      = message_extract (plain_config 80 100) no_key ([] ++ sentinel_text) :=
  C16_inert_lines (plain_config 80 100) no_key [] sentinel_text spaced_line
    (Or.inr ⟨⟨[' ', ' ', '\t', ' ', '\t', '\t'], by decide, by decide⟩,
      fun l hl => absurd hl (List.not_mem_nil l)⟩)

/-! ## The overflow test of `uncompress_bit` (C17) -/

theorem huffcode_find_some (tbl : Nat → List Char) (s : List Char) (c : Nat)
    (h : huffcode_find tbl s = some c) : c < 256 ∧ tbl c = s := by
  unfold huffcode_find at h
  have hp := List.find?_some h
  have hm := List.mem_of_find?_eq_some h
  simp only [decide_eq_true_eq] at hp
  exact ⟨List.mem_range.1 hm, hp.symm⟩

theorem huffcode_find_none (tbl : Nat → List Char) (s : List Char) :
    huffcode_find tbl s = none ↔ ∀ i, i < 256 → tbl i ≠ s := by
  constructor
  · intro h i hi heq
    unfold huffcode_find at h
    rw [List.find?_eq_none] at h
    have := h i (List.mem_range.2 hi)
    simp only [decide_eq_true_eq] at this
    exact this heq.symm
  · exact huffcode_find_miss tbl s

theorem uncompress_bit_found (cfg : Config) (hflag : cfg.compress_flag = true) (b : Bool)
    (d : DecodeState) (c : Nat)
    (hfind : huffcode_find cfg.huffcodes
      (d.uncompress_value.take d.uncompress_bit_count ++ [if b then '1' else '0']) = some c) :
    ∃ t, uncompress_bit cfg b d = .ok t ∧ t.uncompress_bit_count = 0 := by
  unfold uncompress_bit
  simp only [hflag, Bool.not_true, Bool.false_eq_true, if_false, hfind]
  obtain ⟨t, ht⟩ := output_code_ok c 8 0
    { d with uncompress_value :=
               d.uncompress_value.take d.uncompress_bit_count ++ [if b then '1' else '0'],
             uncompress_bit_count := d.uncompress_bit_count + 1 }
  rw [ht]
  simp only [Outcome.andThen_ok]
  exact ⟨_, by rw [if_neg (by show ¬ (0 ≥ 255); decide)], rfl⟩

theorem uncompress_bit_not_found (cfg : Config) (hflag : cfg.compress_flag = true) (b : Bool)
    (d : DecodeState)
    (hfind : huffcode_find cfg.huffcodes
      (d.uncompress_value.take d.uncompress_bit_count ++ [if b then '1' else '0']) = none) :
    uncompress_bit cfg b d =
      if d.uncompress_bit_count + 1 ≥ 255 then
        .failed .huffman_overflow
          { d with uncompress_value :=
                     d.uncompress_value.take d.uncompress_bit_count ++ [if b then '1' else '0'],
                   uncompress_bit_count := d.uncompress_bit_count + 1 }
      else
        .ok
          { d with uncompress_value :=
                     d.uncompress_value.take d.uncompress_bit_count ++ [if b then '1' else '0'],
                   uncompress_bit_count := d.uncompress_bit_count + 1 } := by
  unfold uncompress_bit
  simp only [hflag, Bool.not_true, Bool.false_eq_true, if_false, hfind, Outcome.andThen_ok]

theorem uncompress_bit_count_bound (cfg : Config) (hflag : cfg.compress_flag = true) (b : Bool)
    (d t : DecodeState) (h : uncompress_bit cfg b d = .ok t)
    (hd : d.uncompress_bit_count ≤ d.uncompress_value.length) :
    t.uncompress_bit_count ≤ 254 ∧ t.uncompress_bit_count ≤ t.uncompress_value.length := by
  cases hfind : huffcode_find cfg.huffcodes
      (d.uncompress_value.take d.uncompress_bit_count ++ [if b then '1' else '0']) with
  | some c =>
    obtain ⟨t1, h1, h0⟩ := uncompress_bit_found cfg hflag b d c hfind
    rw [h1] at h
    cases h
    rw [h0]
    exact ⟨Nat.zero_le _, Nat.zero_le _⟩
  | none =>
    rw [uncompress_bit_not_found cfg hflag b d hfind] at h
    split at h
    · cases h
    · cases h
      simp only [List.length_append, List.length_take, List.length_singleton]
      omega

theorem feed_uncompress_count_bound (cfg : Config) (hflag : cfg.compress_flag = true) :
    ∀ (bits : List Bool) (d t : DecodeState), feed (uncompress_bit cfg) bits d = .ok t →
      d.uncompress_bit_count ≤ 254 → d.uncompress_bit_count ≤ d.uncompress_value.length →
      t.uncompress_bit_count ≤ 254 ∧ t.uncompress_bit_count ≤ t.uncompress_value.length := by
  intro bits
  induction bits with
  | nil =>
    intro d t h h1 h2
    simp only [feed, Outcome.ok.injEq] at h
    subst h
    exact ⟨h1, h2⟩
  | cons b bs ih =>
    intro d t h h1 h2
    rw [feed] at h
    obtain ⟨d1, hd1, h⟩ := Outcome.andThen_eq_ok.1 h
    obtain ⟨k1, k2⟩ := uncompress_bit_count_bound cfg hflag b d d1 hd1 h2
    exact ih d1 t h k1 k2

/-- C17: in a run of `uncompress_bit` with compression on, from a state with
an empty prefix, `uncompress_bit_count` is at most 254 on entry to every
call, so the character is stored at an index of at most 254 and the NUL at
most at 255; the string in the buffer after the call has one character more
than the count on entry; the call fails exactly when that string has 255
characters and equals no table entry, and then with the overflow error. -/
theorem C17_uncompress_overflow (cfg : Config) (hflag : cfg.compress_flag = true)
    (bits : List Bool) (d0 d : DecodeState) (h0 : d0.uncompress_bit_count = 0)
    (hrun : feed (uncompress_bit cfg) bits d0 = .ok d) :
    d.uncompress_bit_count ≤ 254 ∧
    ∀ b : Bool,
      (d.uncompress_value.take d.uncompress_bit_count ++ [if b then '1' else '0']).length
        = d.uncompress_bit_count + 1 ∧
      ((∃ t, uncompress_bit cfg b d = .failed .huffman_overflow t) ↔
        ((d.uncompress_value.take d.uncompress_bit_count ++ [if b then '1' else '0']).length
            = 255 ∧
          ∀ i, i < 256 → cfg.huffcodes i ≠
            d.uncompress_value.take d.uncompress_bit_count ++ [if b then '1' else '0'])) ∧
      (∀ e t, uncompress_bit cfg b d = .failed e t → e = .huffman_overflow) ∧
      (∀ t, uncompress_bit cfg b d ≠ .looping t) := by
  obtain ⟨k1, k2⟩ := feed_uncompress_count_bound cfg hflag bits d0 d hrun
    (by rw [h0]; exact Nat.zero_le _) (by rw [h0]; exact Nat.zero_le _)
  refine ⟨k1, fun b => ?_⟩
  have hlen : (d.uncompress_value.take d.uncompress_bit_count
      ++ [if b then '1' else '0']).length = d.uncompress_bit_count + 1 := by
    simp only [List.length_append, List.length_take, List.length_singleton]
    omega
  refine ⟨hlen, ?_⟩
  rw [hlen]
  cases hfind : huffcode_find cfg.huffcodes
      (d.uncompress_value.take d.uncompress_bit_count ++ [if b then '1' else '0']) with
  | some c =>
    obtain ⟨t1, h1, _⟩ := uncompress_bit_found cfg hflag b d c hfind
    obtain ⟨hc, heq⟩ := huffcode_find_some _ _ _ hfind
    rw [h1]
    refine ⟨⟨?_, ?_⟩, ?_, ?_⟩
    · rintro ⟨t, ht⟩; cases ht
    · rintro ⟨_, hno⟩; exact absurd heq (hno c hc)
    · intro e t ht; cases ht
    · intro t ht; cases ht
  | none =>
    rw [uncompress_bit_not_found cfg hflag b d hfind]
    have hno := (huffcode_find_none _ _).1 hfind
    by_cases h255 : d.uncompress_bit_count + 1 ≥ 255
    · rw [if_pos h255]
      refine ⟨⟨fun _ => ⟨by omega, hno⟩, fun _ => ⟨_, rfl⟩⟩, ?_, ?_⟩
      · intro e t ht; cases ht; rfl
      · intro t ht; cases ht
    · rw [if_neg h255]
      refine ⟨⟨?_, ?_⟩, ?_, ?_⟩
      · rintro ⟨t, ht⟩; cases ht
      · rintro ⟨hl, _⟩; omega
      · intro e t ht; cases ht
      · intro t ht; cases ht

/-- C17 after one bit under the table of eight-bit words: the count is 1. -/
theorem C17_uncompress_overflow_witness :
    (feed (uncompress_bit (compress_config byte_table 80 100)) [true]
        (ExtractState.start no_key).dec).state.uncompress_bit_count ≤ 254 :=
  (C17_uncompress_overflow (compress_config byte_table 80 100) rfl [true]
    (ExtractState.start no_key).dec
    (feed (uncompress_bit (compress_config byte_table 80 100)) [true]
        (ExtractState.start no_key).dec).state rfl rfl).1

/-! ## The Huffman stage on its own (C18) -/

theorem encrypt_bit_comp (cfg : Config) (b : Bool) (st : EmbedState) (c : CompressState) :
    encrypt_bit cfg b { st with comp := c }
      = (encrypt_bit cfg b st).map fun s => { s with comp := c } := by
  unfold encrypt_bit
  cases hk : st.crypt.ice_key with
  | none =>
    simp only [hk]
    cases encode_bit cfg.line_length cfg.fuel b st.enc <;> rfl
  | some E =>
    simp only [hk]
    cases encode_bit cfg.line_length cfg.fuel (encrypt_step E st.crypt.encrypt_iv_block b).1
      st.enc <;> rfl

theorem encrypt_bit_comp_eq (cfg : Config) (b : Bool) (s s1 : EmbedState)
    (hc : s.crypt = s1.crypt) (he : s.enc = s1.enc) :
    (encrypt_bit cfg b s).map (fun t => (t.crypt, t.enc))
      = (encrypt_bit cfg b s1).map (fun t => (t.crypt, t.enc)) := by
  have : s = { s1 with comp := s.comp } := by
    cases s; cases s1; simp only [] at hc he; subst hc; subst he; rfl
  rw [this, encrypt_bit_comp]
  cases encrypt_bit cfg b s1 <;> rfl

theorem Outcome.map_andThen_congr {σ τ : Type} (p : σ → τ) (o o1 : Outcome σ)
    (f f1 : σ → Outcome σ) (ho : o.map p = o1.map p)
    (hf : ∀ t t1, p t = p t1 → (f t).map p = (f1 t1).map p) :
    (o.andThen f).map p = (o1.andThen f1).map p := by
  cases o <;> cases o1 <;> simp only [Outcome.map, Outcome.andThen] at ho ⊢ <;>
    first
    | exact hf _ _ (Outcome.ok.inj ho)
    | exact ho
    | cases ho

theorem Outcome.andThen_assoc {σ : Type} (o : Outcome σ) (f g : σ → Outcome σ) :
    (o.andThen f).andThen g = o.andThen fun s => (f s).andThen g := by
  cases o <;> rfl

theorem feed_encrypt_bit_congr (cfg : Config) :
    ∀ (bits : List Bool) (s s1 : EmbedState), s.crypt = s1.crypt → s.enc = s1.enc →
      (feed (encrypt_bit cfg) bits s).map (fun t => (t.crypt, t.enc))
        = (feed (encrypt_bit cfg) bits s1).map (fun t => (t.crypt, t.enc)) := by
  intro bits
  induction bits with
  | nil => intro s s1 hc he; simp only [feed, Outcome.map, hc, he]
  | cons b bs ih =>
    intro s s1 hc he
    rw [feed, feed]
    apply Outcome.map_andThen_congr _ _ _ _ _ (encrypt_bit_comp_eq cfg b s s1 hc he)
    intro t t1 h
    simp only [Prod.mk.injEq] at h
    exact ih t t1 h.1 h.2

theorem compress_emit_eq_feed (cfg : Config) :
    ∀ (code : List Char) (s s1 : EmbedState), (∀ ch ∈ code, ch = '0' ∨ ch = '1') →
      s.crypt = s1.crypt → s.enc = s1.enc →
      (compress_emit cfg code s).map (fun t => (t.crypt, t.enc))
        = (feed (encrypt_bit cfg) (code_bits code) s1).map (fun t => (t.crypt, t.enc)) := by
  intro code
  induction code with
  | nil => intro s s1 _ hc he; simp only [compress_emit, code_bits, List.map_nil, feed,
      Outcome.map, hc, he]
  | cons ch cs ih =>
    intro s s1 h01 hc he
    have hch : ch = '1' ∨ ch = '0' := (h01 ch (List.mem_cons_self _ _)).symm
    rw [compress_emit, if_pos hch, code_bits, List.map_cons, feed]
    apply Outcome.map_andThen_congr _ _ _ _ _ (encrypt_bit_comp_eq cfg _ s s1 hc he)
    intro t t1 h
    simp only [Prod.mk.injEq] at h
    exact ih _ t1 (fun x hx => h01 x (List.mem_cons_of_mem _ hx)) h.1 h.2

theorem feed_compress_eq_feed (cfg : Config) (hflag : cfg.compress_flag = true)
    (h01 : binary_words cfg.huffcodes) :
    ∀ (msg : List Nat) (s s1 : EmbedState), (∀ c ∈ msg, c < 256) →
      s.comp.compress_bit_count = 0 → s.comp.compress_value = 0 →
      s.crypt = s1.crypt → s.enc = s1.enc →
      (feed (compress_bit cfg) (msg.flatMap byte_bits) s).map (fun t => (t.crypt, t.enc))
        = (feed (encrypt_bit cfg) (msg.flatMap fun c => code_bits (cfg.huffcodes c)) s1).map
            (fun t => (t.crypt, t.enc)) := by
  intro msg
  induction msg with
  | nil => intro s s1 _ _ _ hc he; simp only [List.flatMap_nil, feed, Outcome.map, hc, he]
  | cons c cs ih =>
    intro s s1 hmsg h0 hv hc he
    have hc256 := hmsg c (List.mem_cons_self _ _)
    rw [List.flatMap_cons, List.flatMap_cons, feed_append, feed_append,
      feed_compress_byte cfg hflag c hc256 s h0 hv, Outcome.andThen_assoc]
    apply Outcome.map_andThen_congr _ _ _ _ _
      (compress_emit_eq_feed cfg (cfg.huffcodes c)
        { s with comp := { s.comp with compress_bits_in := s.comp.compress_bits_in + 8,
                                       compress_value := c,
                                       compress_bit_count := 8 } } s1 (h01 c hc256) hc he)
    intro t t1 h
    simp only [Prod.mk.injEq] at h
    rw [Outcome.andThen_ok]
    exact ih _ t1 (fun x hx => hmsg x (List.mem_cons_of_mem _ hx)) rfl rfl h.1 h.2

theorem output_bit_frame (b : Bool) (d : DecodeState) (v : List Char) (k : Nat) :
    output_bit b { d with uncompress_value := v, uncompress_bit_count := k }
      = (output_bit b d).map fun t => { t with uncompress_value := v, uncompress_bit_count := k } := by
  unfold output_bit
  simp only []
  split <;> rfl

theorem feed_output_bit_frame (v : List Char) (k : Nat) :
    ∀ (bits : List Bool) (d : DecodeState),
      feed output_bit bits { d with uncompress_value := v, uncompress_bit_count := k }
        = (feed output_bit bits d).map fun t =>
            { t with uncompress_value := v, uncompress_bit_count := k } := by
  intro bits
  induction bits with
  | nil => intro d; rfl
  | cons b bs ih =>
    intro d
    rw [feed, feed, output_bit_frame]
    obtain ⟨t, ht⟩ := output_bit_ok b d
    rw [ht]
    simp only [Outcome.map_ok, Outcome.andThen_ok]
    exact ih t

theorem feed_output_bit_returns : ∀ (bits : List Bool) (d : DecodeState),
    ∃ t, feed output_bit bits d = .ok t := by
  intro bits
  induction bits with
  | nil => intro d; exact ⟨d, rfl⟩
  | cons b bs ih =>
    intro d
    obtain ⟨t, ht⟩ := output_bit_ok b d
    rw [feed, ht, Outcome.andThen_ok]
    exact ih t

theorem uncompress_bit_hit_feed (cfg : Config) (hflag : cfg.compress_flag = true) (b : Bool)
    (d : DecodeState) (c : Nat)
    (hfind : huffcode_find cfg.huffcodes
      (d.uncompress_value.take d.uncompress_bit_count ++ [if b then '1' else '0']) = some c) :
    uncompress_bit cfg b d =
      (feed output_bit (byte_bits c) d).map fun t =>
        { t with uncompress_value :=
                   d.uncompress_value.take d.uncompress_bit_count ++ [if b then '1' else '0'],
                 uncompress_bit_count := 0 } := by
  unfold uncompress_bit
  simp only [hflag, Bool.not_true, Bool.false_eq_true, if_false, hfind]
  rw [output_code_eq_feed, ← List.range_eq_range']
  have hfr := feed_output_bit_frame
    (d.uncompress_value.take d.uncompress_bit_count ++ [if b then '1' else '0'])
    (d.uncompress_bit_count + 1) (byte_bits c) d
  rw [byte_bits] at hfr ⊢
  rw [hfr]
  obtain ⟨t, ht⟩ := feed_output_bit_returns
    ((List.range 8).map fun i => decide ((c &&& (128 >>> i)) ≠ 0)) d
  rw [ht]
  simp only [Outcome.map_ok, Outcome.andThen_ok]
  rw [if_neg (by show ¬ (0 ≥ 255); decide)]

theorem uncompress_word_feed (cfg : Config) (hflag : cfg.compress_flag = true)
    (h01 : binary_words cfg.huffcodes) (hpf : no_word_begins_another cfg.huffcodes)
    (hlen : ∀ i, i < 256 → (cfg.huffcodes i).length ≤ 255)
    (c : Nat) (hc : c < 256) (r : List Char) :
    ∀ (q : List Char) (d : DecodeState), q ++ r = cfg.huffcodes c → r ≠ [] →
      d.uncompress_bit_count = q.length →
      d.uncompress_value.take d.uncompress_bit_count = q →
      feed (uncompress_bit cfg) (code_bits r) d =
        (feed output_bit (byte_bits c) d).map fun t =>
          { t with uncompress_value := cfg.huffcodes c, uncompress_bit_count := 0 } := by
  induction r with
  | nil => intro q d _ hne; exact absurd rfl hne
  | cons ch rest ih =>
    intro q d hw _ hcount hcur
    have hch : ch = '0' ∨ ch = '1' :=
      h01 c hc ch (by rw [← hw]; simp)
    rw [code_bits, List.map_cons, feed]
    by_cases hrest : rest = []
    · subst hrest
      have hfind : huffcode_find cfg.huffcodes
          (d.uncompress_value.take d.uncompress_bit_count ++
            [if decide (ch = '1') then '1' else '0']) = some c := by
        rw [hcur, code_char_round ch hch, hw]
        apply huffcode_find_hit _ c hc
        intro i hi heq
        by_contra hne
        exact hpf i c hi hc hne (by rw [heq])
      rw [uncompress_bit_hit_feed cfg hflag _ d c hfind, hcur, code_char_round ch hch, hw]
      obtain ⟨t, ht⟩ := feed_output_bit_returns (byte_bits c) d
      rw [ht]
      rfl
    · have hlt : q.length + 1 < (cfg.huffcodes c).length := by
        rw [← hw, List.length_append, List.length_cons]
        have := List.length_pos.2 hrest
        omega
      have hfind : huffcode_find cfg.huffcodes
          (d.uncompress_value.take d.uncompress_bit_count ++
            [if decide (ch = '1') then '1' else '0']) = none := by
        rw [hcur, code_char_round ch hch]
        apply huffcode_find_miss
        intro i hi heq
        have hpre : cfg.huffcodes i <+: cfg.huffcodes c :=
          ⟨rest, by rw [heq, ← hw]; simp⟩
        by_cases hic : i = c
        · subst hic
          have := congrArg List.length heq
          rw [List.length_append, List.length_singleton] at this
          omega
        · exact hpf i c hi hc hic hpre
      have hlen1 : d.uncompress_bit_count + 1 < 255 := by
        have := hlen c hc
        omega
      rw [uncompress_bit_miss cfg hflag _ d hfind hlen1, Outcome.andThen_ok, hcur,
        code_char_round ch hch]
      have := ih (q ++ [ch])
        { d with uncompress_value := q ++ [ch],
                 uncompress_bit_count := d.uncompress_bit_count + 1 }
        (by rw [← hw]; simp) hrest (by simp [hcount])
        (by simp [hcount])
      rw [code_bits] at this
      rw [this, feed_output_bit_frame]
      obtain ⟨t, ht⟩ := feed_output_bit_returns (byte_bits c) d
      rw [ht]
      rfl

theorem uncompress_message_feed (cfg : Config) (hflag : cfg.compress_flag = true)
    (h01 : binary_words cfg.huffcodes) (hne : ∀ i, i < 256 → cfg.huffcodes i ≠ [])
    (hpf : no_word_begins_another cfg.huffcodes)
    (hlen : ∀ i, i < 256 → (cfg.huffcodes i).length ≤ 255) :
    ∀ (msg : List Nat) (d : DecodeState), (∀ c ∈ msg, c < 256) → d.uncompress_bit_count = 0 →
      ∃ t v, feed output_bit (msg.flatMap byte_bits) d = .ok t ∧
        feed (uncompress_bit cfg) (msg.flatMap fun c => code_bits (cfg.huffcodes c)) d
          = .ok { t with uncompress_value := v, uncompress_bit_count := 0 } := by
  intro msg
  induction msg with
  | nil =>
    intro d _ h0
    refine ⟨d, d.uncompress_value, rfl, ?_⟩
    simp only [List.flatMap_nil, feed, Outcome.ok.injEq]
    cases d
    simp only [] at h0
    subst h0
    rfl
  | cons c cs ih =>
    intro d hmsg h0
    have hc := hmsg c (List.mem_cons_self _ _)
    have hword := uncompress_word_feed cfg hflag h01 hpf hlen c hc (cfg.huffcodes c) [] d
      rfl (hne c hc) (by rw [h0]; rfl) (by rw [h0]; rfl)
    obtain ⟨t1, ht1⟩ := feed_output_bit_returns (byte_bits c) d
    obtain ⟨t, v, ht, hu⟩ := ih
      { t1 with uncompress_value := cfg.huffcodes c, uncompress_bit_count := 0 }
      (fun x hx => hmsg x (List.mem_cons_of_mem _ hx)) rfl
    rw [feed_output_bit_frame] at ht
    obtain ⟨t2, ht2⟩ := feed_output_bit_returns (cs.flatMap byte_bits) t1
    rw [ht2, Outcome.map_ok, Outcome.ok.injEq] at ht
    refine ⟨t2, v, ?_, ?_⟩
    · rw [List.flatMap_cons, feed_append, ht1, Outcome.andThen_ok, ht2]
    · rw [List.flatMap_cons, feed_append, hword, ht1, Outcome.map_ok, Outcome.andThen_ok, hu,
        ← ht]

/-- C18: with compression on, under a table of non-empty code words of `0`
and `1` of at most 255 characters, none of which begins another, and for a
message `M` of bytes: `compress_bit` fed the bits of `M` passes to
`encrypt_bit` exactly the code words of the bytes of `M` in order (same
return value, same cipher and encoder state); `uncompress_bit` fed those
code words returns TRUE, passes to `output_bit` exactly the bits of `M` and
leaves `uncompress_bit_count` at 0; and fewer than 8 further bits fed to
`compress_bit` leave the cipher and encoder untouched, so that
`compress_flush` sends on nothing of them. -/
theorem C18_huffman_stage_round_trip (cfg : Config) (hflag : cfg.compress_flag = true)
    (h01 : binary_words cfg.huffcodes) (hne : ∀ i, i < 256 → cfg.huffcodes i ≠ [])
    (hpf : no_word_begins_another cfg.huffcodes)
    (hlen : ∀ i, i < 256 → (cfg.huffcodes i).length ≤ 255)
    (M : List Nat) (hM : ∀ c ∈ M, c < 256) :
    (∀ st : EmbedState, st.comp.compress_bit_count = 0 → st.comp.compress_value = 0 →
      (feed (compress_bit cfg) (M.flatMap byte_bits) st).map (fun t => (t.crypt, t.enc))
        = (feed (encrypt_bit cfg) (M.flatMap fun c => code_bits (cfg.huffcodes c)) st).map
            (fun t => (t.crypt, t.enc))) ∧
    (∀ d : DecodeState, d.uncompress_bit_count = 0 →
      ∃ t v, feed output_bit (M.flatMap byte_bits) d = .ok t ∧
        feed (uncompress_bit cfg) (M.flatMap fun c => code_bits (cfg.huffcodes c)) d
          = .ok { t with uncompress_value := v, uncompress_bit_count := 0 }) ∧
    (∀ (st : EmbedState) (p : List Bool), st.comp.compress_bit_count = 0 → p.length < 8 →
      ∃ t, feed (compress_bit cfg) p st = .ok t ∧ t.crypt = st.crypt ∧ t.enc = st.enc ∧
        (compress_flush cfg t).map (fun s => (s.crypt, s.enc))
          = (encrypt_flush cfg st).map (fun s => (s.crypt, s.enc))) := by
  refine ⟨fun st h0 hv => feed_compress_eq_feed cfg hflag h01 M st st hM h0 hv rfl rfl,
    fun d h0 => uncompress_message_feed cfg hflag h01 hne hpf hlen M d hM h0, ?_⟩
  intro st p h0 hp
  refine ⟨_, feed_compress_bit_partial cfg hflag p st (by rw [h0]; omega), rfl, rfl, ?_⟩
  unfold compress_flush encrypt_flush
  simp only []
  cases encode_flush cfg.line_length cfg.fuel st.enc <;> rfl

/-- C18 for the two bytes 72 and 105 under the table of eight-bit words:
the decompressor returns TRUE and hands on the bits of the two bytes. -/
theorem C18_huffman_stage_round_trip_witness :
    ∃ t v, feed output_bit ([72, 105].flatMap byte_bits) (ExtractState.start no_key).dec = .ok t ∧
      feed (uncompress_bit (compress_config byte_table 80 100))
          ([72, 105].flatMap fun c => code_bits (byte_table c)) (ExtractState.start no_key).dec
        = .ok { t with uncompress_value := v, uncompress_bit_count := 0 } :=
  (C18_huffman_stage_round_trip (compress_config byte_table 80 100) rfl byte_table_binary
    byte_table_nonempty byte_table_separate byte_table_short [72, 105] (by decide)).2.1
    (ExtractState.start no_key).dec rfl

/-! ## The feedback register as a 64-bit number (C19, C20) -/

theorem iv_shift_at_0 (a b c d e f g h : Nat) :
    iv_shift_at [a, b, c, d, e, f, g, h] 0 = [carry_in a b, b, c, d, e, f, g, h] := by
  simp only [iv_shift_at, carry_in, List.set, List.getD_cons_zero, List.getD_cons_succ]
  by_cases hy : b &&& 128 ≠ 0 <;> simp [hy]

theorem iv_shift_at_1 (a b c d e f g h : Nat) :
    iv_shift_at [a, b, c, d, e, f, g, h] 1 = [a, carry_in b c, c, d, e, f, g, h] := by
  simp only [iv_shift_at, carry_in, List.set, List.getD_cons_zero, List.getD_cons_succ]
  by_cases hy : c &&& 128 ≠ 0 <;> simp [hy]

theorem iv_shift_at_2 (a b c d e f g h : Nat) :
    iv_shift_at [a, b, c, d, e, f, g, h] 2 = [a, b, carry_in c d, d, e, f, g, h] := by
  simp only [iv_shift_at, carry_in, List.set, List.getD_cons_zero, List.getD_cons_succ]
  by_cases hy : d &&& 128 ≠ 0 <;> simp [hy]

theorem iv_shift_at_3 (a b c d e f g h : Nat) :
    iv_shift_at [a, b, c, d, e, f, g, h] 3 = [a, b, c, carry_in d e, e, f, g, h] := by
  simp only [iv_shift_at, carry_in, List.set, List.getD_cons_zero, List.getD_cons_succ]
  by_cases hy : e &&& 128 ≠ 0 <;> simp [hy]

theorem iv_shift_at_4 (a b c d e f g h : Nat) :
    iv_shift_at [a, b, c, d, e, f, g, h] 4 = [a, b, c, d, carry_in e f, f, g, h] := by
  simp only [iv_shift_at, carry_in, List.set, List.getD_cons_zero, List.getD_cons_succ]
  by_cases hy : f &&& 128 ≠ 0 <;> simp [hy]

theorem iv_shift_at_5 (a b c d e f g h : Nat) :
    iv_shift_at [a, b, c, d, e, f, g, h] 5 = [a, b, c, d, e, carry_in f g, g, h] := by
  simp only [iv_shift_at, carry_in, List.set, List.getD_cons_zero, List.getD_cons_succ]
  by_cases hy : g &&& 128 ≠ 0 <;> simp [hy]

theorem iv_shift_at_6 (a b c d e f g h : Nat) :
    iv_shift_at [a, b, c, d, e, f, g, h] 6 = [a, b, c, d, e, f, carry_in g h, h] := by
  simp only [iv_shift_at, carry_in, List.set, List.getD_cons_zero, List.getD_cons_succ]
  by_cases hy : h &&& 128 ≠ 0 <;> simp [hy]

theorem iv_shift_at_7 (a b c d e f g h : Nat) :
    iv_shift_at [a, b, c, d, e, f, g, h] 7 = [a, b, c, d, e, f, g, (h <<< 1) % 256] := by
  simp [iv_shift_at, List.set]

theorem iv_rotate_bytes (a b c d e f g h : Nat) (bit : Bool) :
    iv_rotate [a, b, c, d, e, f, g, h] bit =
      [carry_in a b, carry_in b c, carry_in c d, carry_in d e, carry_in e f, carry_in f g,
       carry_in g h, (h <<< 1) % 256 ||| bit.toNat] := by
  have hr : List.range 8 = [0, 1, 2, 3, 4, 5, 6, 7] := by decide
  simp only [iv_rotate, hr, List.foldl]
  rw [iv_shift_at_0, iv_shift_at_1, iv_shift_at_2, iv_shift_at_3, iv_shift_at_4, iv_shift_at_5,
    iv_shift_at_6, iv_shift_at_7]
  rfl

set_option maxRecDepth 100000 in
theorem top_bit_test : ∀ y, y < 256 → ((y &&& 128 ≠ 0) ↔ 128 ≤ y) := by
  decide

set_option maxRecDepth 100000 in
theorem shift_byte : ∀ x, x < 256 → (x <<< 1) % 256 = (2 * x) % 256 := by
  decide

set_option maxRecDepth 100000 in
theorem shift_byte_or_one : ∀ x, x < 256 → (x <<< 1) % 256 ||| 1 = (2 * x) % 256 + 1 := by
  decide

theorem carry_in_eq (x y : Nat) (hx : x < 256) (hy : y < 256) :
    carry_in x y = (2 * x) % 256 + y / 128 := by
  unfold carry_in
  by_cases h : y &&& 128 ≠ 0
  · rw [if_pos h, shift_byte_or_one x hx]
    have := (top_bit_test y hy).1 h
    omega
  · rw [if_neg h, shift_byte x hx]
    have := mt (top_bit_test y hy).2 h
    omega

theorem last_byte_eq (x : Nat) (hx : x < 256) (bit : Bool) :
    (x <<< 1) % 256 ||| bit.toNat = (2 * x) % 256 + bit.toNat := by
  cases bit
  · rw [Bool.toNat_false, Nat.or_zero, shift_byte x hx, Nat.add_zero]
  · exact shift_byte_or_one x hx

theorem register_value_bytes (a b c d e f g h : Nat) :
    register_value [a, b, c, d, e, f, g, h]
      = ((((((a * 256 + b) * 256 + c) * 256 + d) * 256 + e) * 256 + f) * 256 + g) * 256 + h := by
  simp [register_value]

theorem eight_bytes (iv : List Nat) (hlen : iv.length = 8) :
    ∃ a b c d e f g h, iv = [a, b, c, d, e, f, g, h] := by
  match iv, hlen with
  | [a, b, c, d, e, f, g, h], _ => exact ⟨a, b, c, d, e, f, g, h, rfl⟩

theorem iv_rotate_value (iv : List Nat) (hlen : iv.length = 8) (hb : ∀ x ∈ iv, x < 256)
    (bit : Bool) :
    register_value (iv_rotate iv bit) = (2 * register_value iv + bit.toNat) % 2 ^ 64 := by
  obtain ⟨a, b, c, d, e, f, g, h, rfl⟩ := eight_bytes iv hlen
  have ha : a < 256 := hb a (by simp)
  have hb1 : b < 256 := hb b (by simp)
  have hc : c < 256 := hb c (by simp)
  have hd : d < 256 := hb d (by simp)
  have he : e < 256 := hb e (by simp)
  have hf : f < 256 := hb f (by simp)
  have hg : g < 256 := hb g (by simp)
  have hh : h < 256 := hb h (by simp)
  rw [iv_rotate_bytes, register_value_bytes, register_value_bytes,
    carry_in_eq a b ha hb1, carry_in_eq b c hb1 hc, carry_in_eq c d hc hd,
    carry_in_eq d e hd he, carry_in_eq e f he hf, carry_in_eq f g hf hg,
    carry_in_eq g h hg hh, last_byte_eq h hh]
  have hbit : bit.toNat ≤ 1 := Bool.toNat_le bit
  generalize bit.toNat = t at hbit ⊢
  norm_num
  omega

theorem iv_rotate_bytes_ok (iv : List Nat) (hlen : iv.length = 8) (hb : ∀ x ∈ iv, x < 256)
    (bit : Bool) :
    (iv_rotate iv bit).length = 8 ∧ ∀ x ∈ iv_rotate iv bit, x < 256 := by
  obtain ⟨a, b, c, d, e, f, g, h, rfl⟩ := eight_bytes iv hlen
  have ha : a < 256 := hb a (by simp)
  have hb1 : b < 256 := hb b (by simp)
  have hc : c < 256 := hb c (by simp)
  have hd : d < 256 := hb d (by simp)
  have he : e < 256 := hb e (by simp)
  have hf : f < 256 := hb f (by simp)
  have hg : g < 256 := hb g (by simp)
  have hh : h < 256 := hb h (by simp)
  rw [iv_rotate_bytes, carry_in_eq a b ha hb1, carry_in_eq b c hb1 hc, carry_in_eq c d hc hd,
    carry_in_eq d e hd he, carry_in_eq e f he hf, carry_in_eq f g hf hg,
    carry_in_eq g h hg hh, last_byte_eq h hh]
  have hbit : bit.toNat ≤ 1 := Bool.toNat_le bit
  refine ⟨rfl, ?_⟩
  intro x hx
  simp only [List.mem_cons, List.mem_singleton, List.not_mem_nil, or_false] at hx
  rcases hx with h | h | h | h | h | h | h | h <;> subst h <;> omega

theorem keystream_bit_eq (E : List Nat → List Nat) (iv : List Nat) :
    keystream_bit E iv = ((E iv).getD 0 0).testBit 7 := by
  unfold keystream_bit
  have h := Nat.and_two_pow ((E iv).getD 0 0) 7
  have h128 : (2 : Nat) ^ 7 = 128 := by norm_num
  rw [h128] at h
  rw [h]
  cases ((E iv).getD 0 0).testBit 7 <;> simp

theorem flip_eq_xor (k p : Bool) : (if k then !p else p) = xor p k := by
  cases k <;> cases p <;> rfl

/-- C19: with a key set and a register `R` of eight bytes, `encrypt_bit` on
the plaintext bit `p` passes on `c = p XOR` the top bit of byte 0 of
`E(R)`, and `decrypt_bit` on the received bit `c` passes on `c XOR` that
bit; in both the new register, read as a big-endian number, is
`(2 * R + c) mod 2 ^ 64`, and it is again eight bytes. -/
theorem C19_cfb_register_update (cfg : Config) (E : List Nat → List Nat) (R : List Nat)
    (hlen : R.length = 8) (hbytes : ∀ x ∈ R, x < 256) :
    (∀ c : Bool, register_value (iv_rotate R c) = (2 * register_value R + c.toNat) % 2 ^ 64 ∧
      (iv_rotate R c).length = 8 ∧ ∀ x ∈ iv_rotate R c, x < 256) ∧
    (∀ (p : Bool) (st : EmbedState), st.crypt.ice_key = some E →
      st.crypt.encrypt_iv_block = R →
      encrypt_bit cfg p st =
        (encode_bit cfg.line_length cfg.fuel (xor p (((E R).getD 0 0).testBit 7)) st.enc).map
          fun e => { st with
            crypt := { st.crypt with
              encrypt_iv_block := iv_rotate R (xor p (((E R).getD 0 0).testBit 7)) },
            enc := e }) ∧
    (∀ (c : Bool) (st : ExtractState), st.crypt.ice_key = some E →
      st.crypt.encrypt_iv_block = R →
      decrypt_bit cfg c st =
        (uncompress_bit cfg (xor c (((E R).getD 0 0).testBit 7)) st.dec).map
          fun d => { crypt := { st.crypt with encrypt_iv_block := iv_rotate R c }, dec := d }) := by
  refine ⟨fun c => ⟨iv_rotate_value R hlen hbytes c, iv_rotate_bytes_ok R hlen hbytes c⟩, ?_, ?_⟩
  · intro p st hk hr
    unfold encrypt_bit
    simp only [hk, hr, encrypt_step, flip_eq_xor, keystream_bit_eq]
  · intro c st hk hr
    unfold decrypt_bit
    simp only [hk, hr, decrypt_step, flip_eq_xor, keystream_bit_eq]

/-- C19 at the register 1, 2, ..., 8 and the bit 1: the new register has
the value `2 * R + 1`. -/
theorem C19_cfb_register_update_witness :
    register_value (iv_rotate [1, 2, 3, 4, 5, 6, 7, 8] true)
      = (2 * register_value [1, 2, 3, 4, 5, 6, 7, 8] + true.toNat) % 2 ^ 64 :=
  ((C19_cfb_register_update (plain_config 80 100) sample_block [1, 2, 3, 4, 5, 6, 7, 8] rfl
    (by decide)).1 true).1

theorem decrypt_stream_register (E : List Nat → List Nat) :
    ∀ (X : List Bool) (R : List Nat), (decrypt_stream E R X).2 = X.foldl iv_rotate R := by
  intro X
  induction X with
  | nil => intro R; rfl
  | cons x xs ih =>
    intro R
    rw [decrypt_stream, List.foldl_cons]
    exact ih _

theorem foldl_iv_rotate_bytes_ok :
    ∀ (X : List Bool) (R : List Nat), R.length = 8 → (∀ x ∈ R, x < 256) →
      (X.foldl iv_rotate R).length = 8 ∧ ∀ x ∈ X.foldl iv_rotate R, x < 256 := by
  intro X
  induction X with
  | nil => intro R h1 h2; exact ⟨h1, h2⟩
  | cons x xs ih =>
    intro R h1 h2
    rw [List.foldl_cons]
    exact ih _ (iv_rotate_bytes_ok R h1 h2 x).1 (iv_rotate_bytes_ok R h1 h2 x).2

theorem foldl_iv_rotate_value :
    ∀ (X : List Bool) (R1 R2 : List Nat), R1.length = 8 → (∀ x ∈ R1, x < 256) →
      R2.length = 8 → (∀ x ∈ R2, x < 256) →
      ((register_value (X.foldl iv_rotate R1) : ZMod (2 ^ 64))
          - (register_value (X.foldl iv_rotate R2) : ZMod (2 ^ 64)))
        = 2 ^ X.length * ((register_value R1 : ZMod (2 ^ 64)) - (register_value R2 : ZMod (2 ^ 64))) := by
  intro X
  induction X with
  | nil => intro R1 R2 _ _ _ _; simp
  | cons x xs ih =>
    intro R1 R2 h1 k1 h2 k2
    rw [List.foldl_cons, List.foldl_cons,
      ih _ _ (iv_rotate_bytes_ok R1 h1 k1 x).1 (iv_rotate_bytes_ok R1 h1 k1 x).2
        (iv_rotate_bytes_ok R2 h2 k2 x).1 (iv_rotate_bytes_ok R2 h2 k2 x).2,
      iv_rotate_value R1 h1 k1, iv_rotate_value R2 h2 k2, ZMod.natCast_mod, ZMod.natCast_mod,
      List.length_cons]
    push_cast
    ring

theorem register_value_lt (R : List Nat) (hlen : R.length = 8) (hb : ∀ x ∈ R, x < 256) :
    register_value R < 2 ^ 64 := by
  obtain ⟨a, b, c, d, e, f, g, h, rfl⟩ := eight_bytes R hlen
  have ha : a < 256 := hb a (by simp)
  have hb1 : b < 256 := hb b (by simp)
  have hc : c < 256 := hb c (by simp)
  have hd : d < 256 := hb d (by simp)
  have he : e < 256 := hb e (by simp)
  have hf : f < 256 := hb f (by simp)
  have hg : g < 256 := hb g (by simp)
  have hh : h < 256 := hb h (by simp)
  rw [register_value_bytes]
  norm_num
  omega

theorem register_value_injective (R1 R2 : List Nat) (h1 : R1.length = 8)
    (k1 : ∀ x ∈ R1, x < 256) (h2 : R2.length = 8) (k2 : ∀ x ∈ R2, x < 256)
    (hv : register_value R1 = register_value R2) : R1 = R2 := by
  obtain ⟨a, b, c, d, e, f, g, h, rfl⟩ := eight_bytes R1 h1
  obtain ⟨a2, b2, c2, d2, e2, f2, g2, j2, rfl⟩ := eight_bytes R2 h2
  have ha : a < 256 := k1 a (by simp)
  have hb1 : b < 256 := k1 b (by simp)
  have hc : c < 256 := k1 c (by simp)
  have hd : d < 256 := k1 d (by simp)
  have he : e < 256 := k1 e (by simp)
  have hf : f < 256 := k1 f (by simp)
  have hg : g < 256 := k1 g (by simp)
  have hh : h < 256 := k1 h (by simp)
  have ha2 : a2 < 256 := k2 a2 (by simp)
  have hb2 : b2 < 256 := k2 b2 (by simp)
  have hc2 : c2 < 256 := k2 c2 (by simp)
  have hd2 : d2 < 256 := k2 d2 (by simp)
  have he2 : e2 < 256 := k2 e2 (by simp)
  have hf2 : f2 < 256 := k2 f2 (by simp)
  have hg2 : g2 < 256 := k2 g2 (by simp)
  have hh2 : j2 < 256 := k2 j2 (by simp)
  rw [register_value_bytes, register_value_bytes] at hv
  have q1 : a = a2 := by omega
  have q2 : b = b2 := by omega
  have q3 : c = c2 := by omega
  have q4 : d = d2 := by omega
  have q5 : e = e2 := by omega
  have q6 : f = f2 := by omega
  have q7 : g = g2 := by omega
  have q8 : h = j2 := by omega
  subst q1 q2 q3 q4 q5 q6 q7 q8
  rfl

theorem foldl_iv_rotate_sync (X : List Bool) (hX : 64 ≤ X.length) (R1 R2 : List Nat)
    (h1 : R1.length = 8) (k1 : ∀ x ∈ R1, x < 256) (h2 : R2.length = 8)
    (k2 : ∀ x ∈ R2, x < 256) :
    X.foldl iv_rotate R1 = X.foldl iv_rotate R2 := by
  obtain ⟨l1, b1⟩ := foldl_iv_rotate_bytes_ok X R1 h1 k1
  obtain ⟨l2, b2⟩ := foldl_iv_rotate_bytes_ok X R2 h2 k2
  apply register_value_injective _ _ l1 b1 l2 b2
  have hz : ((2 : ZMod (2 ^ 64)) ^ X.length) = 0 := by
    have h64 : ((2 : ZMod (2 ^ 64)) ^ 64) = 0 := by
      have := ZMod.natCast_self (2 ^ 64)
      push_cast at this
      exact this
    rw [← Nat.sub_add_cancel hX, pow_add, h64, mul_zero]
  have hd := foldl_iv_rotate_value X R1 R2 h1 k1 h2 k2
  rw [hz, zero_mul, sub_eq_zero] at hd
  have hm := (ZMod.natCast_eq_natCast_iff' _ _ _).1 hd
  rwa [Nat.mod_eq_of_lt (register_value_lt _ l1 b1),
    Nat.mod_eq_of_lt (register_value_lt _ l2 b2)] at hm

/-- C20: for every block function, any two initial registers of eight
bytes and every received bit stream `X` of at least 64 bits, the two
decryptors hold the same register after the first 64 bits of `X` and at the
end of `X`, and the bits they pass on from bit 64 onward are the same. -/
theorem C20_cfb_self_synchronisation (E : List Nat → List Nat) (R1 R2 : List Nat)
    (X : List Bool) (h1 : R1.length = 8) (k1 : ∀ x ∈ R1, x < 256) (h2 : R2.length = 8)
    (k2 : ∀ x ∈ R2, x < 256) (hX : 64 ≤ X.length) :
    (decrypt_stream E R1 (X.take 64)).2 = (decrypt_stream E R2 (X.take 64)).2 ∧
    (decrypt_stream E R1 X).1.drop 64 = (decrypt_stream E R2 X).1.drop 64 ∧
    (decrypt_stream E R1 X).2 = (decrypt_stream E R2 X).2 := by
  have ht : (X.take 64).length = 64 := by rw [List.length_take]; omega
  have hreg : (decrypt_stream E R1 (X.take 64)).2 = (decrypt_stream E R2 (X.take 64)).2 := by
    rw [decrypt_stream_register, decrypt_stream_register]
    exact foldl_iv_rotate_sync _ (by omega) R1 R2 h1 k1 h2 k2
  refine ⟨hreg, ?_, ?_⟩
  · have key : ∀ A B : List Bool, A.length = 64 →
        (decrypt_stream E R1 A).2 = (decrypt_stream E R2 A).2 →
        (decrypt_stream E R1 (A ++ B)).1.drop 64 = (decrypt_stream E R2 (A ++ B)).1.drop 64 := by
      intro A B hA hr
      rw [decrypt_stream_append, decrypt_stream_append]
      simp only []
      rw [List.drop_append_of_le_length (by rw [decrypt_stream_length, hA]),
        List.drop_append_of_le_length (by rw [decrypt_stream_length, hA]),
        List.drop_of_length_le (by rw [decrypt_stream_length, hA]),
        List.drop_of_length_le (by rw [decrypt_stream_length, hA]), hr]
    have := key (X.take 64) (X.drop 64) ht hreg
    rwa [List.take_append_drop] at this
  · rw [decrypt_stream_register, decrypt_stream_register]
    exact foldl_iv_rotate_sync _ hX R1 R2 h1 k1 h2 k2

/-- C20 for the registers 1, 2, ..., 8 and all zero under the sample block
function, on a stream of 66 one bits: the registers agree at the end. -/
theorem C20_cfb_self_synchronisation_witness :
    (decrypt_stream sample_block [1, 2, 3, 4, 5, 6, 7, 8] (List.replicate 66 true)).2
      = (decrypt_stream sample_block [0, 0, 0, 0, 0, 0, 0, 0] (List.replicate 66 true)).2 :=
  (C20_cfb_self_synchronisation sample_block [1, 2, 3, 4, 5, 6, 7, 8] [0, 0, 0, 0, 0, 0, 0, 0]
    (List.replicate 66 true) rfl (by decide) rfl (by decide) (by decide)).2.2

/-! ## The encoder's space counts without compression and key (C14) -/

theorem Outcome.map_andThen {σ : Type} (g : σ → σ) (o : Outcome σ) (f f1 : σ → Outcome σ)
    (hf : ∀ t, f (g t) = (f1 t).map g) :
    (o.map g).andThen f = (o.andThen f1).map g := by
  cases o
  · exact hf _
  · rfl
  · rfl

theorem embed_invariant (P : EncodeState → Prop) (cfg : Config) (crypt : CryptState)
    (msg : List Nat) (cover : List (List Char)) (h0 : P (EncodeState.start cover))
    (hbit : ∀ b s, P s → P (encode_bit cfg.line_length cfg.fuel b s).state)
    (hflush : ∀ s, P s → P (encode_flush cfg.line_length cfg.fuel s).state) :
    P (embed cfg crypt msg cover).state.enc := by
  have hE : ∀ (b : Bool) (st : EmbedState), P st.enc → P (encrypt_bit cfg b st).state.enc := by
    intro b st h
    unfold encrypt_bit
    split <;> simp only [Outcome.state_map] <;> exact hbit _ _ h
  have hEmit : ∀ (code : List Char) (st : EmbedState), P st.enc →
      P (compress_emit cfg code st).state.enc := by
    intro code
    induction code with
    | nil => intro st h; exact h
    | cons c cs ih =>
      intro st h
      unfold compress_emit
      split
      · exact Outcome.state_andThen (fun t : EmbedState => P t.enc) _ _ (hE _ st h)
          (fun s hs => ih _ hs)
      · exact h
  have hC : ∀ (b : Bool) (st : EmbedState), P st.enc → P (compress_bit cfg b st).state.enc := by
    intro b st h
    unfold compress_bit
    split
    · exact hE b st h
    · simp only []
      split
      · exact Outcome.state_andThen (fun t : EmbedState => P t.enc) _ _ (hEmit _ _ h)
          (fun s hs => hs)
      · exact h
  have hCh : ∀ (c n i : Nat) (st : EmbedState), P st.enc →
      P (character_encode_from cfg c n i st).state.enc := by
    intro c n
    induction n with
    | zero => intro i st h; exact h
    | succ n ih =>
      intro i st h
      unfold character_encode_from
      exact Outcome.state_andThen (fun t : EmbedState => P t.enc) _ _ (hC _ st h)
        (fun s hs => ih _ s hs)
  have hM : ∀ (m : List Nat) (st : EmbedState), P st.enc →
      P (message_loop cfg m st).state.enc := by
    intro m
    induction m with
    | nil => intro st h; exact h
    | cons c cs ih =>
      intro st h
      unfold message_loop
      exact Outcome.state_andThen (fun t : EmbedState => P t.enc) _ _ (hCh c 8 0 st h)
        (fun s hs => ih s hs)
  unfold embed message_fp_encode
  rw [compress_init_start]
  refine Outcome.state_andThen (fun t : EmbedState => P t.enc) _ _ (hM msg _ h0) ?_
  intro s hs
  unfold compress_flush encrypt_flush
  simpa using hflush s.enc hs

theorem trailing_run_append_blank (l w : List Char) (hw : all_blank w) :
    trailing_run (l ++ w) = trailing_run l ++ w := by
  unfold trailing_run
  induction w using List.reverseRecOn with
  | nil => simp
  | append_singleton w c ih =>
    rw [← List.append_assoc, List.rtakeWhile_concat_pos _ _ _ (hw c (by simp)),
      ih (fun x hx => hw x (by simp [hx])), List.append_assoc]

theorem trailing_run_ws_strip (l : List Char) : trailing_run (ws_strip l) = [] := by
  unfold trailing_run ws_strip
  rw [List.rtakeWhile_eq_nil_iff]
  intro hl hb
  have hn := List.rdropWhile_last_not is_strip_char l hl
  apply hn
  generalize (List.rdropWhile is_strip_char l).getLast hl = c at hb ⊢
  simp only [is_blank, Bool.or_eq_true, beq_iff_eq] at hb
  simp only [is_strip_char, Bool.or_eq_true, beq_iff_eq]
  rcases hb with h | h
  · exact Or.inl (Or.inl (Or.inl h))
  · exact Or.inl (Or.inl (Or.inr h))

theorem groups_form_nil : groups_form [] :=
  ⟨fun t ht => by simp [ws_scan] at ht, Nat.zero_le _⟩

theorem ws_scan_ws_chunk (needs_tab : Bool) (nsp r : Nat) :
    ws_scan (ws_chunk needs_tab nsp) r
      = (if needs_tab then (if nsp = 0 then [r, 0] else [r])
         else (if nsp = 0 then [r] else []),
         if nsp = 0 then 0 else if needs_tab then nsp else r + nsp) := by
  unfold ws_chunk
  cases needs_tab <;> by_cases h0 : nsp = 0 <;>
    simp [h0, ws_scan, ws_scan_spaces]

theorem formed_extend (L M : List (List Char))
    (hL : ∀ l ∈ L, groups_form (trailing_run l)) (hM : ∀ m ∈ M, trailing_run m = []) :
    ∀ l ∈ L ++ M, groups_form (trailing_run l) := by
  intro l hl
  rcases List.mem_append.1 hl with h | h
  · exact hL l h
  · rw [hM l h]; exact groups_form_nil

theorem before_extend (L M : List (List Char))
    (hL : ∀ l ∈ L, trailing_run l = []) (hM : ∀ m ∈ M, trailing_run m = []) :
    ∀ l ∈ L ++ M, trailing_run l = [] := by
  intro l hl
  rcases List.mem_append.1 hl with h | h
  · exact hL l h
  · exact hM l h

theorem after_extend (L M : List (List Char))
    (h : ∃ (k : Nat) (l : List Char), L[k]? = some l ∧ (trailing_run l).head? = some '\t' ∧
      ∀ (j : Nat) (l1 : List Char), j < k → L[j]? = some l1 → trailing_run l1 = []) :
    ∃ (k : Nat) (l : List Char), (L ++ M)[k]? = some l ∧ (trailing_run l).head? = some '\t' ∧
      ∀ (j : Nat) (l1 : List Char), j < k → (L ++ M)[j]? = some l1 → trailing_run l1 = [] := by
  obtain ⟨k, l, hk, hh, hj⟩ := h
  have hkl : k < L.length := by
    by_contra hc
    rw [List.getElem?_eq_none (by omega)] at hk
    cases hk
  refine ⟨k, l, by rw [List.getElem?_append_left hkl]; exact hk, hh, ?_⟩
  intro j l1 hjk hj1
  rw [List.getElem?_append_left (by omega)] at hj1
  exact hj j l1 hjk hj1

theorem after_grow (L : List (List Char)) (buf chunk : List Char) (hc : all_blank chunk)
    (h : ∃ (k : Nat) (l : List Char), (L ++ [buf])[k]? = some l ∧
      (trailing_run l).head? = some '\t' ∧
      ∀ (j : Nat) (l1 : List Char), j < k → (L ++ [buf])[j]? = some l1 → trailing_run l1 = []) :
    ∃ (k : Nat) (l : List Char), (L ++ [buf ++ chunk])[k]? = some l ∧
      (trailing_run l).head? = some '\t' ∧
      ∀ (j : Nat) (l1 : List Char), j < k → (L ++ [buf ++ chunk])[j]? = some l1 →
        trailing_run l1 = [] := by
  obtain ⟨k, l, hk, hh, hj⟩ := h
  have hkl : k < L.length + 1 := by
    by_contra hcn
    rw [List.getElem?_eq_none (by simp only [List.length_append, List.length_singleton]; omega)]
      at hk
    cases hk
  have hprev : ∀ (j : Nat) (l1 : List Char), j < k → (L ++ [buf ++ chunk])[j]? = some l1 →
      trailing_run l1 = [] := by
    intro j l1 hjk hj1
    rw [List.getElem?_append_left (by omega)] at hj1
    exact hj j l1 hjk (by rw [List.getElem?_append_left (by omega)]; exact hj1)
  rcases Nat.lt_or_ge k L.length with hlt | hge
  · rw [List.getElem?_append_left hlt] at hk
    exact ⟨k, l, by rw [List.getElem?_append_left hlt]; exact hk, hh, hprev⟩
  · have hke : k = L.length := by omega
    subst hke
    rw [List.getElem?_append_right (Nat.le_refl _), Nat.sub_self] at hk
    simp only [List.getElem?_cons_zero, Option.some.injEq] at hk
    subst hk
    refine ⟨L.length, buf ++ chunk, ?_, ?_, hprev⟩
    · rw [List.getElem?_append_right (Nat.le_refl _), Nat.sub_self]
      rfl
    · rw [trailing_run_append_blank _ _ hc]
      cases hr : trailing_run buf with
      | nil => rw [hr] at hh; cases hh
      | cons x xs => rw [hr] at hh; exact hh

theorem encode_buffer_load_run (s : EncodeState) :
    (encode_buffer_load s).outf = s.outf ∧
    (encode_buffer_load s).encode_first_tab = s.encode_first_tab ∧
    (encode_buffer_load s).encode_buffer_loaded = true ∧
    (encode_buffer_load s).encode_needs_tab = false ∧
    trailing_run (encode_buffer_load s).encode_buffer = [] := by
  unfold encode_buffer_load
  cases h : wsgets s.inf with
  | none => exact ⟨rfl, rfl, rfl, rfl, rfl⟩
  | some r =>
    refine ⟨rfl, rfl, rfl, rfl, ?_⟩
    unfold wsgets at h
    cases hinf : s.inf with
    | nil => rw [hinf] at h; cases h
    | cons l rest =>
      rw [hinf] at h
      simp only [Option.some.injEq] at h
      rw [← h]
      exact trailing_run_ws_strip l

theorem sentinel_start (cover : List (List Char)) : Sentinel (EncodeState.start cover) where
  formed := by intro l hl; simp [produced_lines, EncodeState.start] at hl
  current := by intro h; simp [EncodeState.start] at h
  before := by intro _ l hl; simp [produced_lines, EncodeState.start] at hl
  after := by intro h; simp [EncodeState.start] at h

theorem sentinel_congr {s t : EncodeState} (h : Sentinel s) (h1 : t.outf = s.outf)
    (h2 : t.encode_buffer = s.encode_buffer)
    (h3 : t.encode_buffer_loaded = s.encode_buffer_loaded)
    (h4 : t.encode_needs_tab = s.encode_needs_tab)
    (h5 : t.encode_first_tab = s.encode_first_tab) : Sentinel t := by
  have hp : produced_lines t = produced_lines s := by
    unfold produced_lines; rw [h1, h2, h3]
  exact { formed := by rw [hp]; exact h.formed
          current := by rw [h2, h3, h4]; exact h.current
          before := by rw [hp, h5]; exact h.before
          after := by rw [hp, h5]; exact h.after }

theorem sentinel_new_line {s t : EncodeState} (h : Sentinel s)
    (hlines : produced_lines t = produced_lines s ++ [t.encode_buffer])
    (hrun : trailing_run t.encode_buffer = [])
    (hft : t.encode_first_tab = s.encode_first_tab) : Sentinel t := by
  have hM : ∀ m ∈ [t.encode_buffer], trailing_run m = [] := by
    intro m hm
    rw [List.mem_singleton.1 hm]
    exact hrun
  exact { formed := by rw [hlines]; exact formed_extend _ _ h.formed hM
          current := by intro _ _; rw [hrun]; rfl
          before := by
            intro hf
            rw [hlines]
            exact before_extend _ _ (h.before (by rw [← hft]; exact hf)) hM
          after := by
            intro hf
            rw [hlines]
            exact after_extend _ _ (h.after (by rw [← hft]; exact hf)) }

theorem sentinel_load_idle {s : EncodeState} (h : Sentinel s)
    (hl : s.encode_buffer_loaded = false) : Sentinel (encode_buffer_load s) := by
  obtain ⟨h1, h2, h3, _, h5⟩ := encode_buffer_load_run s
  refine sentinel_new_line h ?_ h5 h2
  unfold produced_lines
  rw [h1, h3, hl]
  simp

theorem sentinel_next_line {s : EncodeState} (h : Sentinel s)
    (hl : s.encode_buffer_loaded = true) : Sentinel (encode_buffer_load (wsputs_buffer s)) := by
  obtain ⟨h1, h2, h3, _, h5⟩ := encode_buffer_load_run (wsputs_buffer s)
  refine sentinel_new_line h ?_ h5 h2
  unfold produced_lines
  rw [h1, h3, hl]
  simp [wsputs_buffer]

theorem sentinel_first_tab {s : EncodeState} (h : Sentinel s)
    (hl : s.encode_buffer_loaded = true) (hf : s.encode_first_tab = false) :
    Sentinel { append_tab s with encode_first_tab := true } := by
  have hb := h.before hf
  have hbuf : trailing_run s.encode_buffer = [] :=
    hb _ (by unfold produced_lines; rw [hl]; simp)
  have hrun : trailing_run (s.encode_buffer ++ ['\t']) = ['\t'] := by
    rw [trailing_run_append_blank _ _ (by intro c hc; rw [List.mem_singleton.1 hc]; rfl), hbuf]
    rfl
  have hp : produced_lines { append_tab s with encode_first_tab := true }
      = s.outf ++ [s.encode_buffer ++ ['\t']] := by
    unfold produced_lines append_tab
    simp [hl]
  refine { formed := ?_, current := ?_, before := fun hc => (by cases hc),
           after := fun _ => ?_ }
  · rw [hp]
    intro l hl1
    rcases List.mem_append.1 hl1 with h1 | h1
    · exact h.formed l (by unfold produced_lines; exact List.mem_append_left _ h1)
    · rw [List.mem_singleton.1 h1, hrun]
      exact ⟨by decide, by decide⟩
  · intro _ _
    show (ws_scan (trailing_run (s.encode_buffer ++ ['\t'])) 0).2 = 0
    rw [hrun]
    rfl
  · rw [hp]
    refine ⟨s.outf.length, s.encode_buffer ++ ['\t'], ?_, by rw [hrun]; rfl, ?_⟩
    · rw [List.getElem?_append_right (Nat.le_refl _), Nat.sub_self]
      rfl
    · intro j l1 hj hj1
      rw [List.getElem?_append_left hj] at hj1
      exact hb l1 (by
        unfold produced_lines
        exact List.mem_append_left _ (List.getElem?_mem hj1))

theorem sentinel_append_whitespace (T nsp : Nat) {s : EncodeState} (h : Sentinel s)
    (hl : s.encode_buffer_loaded = true) (hf : s.encode_first_tab = true) (hn : nsp ≤ 7) :
    Sentinel (encode_append_whitespace T nsp s).2 ∧
    (encode_append_whitespace T nsp s).2.encode_buffer_loaded = true ∧
    (encode_append_whitespace T nsp s).2.encode_first_tab = true := by
  rw [encode_append_whitespace_eq]
  split
  · exact ⟨h, hl, hf⟩
  · refine ⟨?_, hl, hf⟩
    have hps : produced_lines s = s.outf ++ [s.encode_buffer] := by
      unfold produced_lines; rw [hl]; rfl
    have hblank : all_blank (ws_chunk s.encode_needs_tab nsp) := all_blank_ws_chunk _ _
    have hold := h.formed s.encode_buffer (by rw [hps]; simp)
    have hrun := trailing_run_append_blank s.encode_buffer _ hblank
    have hscan := ws_scan_append (trailing_run s.encode_buffer)
      (ws_chunk s.encode_needs_tab nsp) 0
    rw [ws_scan_ws_chunk] at hscan
    refine { formed := ?_, current := ?_, before := ?_, after := ?_ }
    · show ∀ l ∈ s.outf ++ (if s.encode_buffer_loaded = true then
          [s.encode_buffer ++ ws_chunk s.encode_needs_tab nsp] else []),
        groups_form (trailing_run l)
      rw [hl]
      intro l hl1
      rcases List.mem_append.1 hl1 with h1 | h1
      · exact h.formed l (by rw [hps]; exact List.mem_append_left _ h1)
      · simp only [if_true, List.mem_singleton] at h1
        rw [h1, hrun]
        unfold groups_form
        rw [hscan]
        simp only []
        have hr7 := hold.2
        constructor
        · intro t ht
          rcases List.mem_append.1 ht with h2 | h2
          · exact hold.1 t h2
          · cases hnt : s.encode_needs_tab <;> by_cases h0 : nsp = 0 <;>
              simp [hnt, h0] at h2 <;> omega
        · cases hnt : s.encode_needs_tab
          · have hz := h.current hl hnt
            by_cases h0 : nsp = 0
            · simp [h0]
            · simp [h0]; omega
          · by_cases h0 : nsp = 0
            · simp [h0]
            · simp [h0]; omega
    · intro _ hnt
      show (ws_scan (trailing_run (s.encode_buffer ++ ws_chunk s.encode_needs_tab nsp)) 0).2 = 0
      have h0 : nsp = 0 := by
        have : decide (nsp ≠ 0) = false := hnt
        simpa using this
      rw [hrun, hscan]
      simp [h0]
    · intro hc
      have : s.encode_first_tab = false := hc
      rw [hf] at this
      cases this
    · intro _
      show ∃ (k : Nat) (l : List Char),
        (s.outf ++ (if s.encode_buffer_loaded = true then
          [s.encode_buffer ++ ws_chunk s.encode_needs_tab nsp] else []))[k]? = some l ∧
        (trailing_run l).head? = some '\t' ∧
        ∀ (j : Nat) (l1 : List Char), j < k →
          (s.outf ++ (if s.encode_buffer_loaded = true then
            [s.encode_buffer ++ ws_chunk s.encode_needs_tab nsp] else []))[j]? = some l1 →
          trailing_run l1 = []
      rw [hl]
      have ha := h.after hf
      rw [hps] at ha
      exact after_grow _ _ _ hblank ha

theorem sentinel_load_until_tab_fits (T fuel : Nat) :
    ∀ s, Sentinel s → s.encode_buffer_loaded = true → s.encode_first_tab = false →
      Sentinel (load_until_tab_fits T fuel s).state ∧
      (load_until_tab_fits T fuel s).state.encode_buffer_loaded = true ∧
      (load_until_tab_fits T fuel s).state.encode_first_tab = false := by
  induction fuel with
  | zero =>
    intro s h hl hf
    unfold load_until_tab_fits
    split <;> exact ⟨h, hl, hf⟩
  | succ n ih =>
    intro s h hl hf
    unfold load_until_tab_fits
    split
    · exact ih _ (sentinel_next_line h hl) (encode_buffer_load_run _).2.2.1
        (by rw [(encode_buffer_load_run _).2.1]; exact hf)
    · exact ⟨h, hl, hf⟩

theorem sentinel_append_until_fits (T nspc fuel : Nat) (hn : nspc ≤ 7) :
    ∀ s, Sentinel s → s.encode_buffer_loaded = true → s.encode_first_tab = true →
      Sentinel (append_until_fits T nspc fuel s).state := by
  induction fuel with
  | zero =>
    intro s h hl hf
    have := sentinel_append_whitespace T nspc h hl hf hn
    unfold append_until_fits
    rcases hr : encode_append_whitespace T nspc s with ⟨b, s1⟩
    rw [hr] at this
    cases b <;> exact this.1
  | succ n ih =>
    intro s h hl hf
    have := sentinel_append_whitespace T nspc h hl hf hn
    unfold append_until_fits
    rcases hr : encode_append_whitespace T nspc s with ⟨b, s1⟩
    rw [hr] at this
    cases b
    · exact ih _ (sentinel_next_line this.1 this.2.1) (encode_buffer_load_run _).2.2.1
        (by rw [(encode_buffer_load_run _).2.1]; exact this.2.2)
    · exact this.1

theorem sentinel_encode_write_value (T fuel val : Nat) (s : EncodeState) (h : Sentinel s) :
    Sentinel (encode_write_value T fuel val s).state := by
  unfold encode_write_value
  simp only []
  have h1 : Sentinel (if s.encode_buffer_loaded then s else encode_buffer_load s) ∧
      (if s.encode_buffer_loaded then s else encode_buffer_load s).encode_buffer_loaded = true := by
    cases hl : s.encode_buffer_loaded
    · exact ⟨sentinel_load_idle h hl, (encode_buffer_load_run s).2.2.1⟩
    · exact ⟨h, hl⟩
  generalize (if s.encode_buffer_loaded then s else encode_buffer_load s) = s1 at h1
  have h2 : Sentinel (if s1.encode_first_tab = true then Outcome.ok s1
      else (load_until_tab_fits T fuel s1).andThen fun s2 =>
        .ok { append_tab s2 with encode_first_tab := true }).state ∧
      ∀ t, (if s1.encode_first_tab = true then Outcome.ok s1
        else (load_until_tab_fits T fuel s1).andThen fun s2 =>
          .ok { append_tab s2 with encode_first_tab := true }) = .ok t →
        t.encode_buffer_loaded = true ∧ t.encode_first_tab = true := by
    cases hf : s1.encode_first_tab
    · simp only [Bool.false_eq_true, if_false]
      have hL := sentinel_load_until_tab_fits T fuel s1 h1.1 h1.2 hf
      rcases ho : load_until_tab_fits T fuel s1 with t | ⟨e, t⟩ | t
      · rw [ho] at hL
        refine ⟨sentinel_first_tab hL.1 hL.2.1 hL.2.2, ?_⟩
        intro u hu
        simp only [Outcome.andThen_ok, Outcome.ok.injEq] at hu
        rw [← hu]
        exact ⟨hL.2.1, rfl⟩
      · rw [ho] at hL; exact ⟨hL.1, fun u hu => by cases hu⟩
      · rw [ho] at hL; exact ⟨hL.1, fun u hu => by cases hu⟩
    · simp only [if_true]
      refine ⟨h1.1, ?_⟩
      intro u hu
      simp only [Outcome.ok.injEq] at hu
      rw [← hu]
      exact ⟨h1.2, hf⟩
  generalize (if s1.encode_first_tab = true then Outcome.ok s1
      else (load_until_tab_fits T fuel s1).andThen fun s2 =>
        .ok { append_tab s2 with encode_first_tab := true }) = o2 at h2
  cases o2 with
  | ok s3 =>
    obtain ⟨hl3, hf3⟩ := h2.2 s3 rfl
    rw [Outcome.andThen_ok]
    refine Outcome.state_andThen Sentinel _ _
      (sentinel_append_until_fits T _ fuel (reverse_bits_le val) s3 h2.1 hl3 hf3) ?_
    intro s4 h4
    split
    · exact sentinel_congr h4 rfl rfl rfl rfl rfl
    · exact h4
  | failed e s3 => exact h2.1
  | looping s3 => exact h2.1

theorem sentinel_encode_bit (T fuel : Nat) (bit : Bool) (s : EncodeState) (h : Sentinel s) :
    Sentinel (encode_bit T fuel bit s).state := by
  unfold encode_bit
  simp only []
  split
  · refine Outcome.state_andThen Sentinel _ _
      (sentinel_encode_write_value T fuel _ _ (sentinel_congr h rfl rfl rfl rfl rfl)) ?_
    intro s2 h2
    exact sentinel_congr h2 rfl rfl rfl rfl rfl
  · exact sentinel_congr h rfl rfl rfl rfl rfl

theorem sentinel_encode_pad (k : Nat) : ∀ s, Sentinel s → Sentinel (encode_pad k s) := by
  induction k with
  | zero => intro s h; exact h
  | succ k ih =>
    intro s h
    unfold encode_pad
    split
    · exact ih _ (sentinel_congr h rfl rfl rfl rfl rfl)
    · exact h

theorem sentinel_encode_write_flush (T : Nat) (s : EncodeState) (h : Sentinel s) :
    Sentinel (encode_write_flush T s) := by
  have hp : produced_lines (encode_write_flush T s)
      = produced_lines s ++ s.inf.map ws_strip := by
    unfold encode_write_flush produced_lines
    cases hl : s.encode_buffer_loaded <;> simp [copy_rest_eq, wsputs_buffer, hl]
  have hM : ∀ m ∈ s.inf.map ws_strip, trailing_run m = [] := by
    intro m hm
    obtain ⟨l, _, rfl⟩ := List.mem_map.1 hm
    exact trailing_run_ws_strip l
  have hft : (encode_write_flush T s).encode_first_tab = s.encode_first_tab := by
    unfold encode_write_flush
    cases hl : s.encode_buffer_loaded <;> rfl
  have hld : (encode_write_flush T s).encode_buffer_loaded = false := by
    unfold encode_write_flush
    cases hl : s.encode_buffer_loaded
    · simp only [Bool.false_eq_true, if_false]
      exact hl
    · rfl
  exact { formed := by rw [hp]; exact formed_extend _ _ h.formed hM
          current := by intro hc; rw [hld] at hc; cases hc
          before := by
            intro hf
            rw [hp]
            exact before_extend _ _ (h.before (by rw [← hft]; exact hf)) hM
          after := by
            intro hf
            rw [hp]
            exact after_extend _ _ (h.after (by rw [← hft]; exact hf)) }

theorem sentinel_encode_flush (T fuel : Nat) (s : EncodeState) (h : Sentinel s) :
    Sentinel (encode_flush T fuel s).state := by
  unfold encode_flush
  simp only []
  refine Outcome.state_andThen Sentinel _ _ ?_ (fun s2 h2 => sentinel_encode_write_flush T s2 h2)
  split
  · exact sentinel_encode_write_value T fuel _ _ (sentinel_encode_pad 3 s h)
  · exact h

theorem sentinel_embed (cfg : Config) (crypt : CryptState) (msg : List Nat)
    (cover : List (List Char)) : Sentinel (embed cfg crypt msg cover).state.enc :=
  embed_invariant Sentinel cfg crypt msg cover (sentinel_start cover)
    (fun b s h => sentinel_encode_bit cfg.line_length cfg.fuel b s h)
    (fun s h => sentinel_encode_flush cfg.line_length cfg.fuel s h)

theorem sentinel_form_of_head (w : List Char) (hg : groups_form w)
    (hh : w.head? = some '\t') : sentinel_form w := by
  cases w with
  | nil => cases hh
  | cons c rest =>
    simp only [List.head?_cons, Option.some.injEq] at hh
    subst hh
    refine ⟨rest, rfl, ?_⟩
    unfold groups_form at hg ⊢
    rw [ws_scan, if_neg (by decide), if_pos rfl] at hg
    exact ⟨fun t ht => hg.1 t (List.mem_cons_of_mem _ ht), hg.2⟩

theorem trailing_run_written (T : Nat) (base l : List Char) (hb : trailing_run base = [])
    (h : line_ok T base l) : l = base ++ trailing_run l := by
  obtain ⟨w, hw, hl, _⟩ := h
  rw [hl, trailing_run_append_blank base w hw, hb, List.nil_append]

/-- C15 fails as stated: at line length 16 the byte 254 on the cover lines
`a` and `b` is written as the groups 7, 7, 1; the embedding returns TRUE and
the second line is `b` followed by the 7 spaces of the second group, a
trailing run that does not begin with a tab. -/
theorem C15_counterexample :
    (embed (plain_config 16 10) no_key [254] [['a'], ['b']]).isOk = true ∧
    embed_lines (plain_config 16 10) no_key [254] [['a'], ['b']]
      = [['a', '\t', ' ', ' ', ' ', ' ', ' ', ' ', ' '],
         ['b', ' ', ' ', ' ', ' ', ' ', ' ', ' '], [' ']] ∧
    trailing_run ['b', ' ', ' ', ' ', ' ', ' ', ' ', ' '] = [' ', ' ', ' ', ' ', ' ', ' ', ' '] ∧
    ¬ sentinel_form (trailing_run ['b', ' ', ' ', ' ', ' ', ' ', ' ', ' ']) := by
  refine ⟨by decide, by decide, by decide, ?_⟩
  rintro ⟨rest, h, _⟩
  have h1 : trailing_run ['b', ' ', ' ', ' ', ' ', ' ', ' ', ' ']
      = [' ', ' ', ' ', ' ', ' ', ' ', ' '] := by decide
  rw [h1] at h
  have := (List.cons.inj h).1
  revert this
  decide

/-! ## The password packed seven bits per character (C13) -/

theorem stream_bit_set (buf : List Nat) (j v k : Nat) :
    stream_bit (buf.set j v) k
      = if k / 8 = j ∧ j < buf.length then v.testBit (7 - k % 8) else stream_bit buf k := by
  unfold stream_bit
  rw [List.getD_eq_getElem?_getD, List.getD_eq_getElem?_getD, List.getElem?_set]
  by_cases h1 : j = k / 8
  · subst h1
    by_cases h2 : k / 8 < buf.length
    · simp [h2]
    · simp [h2, List.getElem?_eq_none (Nat.le_of_not_lt h2)]
  · have h3 : ¬ (k / 8 = j ∧ j < buf.length) := fun h => h1 h.1.symm
    rw [if_neg h1, if_neg h3]

theorem byte_shift_left_bit (c s q : Nat) (hq : q < 8) :
    ((c <<< s) % 256).testBit q = (decide (s ≤ q) && c.testBit (q - s)) := by
  have : (256 : Nat) = 2 ^ 8 := by norm_num
  rw [this, Nat.testBit_mod_two_pow, Nat.testBit_shiftLeft]
  simp [hq]

theorem byte_or_shift_right_bit (old c s q : Nat) (hq : q < 8) :
    ((old ||| (c >>> s)) % 256).testBit q = (old.testBit q || c.testBit (s + q)) := by
  have : (256 : Nat) = 2 ^ 8 := by norm_num
  rw [this, Nat.testBit_mod_two_pow, Nat.testBit_or, Nat.testBit_shiftRight]
  simp [hq]

theorem seven_bits_high (c n : Nat) (hc : c < 128) (hn : 7 ≤ n) : c.testBit n = false := by
  apply Nat.testBit_lt_two_pow
  calc c < 2 ^ 7 := by norm_num; exact hc
    _ ≤ 2 ^ n := Nat.pow_le_pow_right (by norm_num) hn

theorem pack_char_bits (buf : List Nat) (i p : Nat) (hlen : buf.length = 1024)
    (hi : i ≤ 8183) (hz : ∀ k, i ≤ k → stream_bit buf k = false) :
    ∃ buf1, pack_char buf i p = some buf1 ∧ buf1.length = 1024 ∧
      ∀ k, stream_bit buf1 k =
        if k < i then stream_bit buf k
        else (decide (k < i + 7) && (p &&& 0x7f).testBit (6 - (k - i))) := by
  have hc : p &&& 0x7f < 128 := Nat.lt_succ_of_le Nat.and_le_right
  have hb : i &&& 7 = i % 8 := Nat.and_pow_two_sub_one_eq_mod i 3
  unfold pack_char
  simp only []
  rw [hb]
  generalize p &&& 0x7f = c at hc ⊢
  have hidx : i / 8 < buf.length := by omega
  have hidx1 : i / 8 + 1 < buf.length := by omega
  have hold : ∀ q, q + i % 8 ≤ 7 → (buf.getD (i / 8) 0).testBit q = false := by
    intro q hq
    have := hz (8 * (i / 8) + (7 - q)) (by omega)
    unfold stream_bit at this
    have e1 : (8 * (i / 8) + (7 - q)) / 8 = i / 8 := by omega
    have e2 : 7 - (8 * (i / 8) + (7 - q)) % 8 = q := by omega
    rw [e1, e2] at this
    exact this
  by_cases h0 : i % 8 = 0
  · rw [if_pos h0]
    unfold buf_store
    rw [if_pos hidx]
    refine ⟨_, rfl, by rw [List.length_set]; exact hlen, ?_⟩
    intro k
    rw [stream_bit_set]
    by_cases hk : k / 8 = i / 8
    · rw [if_pos ⟨hk, hidx⟩, byte_shift_left_bit _ _ _ (by omega)]
      have hki : ¬ k < i := by omega
      rw [if_neg hki]
      by_cases h7 : k < i + 7
      · have e : 7 - k % 8 - 1 = 6 - (k - i) := by omega
        have d : 1 ≤ 7 - k % 8 := by omega
        simp [h7, d, e]
      · have d : ¬ 1 ≤ 7 - k % 8 := by omega
        simp [h7, d]
    · rw [if_neg (fun h => hk h.1)]
      by_cases hki : k < i
      · rw [if_pos hki]
      · rw [if_neg hki, hz k (by omega)]
        have h7 : ¬ k < i + 7 := by omega
        simp [h7]
  · rw [if_neg h0]
    have hmid : ∀ k, k / 8 = i / 8 →
        ((buf.getD (i / 8) 0 ||| (c >>> (i % 8 - 1))) % 256).testBit (7 - k % 8)
          = if k < i then stream_bit buf k
            else (decide (k < i + 7) && c.testBit (6 - (k - i))) := by
      intro k hk
      rw [byte_or_shift_right_bit _ _ _ _ (by omega)]
      by_cases hki : k < i
      · rw [if_pos hki, seven_bits_high c _ hc (by omega), Bool.or_false]
        unfold stream_bit
        rw [hk]
      · rw [if_neg hki, hold _ (by omega), Bool.false_or]
        have h7 : k < i + 7 := by omega
        have e : i % 8 - 1 + (7 - k % 8) = 6 - (k - i) := by omega
        simp [h7, e]
    by_cases h1 : i % 8 = 1
    · rw [if_pos h1]
      unfold buf_store
      rw [if_pos hidx]
      refine ⟨_, rfl, by rw [List.length_set]; exact hlen, ?_⟩
      intro k
      rw [stream_bit_set]
      by_cases hk : k / 8 = i / 8
      · rw [if_pos ⟨hk, hidx⟩]
        have := hmid k hk
        rw [h1] at this
        simpa using this
      · rw [if_neg (fun h => hk h.1)]
        by_cases hki : k < i
        · rw [if_pos hki]
        · rw [if_neg hki, hz k (by omega)]
          have h7 : ¬ k < i + 7 := by omega
          simp [h7]
    · rw [if_neg h1]
      unfold buf_store
      rw [if_pos hidx]
      simp only [Option.bind_eq_bind, Option.some_bind, List.length_set]
      rw [if_pos hidx1]
      refine ⟨_, rfl, by rw [List.length_set, List.length_set]; exact hlen, ?_⟩
      intro k
      rw [stream_bit_set, stream_bit_set]
      by_cases hk1 : k / 8 = i / 8 + 1
      · rw [if_pos ⟨hk1, by rw [List.length_set]; exact hidx1⟩,
          byte_shift_left_bit _ _ _ (by omega)]
        have hki : ¬ k < i := by omega
        rw [if_neg hki]
        by_cases h7 : k < i + 7
        · have e : 7 - k % 8 - (9 - i % 8) = 6 - (k - i) := by omega
          have d : 9 - i % 8 ≤ 7 - k % 8 := by omega
          simp [h7, d, e]
        · have d : ¬ 9 - i % 8 ≤ 7 - k % 8 := by omega
          simp [h7, d]
      · rw [if_neg (fun h => hk1 h.1)]
        by_cases hk : k / 8 = i / 8
        · rw [if_pos ⟨hk, hidx⟩]
          exact hmid k hk
        · rw [if_neg (fun h => hk h.1)]
          by_cases hki : k < i
          · rw [if_pos hki]
          · rw [if_neg hki, hz k (by omega)]
            have h7 : ¬ k < i + 7 := by omega
            simp [h7]

theorem pack_loop_bits :
    ∀ (P : List Nat) (m : Nat) (buf : List Nat), m ≤ 1169 → buf.length = 1024 →
      (∀ k, 7 * m ≤ k → stream_bit buf k = false) →
      ∃ buf1, pack_loop P (7 * m) buf = some (buf1, P.drop (min P.length (1170 - m))) ∧
        buf1.length = 1024 ∧
        ∀ k, stream_bit buf1 k =
          if k < 7 * m then stream_bit buf k
          else (decide (k - 7 * m < 7 * min P.length (1170 - m)) &&
            (P.getD ((k - 7 * m) / 7) 0 &&& 0x7f).testBit (6 - (k - 7 * m) % 7)) := by
  intro P
  induction P with
  | nil =>
    intro m buf _ hlen hz
    refine ⟨buf, by simp [pack_loop], hlen, ?_⟩
    intro k
    by_cases hk : k < 7 * m
    · rw [if_pos hk]
    · rw [if_neg hk, hz k (by omega)]
      simp
  | cons p rest ih =>
    intro m buf hm hlen hz
    obtain ⟨buf1, h1, hlen1, hbits1⟩ := pack_char_bits buf (7 * m) p hlen (by omega) hz
    rw [pack_loop, h1, Option.some_bind]
    by_cases hlast : 7 * m + 7 > 8184
    · rw [if_pos hlast]
      have hm1 : m = 1169 := by omega
      have hmin : min (p :: rest).length (1170 - m) = 1 := by
        rw [List.length_cons, hm1]
        omega
      refine ⟨buf1, by rw [hmin]; rfl, hlen1, ?_⟩
      intro k
      rw [hbits1 k, hmin]
      by_cases hk : k < 7 * m
      · rw [if_pos hk, if_pos hk]
      · rw [if_neg hk, if_neg hk]
        by_cases h7 : k < 7 * m + 7
        · have e1 : (k - 7 * m) / 7 = 0 := by omega
          have e2 : (k - 7 * m) % 7 = k - 7 * m := by omega
          have d : k - 7 * m < 7 * 1 := by omega
          simp [h7, e1, e2, d]
        · have d : ¬ k - 7 * m < 7 * 1 := by omega
          simp [h7, d]
    · rw [if_neg hlast]
      have hz1 : ∀ k, 7 * (m + 1) ≤ k → stream_bit buf1 k = false := by
        intro k hk
        rw [hbits1 k, if_neg (by omega)]
        have h7 : ¬ k < 7 * m + 7 := by omega
        simp [h7]
      obtain ⟨buf2, h2, hlen2, hbits2⟩ := ih (m + 1) buf1 (by omega) hlen1 hz1
      have hmin : min (p :: rest).length (1170 - m) = min rest.length (1170 - (m + 1)) + 1 := by
        rw [List.length_cons]
        omega
      refine ⟨buf2, ?_, hlen2, ?_⟩
      · rw [show 7 * m + 7 = 7 * (m + 1) by ring, h2, hmin, List.drop_succ_cons]
      · intro k
        rw [hbits2 k, hmin]
        by_cases hk : k < 7 * m
        · rw [if_pos hk, if_pos (by omega), hbits1 k, if_pos hk]
        · rw [if_neg hk]
          by_cases h7 : k < 7 * (m + 1)
          · rw [if_pos h7, hbits1 k, if_neg hk]
            have e1 : (k - 7 * m) / 7 = 0 := by omega
            have e2 : (k - 7 * m) % 7 = k - 7 * m := by omega
            have d : k - 7 * m < 7 * (min rest.length (1170 - (m + 1)) + 1) := by omega
            have h7a : k < 7 * m + 7 := by omega
            rw [e1, e2, List.getD_cons_zero, decide_eq_true d, decide_eq_true h7a]
          · rw [if_neg h7]
            have e1 : (k - 7 * m) / 7 = (k - 7 * (m + 1)) / 7 + 1 := by omega
            have e2 : (k - 7 * m) % 7 = (k - 7 * (m + 1)) % 7 := by omega
            have d : (k - 7 * m < 7 * (min rest.length (1170 - (m + 1)) + 1))
                ↔ (k - 7 * (m + 1) < 7 * min rest.length (1170 - (m + 1))) := by omega
            rw [e1, e2, List.getD_cons_succ]
            simp only [d]

theorem stream_bit_zero (n k : Nat) : stream_bit (List.replicate n 0) k = false := by
  unfold stream_bit
  rw [List.getD_eq_getElem?_getD]
  by_cases h : k / 8 < n
  · rw [List.getElem?_replicate, if_pos h]
    simp
  · rw [List.getElem?_eq_none (by rw [List.length_replicate]; omega)]
    simp

/-- C13: for every password the packing loop of `password_set` makes no
store outside the 1024-byte buffer and ends; it consumes the first
`min (|P|, 1170)` characters; and in the buffer read as a bit stream, most
significant bit of each byte first, bit `k` is bit `6 - k mod 7` of
`P[k / 7] & 0x7f` for `k < 7 * min (|P|, 1170)` and every other bit is 0. -/
theorem C13_password_packing (P : List Nat) :
    ∃ buf, password_pack P = some (buf, P.drop (min P.length 1170)) ∧
      buf.length = 1024 ∧
      (P.length - (P.drop (min P.length 1170)).length ≤ 1170) ∧
      ∀ k, stream_bit buf k =
        (decide (k < 7 * min P.length 1170) &&
          (P.getD (k / 7) 0 &&& 0x7f).testBit (6 - k % 7)) := by
  obtain ⟨buf, h1, hlen, hbits⟩ := pack_loop_bits P 0 (List.replicate 1024 0) (by omega)
    (List.length_replicate _ _) (fun k _ => stream_bit_zero 1024 k)
  refine ⟨buf, h1, hlen, ?_, ?_⟩
  · rw [List.length_drop]
    omega
  · intro k
    have := hbits k
    simpa using this

/-! ## The column and length of the encode buffer (C21, C22, C24) -/

theorem column_ok_iff (s : EncodeState) :
    column_ok s ↔ s.encode_buffer_length = s.encode_buffer.length ∧
      s.encode_buffer_column = display_width s.encode_buffer := by
  unfold column_ok expanded_column
  constructor
  · rintro ⟨h1, h2⟩
    rw [h1, List.take_length] at h2
    exact ⟨h1, h2⟩
  · rintro ⟨h1, h2⟩
    refine ⟨h1, ?_⟩
    rw [h1, List.take_length]
    exact h2

theorem tabpos_least (n : Nat) :
    8 ∣ tabpos n ∧ n < tabpos n ∧ ∀ m, 8 ∣ m → n < m → tabpos n ≤ m := by
  unfold tabpos
  refine ⟨Nat.dvd_mul_left 8 _, by omega, ?_⟩
  rintro m ⟨k, rfl⟩ h
  omega

theorem column_ok_load (s : EncodeState) :
    (encode_buffer_load s).encode_buffer_loaded = true ∧ column_ok (encode_buffer_load s) := by
  refine ⟨encode_buffer_load_loaded s, ?_⟩
  rw [column_ok_iff]
  unfold encode_buffer_load
  cases h : wsgets s.inf with
  | none => exact ⟨rfl, rfl⟩
  | some r => exact ⟨rfl, column_after_zero _⟩

theorem column_ok_first_tab (s : EncodeState) (h : column_ok s) :
    column_ok { append_tab s with encode_first_tab := true } := by
  rw [column_ok_iff] at h ⊢
  unfold append_tab
  simp only [List.length_append, List.length_singleton, display_width_append_tab]
  exact ⟨by rw [h.1], by rw [h.2]⟩

theorem column_ok_append_whitespace (T n : Nat) (s : EncodeState) (h : column_ok s) :
    column_ok (encode_append_whitespace T n s).2 := by
  rw [encode_append_whitespace_eq]
  split
  · exact h
  · rw [column_ok_iff] at h ⊢
    simp only [List.length_append, display_width_ws_chunk]
    exact ⟨by rw [h.1], by rw [h.2]⟩

theorem column_ok_congr {s t : EncodeState} (h : column_ok s)
    (h1 : t.encode_buffer = s.encode_buffer)
    (h2 : t.encode_buffer_length = s.encode_buffer_length)
    (h3 : t.encode_buffer_column = s.encode_buffer_column) : column_ok t := by
  unfold column_ok at h ⊢
  rw [h1, h2, h3]
  exact h

theorem column_ok_load_until_tab_fits (T fuel : Nat) :
    ∀ s, column_ok s → column_ok (load_until_tab_fits T fuel s).state := by
  induction fuel with
  | zero =>
    intro s h
    unfold load_until_tab_fits
    split <;> exact h
  | succ n ih =>
    intro s h
    unfold load_until_tab_fits
    split
    · exact ih _ (column_ok_load _).2
    · exact h

theorem column_ok_append_until_fits (T nspc fuel : Nat) :
    ∀ s, column_ok s → column_ok (append_until_fits T nspc fuel s).state := by
  induction fuel with
  | zero =>
    intro s h
    have := column_ok_append_whitespace T nspc s h
    unfold append_until_fits
    rcases hr : encode_append_whitespace T nspc s with ⟨b, s1⟩
    rw [hr] at this
    cases b <;> exact this
  | succ n ih =>
    intro s h
    have := column_ok_append_whitespace T nspc s h
    unfold append_until_fits
    rcases hr : encode_append_whitespace T nspc s with ⟨b, s1⟩
    rw [hr] at this
    cases b
    · exact ih _ (column_ok_load _).2
    · exact this

theorem column_ok_encode_write_value (T fuel val : Nat) (s : EncodeState)
    (h : s.encode_buffer_loaded = true → column_ok s) :
    column_ok (encode_write_value T fuel val s).state := by
  unfold encode_write_value
  simp only []
  have h1 : column_ok (if s.encode_buffer_loaded then s else encode_buffer_load s) := by
    cases hl : s.encode_buffer_loaded
    · exact (column_ok_load s).2
    · exact h hl
  generalize (if s.encode_buffer_loaded then s else encode_buffer_load s) = s1 at h1
  refine Outcome.state_andThen column_ok _ _ ?_ ?_
  · split
    · exact h1
    · exact Outcome.state_andThen column_ok _ _ (column_ok_load_until_tab_fits T fuel s1 h1)
        (fun s2 h2 => column_ok_first_tab s2 h2)
  · intro s3 h3
    refine Outcome.state_andThen column_ok _ _ (column_ok_append_until_fits T _ fuel s3 h3) ?_
    intro s4 h4
    split
    · exact column_ok_congr h4 rfl rfl rfl
    · exact h4

theorem column_ok_encode_bit (T fuel : Nat) (bit : Bool) (s : EncodeState)
    (h : s.encode_buffer_loaded = true → column_ok s) :
    (encode_bit T fuel bit s).state.encode_buffer_loaded = true →
      column_ok (encode_bit T fuel bit s).state := by
  unfold encode_bit
  simp only []
  split
  · intro _
    refine Outcome.state_andThen column_ok _ _
      (column_ok_encode_write_value T fuel _ _
        (fun hl => column_ok_congr (h hl) rfl rfl rfl)) ?_
    intro s2 h2
    exact column_ok_congr h2 rfl rfl rfl
  · intro hl
    exact column_ok_congr (h hl) rfl rfl rfl

theorem encode_write_flush_idle (T : Nat) (s : EncodeState) :
    (encode_write_flush T s).encode_buffer_loaded = false ∧ (encode_write_flush T s).inf = [] := by
  unfold encode_write_flush
  cases hl : s.encode_buffer_loaded
  · exact ⟨by simp only [Bool.false_eq_true, if_false]; exact hl, rfl⟩
  · exact ⟨rfl, rfl⟩

theorem column_ok_encode_flush (T fuel : Nat) (s : EncodeState)
    (h : s.encode_buffer_loaded = true → column_ok s) :
    (encode_flush T fuel s).state.encode_buffer_loaded = true →
      column_ok (encode_flush T fuel s).state := by
  unfold encode_flush
  simp only []
  have h2 : column_ok (if s.encode_bit_count > 0 then
      encode_write_value T fuel (encode_pad 3 s).encode_value (encode_pad 3 s)
      else Outcome.ok s).state ∨ (if s.encode_bit_count > 0 then
      encode_write_value T fuel (encode_pad 3 s).encode_value (encode_pad 3 s)
      else Outcome.ok s) = .ok s := by
    split
    · left
      apply column_ok_encode_write_value
      intro hl
      have hp : ∀ k t, column_ok t → column_ok (encode_pad k t) := by
        intro k
        induction k with
        | zero => intro t ht; exact ht
        | succ k ih =>
          intro t ht
          unfold encode_pad
          split
          · exact ih _ (column_ok_congr ht rfl rfl rfl)
          · exact ht
      have hpl : ∀ k t, (encode_pad k t).encode_buffer_loaded = t.encode_buffer_loaded := by
        intro k
        induction k with
        | zero => intro t; rfl
        | succ k ih =>
          intro t
          unfold encode_pad
          split
          · rw [ih]
          · rfl
      rw [hpl] at hl
      exact hp 3 s (h hl)
    · right; rfl
  generalize (if s.encode_bit_count > 0 then
      encode_write_value T fuel (encode_pad 3 s).encode_value (encode_pad 3 s)
      else Outcome.ok s) = o at h2
  cases o with
  | ok s2 =>
    intro hl
    rw [Outcome.andThen_ok, Outcome.state_ok, (encode_write_flush_idle T s2).1] at hl
    cases hl
  | failed e s2 =>
    intro _
    rcases h2 with h2 | h2
    · exact h2
    · cases h2
  | looping s2 =>
    intro _
    rcases h2 with h2 | h2
    · exact h2
    · cases h2

theorem column_ok_embed (cfg : Config) (crypt : CryptState) (msg : List Nat)
    (cover : List (List Char)) :
    (embed cfg crypt msg cover).state.enc.encode_buffer_loaded = true →
      column_ok (embed cfg crypt msg cover).state.enc :=
  embed_invariant (fun s => s.encode_buffer_loaded = true → column_ok s) cfg crypt msg cover
    (fun h => by cases h)
    (fun b s h => column_ok_encode_bit cfg.line_length cfg.fuel b s h)
    (fun s h => column_ok_encode_flush cfg.line_length cfg.fuel s h)

theorem column_after_append (a b : List Char) :
    ∀ col, column_after col (a ++ b) = column_after (column_after col a) b := by
  induction a with
  | nil => intro col; rfl
  | cons c cs ih =>
    intro col
    rw [List.cons_append, column_after, column_after]
    exact ih _

theorem column_after_spaces (n : Nat) :
    ∀ col, column_after col (List.replicate n ' ') = col + n := by
  induction n with
  | zero => intro col; rfl
  | succ n ih =>
    intro col
    rw [List.replicate_succ, column_after, if_neg (by decide), ih]
    omega

theorem column_after_ws_chunk (col : Nat) (b : Bool) (n : Nat) :
    column_after col (ws_chunk b n) = chunk_column col b n := by
  unfold ws_chunk chunk_column
  cases b <;> by_cases h0 : n = 0 <;>
    simp [h0, column_after_append, column_after, column_after_spaces]

theorem length_le_display_width (l : List Char) : l.length ≤ display_width l := by
  rw [← column_after_zero]
  have key : ∀ (l : List Char) (col : Nat), col + l.length ≤ column_after col l := by
    intro l
    induction l with
    | nil => intro col; exact Nat.le_refl _
    | cons c cs ih =>
      intro col
      rw [column_after, List.length_cons]
      have ht := tabpos_gt col
      by_cases hc : c = '\t'
      · rw [if_pos hc]
        have := ih (tabpos col)
        omega
      · rw [if_neg hc]
        have := ih (col + 1)
        omega
  simpa using key l 0

/-- C21: `tabpos n` is the least multiple of 8 above `n`; `encode_buffer_load`
leaves the buffer loaded with `encode_buffer_length` the length of the
string and `encode_buffer_column` the tab-expanded display column of
`encode_buffer[0..encode_buffer_length)`; the append of the start tab in
`encode_write_value` and every call of `encode_append_whitespace` keep
that; and it holds in the state an embedding run ends in, whenever the
buffer is loaded there. -/
theorem C21_column_invariant :
    (∀ n, 8 ∣ tabpos n ∧ n < tabpos n ∧ ∀ m, 8 ∣ m → n < m → tabpos n ≤ m) ∧
    (∀ s, (encode_buffer_load s).encode_buffer_loaded = true ∧
      column_ok (encode_buffer_load s)) ∧
    (∀ s, column_ok s → column_ok { append_tab s with encode_first_tab := true }) ∧
    (∀ T n s, column_ok s → column_ok (encode_append_whitespace T n s).2) ∧
    (∀ T fuel val s, (s.encode_buffer_loaded = true → column_ok s) →
      column_ok (encode_write_value T fuel val s).state) ∧
    (∀ cfg crypt msg cover,
      (embed cfg crypt msg cover).state.enc.encode_buffer_loaded = true →
      column_ok (embed cfg crypt msg cover).state.enc) :=
  ⟨tabpos_least, column_ok_load, column_ok_first_tab, column_ok_append_whitespace,
    column_ok_encode_write_value, column_ok_embed⟩

/-- C22: `encode_append_whitespace (n)` returns TRUE exactly when the
column reached from `encode_buffer_column` by the owed tab, if
`encode_needs_tab`, followed by `n` spaces, or by a tab when `n = 0`, is
below `line_length`; when the column variable is the display column of the
buffer this is the display column of the buffer with those characters
added.  On FALSE the state is unchanged; on TRUE exactly those characters
are appended, length and column follow, `encode_needs_tab` becomes
`n != 0` and nothing else changes. -/
theorem C22_append_fit_and_atomicity (T n : Nat) (s : EncodeState) :
    ws_chunk s.encode_needs_tab n
      = (if s.encode_needs_tab then ['\t'] else []) ++
        (if n = 0 then ['\t'] else List.replicate n ' ') ∧
    ((encode_append_whitespace T n s).1 = true ↔
      column_after s.encode_buffer_column (ws_chunk s.encode_needs_tab n) < T) ∧
    (column_ok s →
      column_after s.encode_buffer_column (ws_chunk s.encode_needs_tab n)
        = display_width (s.encode_buffer ++ ws_chunk s.encode_needs_tab n)) ∧
    ((encode_append_whitespace T n s).1 = false → (encode_append_whitespace T n s).2 = s) ∧
    ((encode_append_whitespace T n s).1 = true →
      (encode_append_whitespace T n s).2 =
        { s with encode_buffer := s.encode_buffer ++ ws_chunk s.encode_needs_tab n,
                 encode_buffer_length :=
                   s.encode_buffer_length + (ws_chunk s.encode_needs_tab n).length,
                 encode_buffer_column :=
                   column_after s.encode_buffer_column (ws_chunk s.encode_needs_tab n),
                 encode_needs_tab := decide (n ≠ 0) }) := by
  rw [encode_append_whitespace_eq, column_after_ws_chunk]
  refine ⟨rfl, ?_, ?_, ?_, ?_⟩
  · split
    · simp only [Bool.false_eq_true, false_iff]; omega
    · simp only [true_iff]; omega
  · intro h
    rw [display_width_ws_chunk, ← ((column_ok_iff s).1 h).2]
  · split
    · intro _; rfl
    · intro h; cases h
  · split
    · intro h; cases h
    · intro _; rfl

/-- C24: in the state an embedding run ends in, `encode_buffer_length` is at
most `encode_buffer_column` whenever the buffer is loaded; every line
written that differs from the stripped cover line is shorter than
`line_length`; and an append, by `encode_append_whitespace` or of the start
tab, that passes its fit test leaves a length below `line_length`, so that
with `line_length <= BUFSIZ - 1` every index it stores to, from the old
length up to the new one where the NUL goes, is below `BUFSIZ - 1`. -/
theorem C24_buffer_length_bound (cfg : Config) (crypt : CryptState) (msg : List Nat)
    (cover : List (List Char)) :
    ((embed cfg crypt msg cover).state.enc.encode_buffer_loaded = true →
      (embed cfg crypt msg cover).state.enc.encode_buffer_length
        ≤ (embed cfg crypt msg cover).state.enc.encode_buffer_column) ∧
    (∀ (i : Nat) (l : List Char), (embed_lines cfg crypt msg cover)[i]? = some l →
      l ≠ nth_base cover i → l.length < cfg.line_length) ∧
    (∀ (n : Nat) (s : EncodeState), column_ok s →
      (encode_append_whitespace cfg.line_length n s).1 = true →
      (encode_append_whitespace cfg.line_length n s).2.encode_buffer_length
          ≤ (encode_append_whitespace cfg.line_length n s).2.encode_buffer_column ∧
      (encode_append_whitespace cfg.line_length n s).2.encode_buffer_length < cfg.line_length ∧
      ∀ BUFSIZ idx : Nat, cfg.line_length ≤ BUFSIZ - 1 →
        idx ≤ (encode_append_whitespace cfg.line_length n s).2.encode_buffer_length →
        idx < BUFSIZ - 1) ∧
    (∀ s : EncodeState, column_ok s → tabpos s.encode_buffer_column < cfg.line_length →
      (append_tab s).encode_buffer_length ≤ (append_tab s).encode_buffer_column ∧
      (append_tab s).encode_buffer_length < cfg.line_length ∧
      ∀ BUFSIZ idx : Nat, cfg.line_length ≤ BUFSIZ - 1 →
        idx ≤ (append_tab s).encode_buffer_length → idx < BUFSIZ - 1) := by
  have hle : ∀ t : EncodeState, column_ok t → t.encode_buffer_length ≤ t.encode_buffer_column := by
    intro t ht
    obtain ⟨h1, h2⟩ := (column_ok_iff t).1 ht
    rw [h1, h2]
    exact length_le_display_width _
  refine ⟨fun hl => hle _ (column_ok_embed cfg crypt msg cover hl), ?_, ?_, ?_⟩
  · intro i l hil hne
    obtain ⟨w, _, hlw, hw⟩ := (layout_embed cfg crypt msg cover).1.written i l hil
    rcases hw with hw | hw
    · exact absurd (by rw [hlw, hw, List.append_nil]) hne
    · exact Nat.lt_of_le_of_lt (length_le_display_width l) hw
  · intro n s hs hok
    have hc := column_ok_append_whitespace cfg.line_length n s hs
    have hlen := hle _ hc
    have hcol : (encode_append_whitespace cfg.line_length n s).2.encode_buffer_column
        < cfg.line_length := by
      rw [encode_append_whitespace_eq] at hok ⊢
      split
      · rename_i hge; rw [if_pos hge] at hok; cases hok
      · rename_i hlt
        show chunk_column s.encode_buffer_column s.encode_needs_tab n < cfg.line_length
        omega
    exact ⟨hlen, by omega, fun B idx hB hidx => by omega⟩
  · intro s hs hfit
    have hc := column_ok_first_tab s hs
    have hlen := hle _ hc
    have h1 : (append_tab s).encode_buffer_length ≤ (append_tab s).encode_buffer_column := hlen
    have h2 : (append_tab s).encode_buffer_column = tabpos s.encode_buffer_column := rfl
    exact ⟨h1, by omega, fun B idx hB hidx => by omega⟩

/-! ## Extra lines (C23) -/

theorem accounting_start (cover : List (List Char)) :
    Accounting cover (EncodeState.start cover) where
  unread := rfl
  extra := by simp [EncodeState.start, produced_lines]

theorem accounting_congr {cover : List (List Char)} {s t : EncodeState}
    (h : Accounting cover s) (h1 : t.inf = s.inf)
    (h2 : t.encode_lines_extra = s.encode_lines_extra)
    (h3 : (produced_lines t).length = (produced_lines s).length) : Accounting cover t where
  unread := by rw [h1, h3]; exact h.unread
  extra := by rw [h2, h3]; exact h.extra

theorem encode_buffer_load_extra (s : EncodeState) :
    (wsgets s.inf = none →
      (encode_buffer_load s).encode_lines_extra = s.encode_lines_extra + 1 ∧
      (encode_buffer_load s).encode_buffer = [] ∧ (encode_buffer_load s).inf = s.inf) ∧
    (∀ r, wsgets s.inf = some r →
      (encode_buffer_load s).encode_lines_extra = s.encode_lines_extra ∧
      (encode_buffer_load s).encode_buffer = r.1 ∧ (encode_buffer_load s).inf = r.2) := by
  unfold encode_buffer_load
  constructor
  · intro h; rw [h]; exact ⟨rfl, rfl, rfl⟩
  · intro r h; rw [h]; exact ⟨rfl, rfl, rfl⟩

theorem accounting_new_line {cover : List (List Char)} {s u : EncodeState}
    (h : Accounting cover s) (h1 : u.inf = s.inf)
    (h2 : u.encode_lines_extra = s.encode_lines_extra)
    (h3 : (produced_lines (encode_buffer_load u)).length = (produced_lines s).length + 1) :
    Accounting cover (encode_buffer_load u) := by
  obtain ⟨hnone, hsome⟩ := encode_buffer_load_extra u
  have hun := h.unread
  have hex := h.extra
  rw [← h1] at hun
  rcases wsgets_drop cover (produced_lines s).length with ⟨hlt, hw⟩ | ⟨hge, hw, _, hd⟩
  · rw [← hun] at hw
    obtain ⟨e1, _, e3⟩ := hsome _ hw
    exact { unread := by rw [e3, h3]
            extra := by rw [e1, h2, hex, h3]; omega }
  · rw [← hun] at hw
    obtain ⟨e1, _, e3⟩ := hnone hw
    exact { unread := by rw [e3, h3, hun, hd]; exact List.drop_eq_nil_iff.2 hge
            extra := by rw [e1, h2, hex, h3]; omega }

theorem produced_lines_load_length (u : EncodeState) :
    (produced_lines (encode_buffer_load u)).length = u.outf.length + 1 := by
  unfold produced_lines
  rw [encode_buffer_load_loaded, (encode_buffer_load_fields u).2.2.1]
  simp

theorem accounting_load_idle {cover : List (List Char)} {s : EncodeState}
    (h : Accounting cover s) (hl : s.encode_buffer_loaded = false) :
    Accounting cover (encode_buffer_load s) :=
  accounting_new_line h rfl rfl (by
    rw [produced_lines_load_length]
    unfold produced_lines
    rw [hl]
    simp)

theorem accounting_next_line {cover : List (List Char)} {s : EncodeState}
    (h : Accounting cover s) (hl : s.encode_buffer_loaded = true) :
    Accounting cover (encode_buffer_load (wsputs_buffer s)) :=
  accounting_new_line h rfl rfl (by
    rw [produced_lines_load_length]
    unfold produced_lines wsputs_buffer
    rw [hl]
    simp)

theorem accounting_append_whitespace {cover : List (List Char)} (T n : Nat) {s : EncodeState}
    (h : Accounting cover s) :
    Accounting cover (encode_append_whitespace T n s).2 ∧
    (encode_append_whitespace T n s).2.encode_buffer_loaded = s.encode_buffer_loaded := by
  rw [encode_append_whitespace_eq]
  split
  · exact ⟨h, rfl⟩
  · refine ⟨accounting_congr h rfl rfl ?_, rfl⟩
    unfold produced_lines
    simp only [List.length_append]
    cases s.encode_buffer_loaded <;> rfl

theorem accounting_load_until_tab_fits {cover : List (List Char)} (T fuel : Nat) :
    ∀ s, Accounting cover s → s.encode_buffer_loaded = true →
      Accounting cover (load_until_tab_fits T fuel s).state ∧
      (load_until_tab_fits T fuel s).state.encode_buffer_loaded = true := by
  induction fuel with
  | zero =>
    intro s h hl
    unfold load_until_tab_fits
    split <;> exact ⟨h, hl⟩
  | succ n ih =>
    intro s h hl
    unfold load_until_tab_fits
    split
    · exact ih _ (accounting_next_line h hl) (encode_buffer_load_loaded _)
    · exact ⟨h, hl⟩

theorem accounting_append_until_fits {cover : List (List Char)} (T nspc fuel : Nat) :
    ∀ s, Accounting cover s → s.encode_buffer_loaded = true →
      Accounting cover (append_until_fits T nspc fuel s).state ∧
      (append_until_fits T nspc fuel s).state.encode_buffer_loaded = true := by
  induction fuel with
  | zero =>
    intro s h hl
    have := accounting_append_whitespace T nspc h
    rw [hl] at this
    unfold append_until_fits
    rcases hr : encode_append_whitespace T nspc s with ⟨b, s1⟩
    rw [hr] at this
    cases b <;> exact this
  | succ n ih =>
    intro s h hl
    have := accounting_append_whitespace T nspc h
    rw [hl] at this
    unfold append_until_fits
    rcases hr : encode_append_whitespace T nspc s with ⟨b, s1⟩
    rw [hr] at this
    cases b
    · exact ih _ (accounting_next_line this.1 this.2) (encode_buffer_load_loaded _)
    · exact this

theorem accounting_encode_write_value {cover : List (List Char)} (T fuel val : Nat)
    (s : EncodeState) (h : Accounting cover s) :
    Accounting cover (encode_write_value T fuel val s).state := by
  unfold encode_write_value
  simp only []
  have h1 : Accounting cover (if s.encode_buffer_loaded then s else encode_buffer_load s) ∧
      (if s.encode_buffer_loaded then s else encode_buffer_load s).encode_buffer_loaded = true := by
    cases hl : s.encode_buffer_loaded
    · exact ⟨accounting_load_idle h hl, encode_buffer_load_loaded s⟩
    · exact ⟨h, hl⟩
  generalize (if s.encode_buffer_loaded then s else encode_buffer_load s) = s1 at h1
  let P : EncodeState → Prop := fun t => Accounting cover t ∧ t.encode_buffer_loaded = true
  have key : P ((if s1.encode_first_tab = true then Outcome.ok s1
      else (load_until_tab_fits T fuel s1).andThen fun s2 =>
        .ok { append_tab s2 with encode_first_tab := true }).andThen fun s3 =>
      (append_until_fits T (reverse_bits val) fuel s3).andThen fun s4 =>
        .ok (if s4.encode_lines_extra = 0 then
               { s4 with encode_bits_available := s4.encode_bits_available + 3 }
             else s4)).state := by
    refine Outcome.state_andThen P _ _ ?_ ?_
    · split
      · exact h1
      · refine Outcome.state_andThen P _ _ (accounting_load_until_tab_fits T fuel s1 h1.1 h1.2) ?_
        intro s2 h2
        refine ⟨accounting_congr h2.1 rfl rfl ?_, h2.2⟩
        unfold produced_lines append_tab
        simp only []
        cases s2.encode_buffer_loaded <;> simp
    · intro s3 h3
      refine Outcome.state_andThen P _ _ (accounting_append_until_fits T _ fuel s3 h3.1 h3.2) ?_
      intro s4 h4
      split
      · exact ⟨accounting_congr h4.1 rfl rfl rfl, h4.2⟩
      · exact h4
  exact key.1

theorem accounting_encode_bit {cover : List (List Char)} (T fuel : Nat) (bit : Bool)
    (s : EncodeState) (h : Accounting cover s) :
    Accounting cover (encode_bit T fuel bit s).state := by
  unfold encode_bit
  simp only []
  split
  · refine Outcome.state_andThen (Accounting cover) _ _
      (accounting_encode_write_value T fuel _ _ (accounting_congr h rfl rfl rfl)) ?_
    intro s2 h2
    exact accounting_congr h2 rfl rfl rfl
  · exact accounting_congr h rfl rfl rfl

theorem accounting_encode_pad {cover : List (List Char)} (k : Nat) :
    ∀ s, Accounting cover s → Accounting cover (encode_pad k s) := by
  induction k with
  | zero => intro s h; exact h
  | succ k ih =>
    intro s h
    unfold encode_pad
    split
    · exact ih _ (accounting_congr h rfl rfl rfl)
    · exact h

theorem accounting_encode_write_flush {cover : List (List Char)} (T : Nat)
    (s : EncodeState) (h : Accounting cover s) :
    Accounting cover (encode_write_flush T s) := by
  obtain ⟨hl, hinf⟩ := encode_write_flush_idle T s
  have hp : produced_lines (encode_write_flush T s) = produced_lines s ++ s.inf.map ws_strip := by
    unfold produced_lines
    rw [hl, encode_write_flush_outf]
    cases s.encode_buffer_loaded <;> simp
  have hex : (encode_write_flush T s).encode_lines_extra = s.encode_lines_extra := by
    unfold encode_write_flush
    cases s.encode_buffer_loaded <;> rfl
  have hlen : s.inf.length = cover.length - (produced_lines s).length := by
    rw [h.unread, List.length_drop]
  exact { unread := by
            rw [hinf, hp, List.length_append, List.length_map, hlen]
            exact (List.drop_eq_nil_iff.2 (by omega)).symm
          extra := by
            rw [hex, hp, List.length_append, List.length_map, hlen, h.extra]
            omega }

theorem accounting_encode_flush {cover : List (List Char)} (T fuel : Nat)
    (s : EncodeState) (h : Accounting cover s) :
    Accounting cover (encode_flush T fuel s).state := by
  unfold encode_flush
  simp only []
  refine Outcome.state_andThen (Accounting cover) _ _ ?_
    (fun s2 h2 => accounting_encode_write_flush T s2 h2)
  split
  · exact accounting_encode_write_value T fuel _ _ (accounting_encode_pad 3 s h)
  · exact h

theorem accounting_embed (cfg : Config) (crypt : CryptState) (msg : List Nat)
    (cover : List (List Char)) : Accounting cover (embed cfg crypt msg cover).state.enc :=
  embed_invariant (Accounting cover) cfg crypt msg cover (accounting_start cover)
    (fun b s h => accounting_encode_bit cfg.line_length cfg.fuel b s h)
    (fun s h => accounting_encode_flush cfg.line_length cfg.fuel s h)

theorem embed_ok_flushed (cfg : Config) (crypt : CryptState) (msg : List Nat)
    (cover : List (List Char)) (t : EmbedState) (h : embed cfg crypt msg cover = .ok t) :
    t.enc.encode_buffer_loaded = false ∧ t.enc.inf = [] := by
  unfold embed message_fp_encode at h
  obtain ⟨s, _, h⟩ := Outcome.andThen_eq_ok.1 h
  unfold compress_flush encrypt_flush at h
  obtain ⟨e, he, hte⟩ := Outcome.map_eq_ok.1 h
  unfold encode_flush at he
  obtain ⟨s2, _, he⟩ := Outcome.andThen_eq_ok.1 he
  simp only [Outcome.ok.injEq] at he
  rw [← hte]
  show e.encode_buffer_loaded = false ∧ e.inf = []
  rw [← he]
  exact encode_write_flush_idle _ s2

/-! ## Embedding into a stego text (C25) -/

theorem ws_strip_idempotent (l : List Char) : ws_strip (ws_strip l) = ws_strip l :=
  List.rdropWhile_idempotent _ _

theorem encode_buffer_load_strip (s : EncodeState) :
    encode_buffer_load (strip_cover s) = strip_cover (encode_buffer_load s) := by
  unfold encode_buffer_load strip_cover wsgets
  cases hinf : s.inf with
  | nil => rfl
  | cons l rest =>
    simp only [List.map_cons, ws_strip_idempotent]

theorem encode_append_whitespace_strip (T n : Nat) (s : EncodeState) :
    encode_append_whitespace T n (strip_cover s)
      = ((encode_append_whitespace T n s).1, strip_cover (encode_append_whitespace T n s).2) := by
  rw [encode_append_whitespace_eq, encode_append_whitespace_eq]
  have hcol : (strip_cover s).encode_buffer_column = s.encode_buffer_column := rfl
  have hnt : (strip_cover s).encode_needs_tab = s.encode_needs_tab := rfl
  rw [hcol, hnt]
  split <;> rfl

theorem load_until_tab_fits_strip (T : Nat) :
    ∀ (fuel : Nat) (s : EncodeState),
      load_until_tab_fits T fuel (strip_cover s)
        = (load_until_tab_fits T fuel s).map strip_cover := by
  intro fuel
  induction fuel with
  | zero =>
    intro s
    unfold load_until_tab_fits
    have hcol : (strip_cover s).encode_buffer_column = s.encode_buffer_column := rfl
    rw [hcol]
    split <;> rfl
  | succ fuel ih =>
    intro s
    unfold load_until_tab_fits
    have hcol : (strip_cover s).encode_buffer_column = s.encode_buffer_column := rfl
    rw [hcol]
    split
    · have : wsputs_buffer (strip_cover s) = strip_cover (wsputs_buffer s) := rfl
      rw [this, encode_buffer_load_strip, ih]
    · rfl

theorem append_until_fits_strip (T n : Nat) :
    ∀ (fuel : Nat) (s : EncodeState),
      append_until_fits T n fuel (strip_cover s)
        = (append_until_fits T n fuel s).map strip_cover := by
  intro fuel
  induction fuel with
  | zero =>
    intro s
    unfold append_until_fits
    rw [encode_append_whitespace_strip]
    rcases encode_append_whitespace T n s with ⟨_ | _, s1⟩ <;> rfl
  | succ fuel ih =>
    intro s
    unfold append_until_fits
    rw [encode_append_whitespace_strip]
    rcases encode_append_whitespace T n s with ⟨_ | _, s1⟩
    · simp only []
      have : wsputs_buffer (strip_cover s1) = strip_cover (wsputs_buffer s1) := rfl
      rw [this, encode_buffer_load_strip, ih]
    · rfl

theorem encode_write_value_strip (T fuel v : Nat) (s : EncodeState) :
    encode_write_value T fuel v (strip_cover s)
      = (encode_write_value T fuel v s).map strip_cover := by
  unfold encode_write_value
  simp only []
  have h1 : (if (strip_cover s).encode_buffer_loaded = true
        then strip_cover s else encode_buffer_load (strip_cover s))
      = strip_cover (if s.encode_buffer_loaded = true then s else encode_buffer_load s) := by
    have : (strip_cover s).encode_buffer_loaded = s.encode_buffer_loaded := rfl
    rw [this, encode_buffer_load_strip]
    split <;> rfl
  rw [h1]
  generalize (if s.encode_buffer_loaded = true then s else encode_buffer_load s) = s1
  have h2 : (if (strip_cover s1).encode_first_tab = true
        then Outcome.ok (strip_cover s1)
        else (load_until_tab_fits T fuel (strip_cover s1)).andThen fun s2 =>
          .ok { append_tab s2 with encode_first_tab := true })
      = (if s1.encode_first_tab = true then Outcome.ok s1
        else (load_until_tab_fits T fuel s1).andThen fun s2 =>
          .ok { append_tab s2 with encode_first_tab := true }).map strip_cover := by
    have : (strip_cover s1).encode_first_tab = s1.encode_first_tab := rfl
    rw [this, load_until_tab_fits_strip]
    split
    · rfl
    · exact Outcome.map_andThen _ _ _ _ (fun t => rfl)
  rw [h2]
  apply Outcome.map_andThen
  intro t
  rw [append_until_fits_strip]
  apply Outcome.map_andThen
  intro u
  have : (strip_cover u).encode_lines_extra = u.encode_lines_extra := rfl
  rw [this]
  split <;> rfl

theorem encode_bit_strip (T fuel : Nat) (b : Bool) (s : EncodeState) :
    encode_bit T fuel b (strip_cover s) = (encode_bit T fuel b s).map strip_cover := by
  unfold encode_bit
  simp only []
  have hc : (strip_cover s).encode_bit_count = s.encode_bit_count := rfl
  rw [hc]
  split
  · have : ({ strip_cover s with
          encode_value := ((strip_cover s).encode_value <<< 1) ||| b.toNat,
          encode_bits_used := (strip_cover s).encode_bits_used + 1,
          encode_bit_count := s.encode_bit_count + 1 } : EncodeState)
        = strip_cover { s with encode_value := (s.encode_value <<< 1) ||| b.toNat,
                               encode_bits_used := s.encode_bits_used + 1,
                               encode_bit_count := s.encode_bit_count + 1 } := rfl
    rw [this, encode_write_value_strip]
    exact Outcome.map_andThen _ _ _ _ (fun t => rfl)
  · rfl

theorem encode_pad_strip (k : Nat) :
    ∀ s, encode_pad k (strip_cover s) = strip_cover (encode_pad k s) := by
  induction k with
  | zero => intro s; rfl
  | succ k ih =>
    intro s
    unfold encode_pad
    have hc : (strip_cover s).encode_bit_count = s.encode_bit_count := rfl
    rw [hc]
    split
    · exact ih { s with encode_value := s.encode_value <<< 1,
                        encode_bit_count := s.encode_bit_count + 1 }
    · rfl

theorem copy_rest_strip (T : Nat) :
    ∀ (ls : List (List Char)) (n : Nat × Nat) (out : List (List Char)),
      copy_rest T (ls.map ws_strip) n out = copy_rest T ls n out := by
  intro ls
  induction ls with
  | nil => intro n out; rfl
  | cons l rest ih =>
    intro n out
    rw [List.map_cons, copy_rest, copy_rest, ws_strip_idempotent, ih]

theorem encode_write_flush_strip (T : Nat) (s : EncodeState) :
    encode_write_flush T (strip_cover s) = encode_write_flush T s ∧
    strip_cover (encode_write_flush T s) = encode_write_flush T s := by
  unfold encode_write_flush strip_cover
  cases hl : s.encode_buffer_loaded <;>
    simp [wsputs_buffer, copy_rest_strip, hl]

theorem encode_flush_strip (T fuel : Nat) (s : EncodeState) :
    encode_flush T fuel (strip_cover s) = (encode_flush T fuel s).map strip_cover := by
  unfold encode_flush
  simp only []
  have hc : (strip_cover s).encode_bit_count = s.encode_bit_count := rfl
  have h1 : (if (strip_cover s).encode_bit_count > 0 then
        encode_write_value T fuel (encode_pad 3 (strip_cover s)).encode_value
          (encode_pad 3 (strip_cover s))
      else Outcome.ok (strip_cover s))
      = (if s.encode_bit_count > 0 then
          encode_write_value T fuel (encode_pad 3 s).encode_value (encode_pad 3 s)
        else Outcome.ok s).map strip_cover := by
    rw [hc, encode_pad_strip]
    split
    · have : (strip_cover (encode_pad 3 s)).encode_value = (encode_pad 3 s).encode_value := rfl
      rw [this, encode_write_value_strip]
    · rfl
  rw [h1]
  apply Outcome.map_andThen
  intro t
  rw [(encode_write_flush_strip T t).1, Outcome.map_ok, (encode_write_flush_strip T t).2]

theorem embed_map (g : EncodeState → EncodeState) (cfg : Config) (crypt : CryptState)
    (msg : List Nat) (cover cover1 : List (List Char))
    (h0 : EncodeState.start cover1 = g (EncodeState.start cover))
    (hbit : ∀ b s, encode_bit cfg.line_length cfg.fuel b (g s)
      = (encode_bit cfg.line_length cfg.fuel b s).map g)
    (hflush : ∀ s, encode_flush cfg.line_length cfg.fuel (g s)
      = (encode_flush cfg.line_length cfg.fuel s).map g) :
    embed cfg crypt msg cover1
      = (embed cfg crypt msg cover).map fun st => { st with enc := g st.enc } := by
  have hE : ∀ (b : Bool) (st : EmbedState),
      encrypt_bit cfg b { st with enc := g st.enc }
        = (encrypt_bit cfg b st).map fun st => { st with enc := g st.enc } := by
    intro b st
    unfold encrypt_bit
    cases hk : st.crypt.ice_key with
    | none =>
      simp only [hk, hbit]
      cases encode_bit cfg.line_length cfg.fuel b st.enc <;> rfl
    | some E =>
      simp only [hk, hbit]
      cases encode_bit cfg.line_length cfg.fuel
        (encrypt_step E st.crypt.encrypt_iv_block b).1 st.enc <;> rfl
  have hEmit : ∀ (code : List Char) (st : EmbedState),
      compress_emit cfg code { st with enc := g st.enc }
        = (compress_emit cfg code st).map fun st => { st with enc := g st.enc } := by
    intro code
    induction code with
    | nil => intro st; rfl
    | cons c cs ih =>
      intro st
      unfold compress_emit
      split
      · rw [hE]
        exact Outcome.map_andThen _ _ _ _ (fun t =>
          ih { t with comp := { t.comp with
                 compress_bits_out := t.comp.compress_bits_out + 1 } })
      · rfl
  have hC : ∀ (b : Bool) (st : EmbedState),
      compress_bit cfg b { st with enc := g st.enc }
        = (compress_bit cfg b st).map fun st => { st with enc := g st.enc } := by
    intro b st
    unfold compress_bit
    split
    · exact hE b st
    · simp only []
      split
      · have := hEmit (cfg.huffcodes ((st.comp.compress_value <<< 1) ||| b.toNat))
          { st with comp :=
            { st.comp with compress_bits_in := st.comp.compress_bits_in + 1,
                           compress_value := (st.comp.compress_value <<< 1) ||| b.toNat,
                           compress_bit_count := st.comp.compress_bit_count + 1 } }
        rw [this]
        exact Outcome.map_andThen _ _ _ _ (fun t => rfl)
      · rfl
  have hCh : ∀ (c n i : Nat) (st : EmbedState),
      character_encode_from cfg c n i { st with enc := g st.enc }
        = (character_encode_from cfg c n i st).map fun st => { st with enc := g st.enc } := by
    intro c n
    induction n with
    | zero => intro i st; rfl
    | succ n ih =>
      intro i st
      unfold character_encode_from
      rw [hC]
      exact Outcome.map_andThen _ _ _ _ (fun t => ih _ t)
  have hM : ∀ (m : List Nat) (st : EmbedState),
      message_loop cfg m { st with enc := g st.enc }
        = (message_loop cfg m st).map fun st => { st with enc := g st.enc } := by
    intro m
    induction m with
    | nil => intro st; rfl
    | cons c cs ih =>
      intro st
      unfold message_loop character_encode
      rw [hCh]
      exact Outcome.map_andThen _ _ _ _ (fun t => ih t)
  have hF : ∀ st : EmbedState,
      compress_flush cfg { st with enc := g st.enc }
        = (compress_flush cfg st).map fun st => { st with enc := g st.enc } := by
    intro st
    unfold compress_flush encrypt_flush
    simp only [hflush]
    cases encode_flush cfg.line_length cfg.fuel st.enc <;> rfl
  unfold embed message_fp_encode
  rw [compress_init_start, compress_init_start]
  have hs : EmbedState.start crypt cover1
      = { EmbedState.start crypt cover with enc := g (EmbedState.start crypt cover).enc } := by
    unfold EmbedState.start
    rw [h0]
  rw [hs, hM]
  exact Outcome.map_andThen _ _ _ _ hF

theorem embed_stripped_cover (cfg : Config) (crypt : CryptState) (msg : List Nat)
    (cover : List (List Char)) :
    embed cfg crypt msg (cover.map ws_strip)
      = (embed cfg crypt msg cover).map fun st => { st with enc := strip_cover st.enc } :=
  embed_map strip_cover cfg crypt msg cover (cover.map ws_strip) rfl
    (fun b s => encode_bit_strip cfg.line_length cfg.fuel b s)
    (fun s => encode_flush_strip cfg.line_length cfg.fuel s)

theorem embed_lines_stripped_cover (cfg : Config) (crypt : CryptState) (msg : List Nat)
    (cover : List (List Char)) :
    embed_lines cfg crypt msg (cover.map ws_strip) = embed_lines cfg crypt msg cover := by
  unfold embed_lines
  rw [embed_stripped_cover, Outcome.state_map]
  rfl

theorem embed_ok_line_count (cfg : Config) (crypt : CryptState) (msg : List Nat)
    (cover : List (List Char)) (t : EmbedState) (h : embed cfg crypt msg cover = .ok t) :
    t.enc.outf.length = cover.length + t.enc.encode_lines_extra := by
  have hA := accounting_embed cfg crypt msg cover
  obtain ⟨hl, hinf⟩ := embed_ok_flushed cfg crypt msg cover t h
  rw [h] at hA
  have hp : produced_lines t.enc = t.enc.outf := by
    unfold produced_lines
    rw [hl]
    simp
  have hun := hA.unread
  have hex := hA.extra
  simp only [Outcome.state_ok] at hun hex
  rw [hp] at hun hex
  rw [hinf] at hun
  have := List.drop_eq_nil_iff.1 hun.symm
  omega

theorem stego_read_stripped (cfg : Config) (crypt : CryptState) (msg : List Nat)
    (cover : List (List Char)) (t : EmbedState) (h : embed cfg crypt msg cover = .ok t)
    (hx : t.enc.encode_lines_extra = 0) :
    (stego_read t.enc.outf).map ws_strip = cover.map ws_strip := by
  have hlen := embed_ok_line_count cfg crypt msg cover t h
  rw [hx, Nat.add_zero] at hlen
  have hL := (layout_embed cfg crypt msg cover).1
  rw [h, Outcome.state_ok] at hL
  apply List.ext_getElem?
  intro i
  unfold stego_read
  rw [List.getElem?_map, List.getElem?_map, List.getElem?_map]
  rcases Nat.lt_or_ge i cover.length with hi | hi
  · have hio : i < t.enc.outf.length := by omega
    rw [List.getElem?_eq_getElem hio, List.getElem?_eq_getElem hi]
    simp only [Option.map_some']
    obtain ⟨w, hw, hlw, _⟩ := hL.written i _ (List.getElem?_eq_getElem hio)
    rw [hlw, List.append_assoc]
    have hall : ∀ c ∈ w ++ ['\n'], is_strip_char c = true := by
      intro c hc
      rcases List.mem_append.1 hc with h1 | h1
      · have := hw c h1
        simp only [is_blank, Bool.or_eq_true, beq_iff_eq] at this
        simp only [is_strip_char, Bool.or_eq_true, beq_iff_eq]
        rcases this with h2 | h2
        · exact Or.inl (Or.inl (Or.inl h2))
        · exact Or.inl (Or.inl (Or.inr h2))
      · rw [List.mem_singleton.1 h1]; rfl
    have hs : ws_strip (nth_base cover i ++ (w ++ ['\n'])) = ws_strip (nth_base cover i) :=
      rdropWhile_append_all _ _ _ hall
    rw [hs]
    unfold nth_base
    rw [ws_strip_idempotent, List.getD_eq_getElem?_getD, List.getElem?_eq_getElem hi]
    rfl
  · rw [List.getElem?_eq_none (by omega), List.getElem?_eq_none hi]
    rfl

/-! ## Runs within `encode_buffer`, and the file read back by `fgets` -/

theorem file_text_cons (l : List Char) (rest : List (List Char)) :
    file_text (l :: rest) = l ++ '\n' :: file_text rest := by
  simp [file_text, List.flatMap_cons]

theorem fgets_chars_newline (l rest : List Char) (hl : '\n' ∉ l) :
    ∀ room, l.length < room → fgets_chars room (l ++ '\n' :: rest) = (l ++ ['\n'], rest) := by
  induction l with
  | nil =>
    intro room h
    obtain ⟨k, rfl⟩ : ∃ k, room = k + 1 := ⟨room - 1, by simp at h; omega⟩
    simp [fgets_chars]
  | cons c cs ih =>
    intro room h
    obtain ⟨k, rfl⟩ : ∃ k, room = k + 1 := ⟨room - 1, by simp at h; omega⟩
    have hc : c ≠ '\n' := fun e => hl (by rw [e]; exact List.mem_cons_self _ _)
    have hcs : '\n' ∉ cs := fun e => hl (List.mem_cons_of_mem _ e)
    rw [List.cons_append, fgets_chars, if_neg hc, ih hcs k (by simp at h; omega)]
    rfl

theorem fgets_chars_full (l rest : List Char) (hl : '\n' ∉ l) :
    fgets_chars l.length (l ++ rest) = (l, rest) := by
  induction l with
  | nil => simp [fgets_chars]
  | cons c cs ih =>
    have hc : c ≠ '\n' := fun e => hl (by rw [e]; exact List.mem_cons_self _ _)
    have hcs : '\n' ∉ cs := fun e => hl (List.mem_cons_of_mem _ e)
    rw [List.cons_append, List.length_cons, fgets_chars, if_neg hc, ih hcs]

theorem fgets_all_file_text (BUFSIZ : Nat) (hB : 2 ≤ BUFSIZ) :
    ∀ (lines : List (List Char)), (∀ l ∈ lines, '\n' ∉ l ∧ l.length ≤ BUFSIZ - 1) →
      ∀ fuel, (file_text lines).length ≤ fuel →
        fgets_all BUFSIZ fuel (file_text lines) = lines.flatMap (line_strings BUFSIZ) := by
  intro lines
  induction lines with
  | nil =>
    intro _ fuel _
    cases fuel <;> simp [fgets_all, file_text]
  | cons l rest ih =>
    intro h fuel hfuel
    obtain ⟨hn, hlen⟩ := h l (List.mem_cons_self _ _)
    have hrest : ∀ x ∈ rest, '\n' ∉ x ∧ x.length ≤ BUFSIZ - 1 :=
      fun x hx => h x (List.mem_cons_of_mem _ hx)
    rw [file_text_cons] at hfuel ⊢
    rw [List.length_append, List.length_cons] at hfuel
    rw [List.flatMap_cons]
    by_cases hs : l.length + 2 ≤ BUFSIZ
    · obtain ⟨k, rfl⟩ : ∃ k, fuel = k + 1 := ⟨fuel - 1, by omega⟩
      rw [fgets_all, if_neg (by simp), fgets_chars_newline l _ hn _ (by omega)]
      simp only [line_strings, if_pos hs, List.singleton_append]
      rw [ih hrest k (by omega)]
    · have hl : l.length = BUFSIZ - 1 := by omega
      obtain ⟨k, rfl⟩ : ∃ k, fuel = k + 2 := ⟨fuel - 2, by omega⟩
      rw [fgets_all, if_neg (by simp), ← hl, fgets_chars_full l _ hn]
      simp only []
      rw [fgets_all, if_neg (by simp)]
      have h1 : fgets_chars (BUFSIZ - 1) ('\n' :: file_text rest) = (['\n'], file_text rest) := by
        have := fgets_chars_newline [] (file_text rest) (by simp) (BUFSIZ - 1) (by simp; omega)
        simpa using this
      rw [h1]
      simp only [line_strings, if_neg hs, List.cons_append, List.nil_append]
      rw [ih hrest k (by omega)]

theorem fgets_read_eq_stego_read (BUFSIZ : Nat) (lines : List (List Char))
    (h : ∀ l ∈ lines, '\n' ∉ l ∧ l.length + 2 ≤ BUFSIZ) :
    fgets_read BUFSIZ lines = stego_read lines := by
  cases lines with
  | nil => rfl
  | cons l0 rest0 =>
    have hB : 2 ≤ BUFSIZ := by
      have := (h l0 (List.mem_cons_self _ _)).2
      omega
    unfold fgets_read
    rw [fgets_all_file_text BUFSIZ hB _ (fun l hl => ⟨(h l hl).1, by have := (h l hl).2; omega⟩)
      _ (Nat.le_refl _)]
    generalize l0 :: rest0 = lines at h
    unfold stego_read
    induction lines with
    | nil => rfl
    | cons l rest ih =>
      rw [List.flatMap_cons, List.map_cons, ih (fun x hx => h x (List.mem_cons_of_mem _ hx))]
      simp [line_strings, (h l (List.mem_cons_self _ _)).2]

theorem ws_strip_length_le (l : List Char) : (ws_strip l).length ≤ l.length := by
  unfold ws_strip List.rdropWhile
  rw [List.length_reverse]
  have := (List.dropWhile_suffix is_strip_char (l := l.reverse)).length_le
  rwa [List.length_reverse] at this

theorem nth_base_fits (BUFSIZ : Nat) (cover : List (List Char)) (hfit : fits_buffer BUFSIZ cover)
    (i : Nat) : (nth_base cover i).length ≤ BUFSIZ - 1 := by
  unfold nth_base
  refine Nat.le_trans (ws_strip_length_le _) ?_
  rw [List.getD_eq_getElem?_getD]
  rcases Nat.lt_or_ge i cover.length with hi | hi
  · rw [List.getElem?_eq_getElem hi]
    exact hfit _ (List.getElem_mem _)
  · rw [List.getElem?_eq_none hi]
    exact Nat.zero_le _

theorem line_ok_fits (BUFSIZ T : Nat) (base l : List Char) (hT : T ≤ BUFSIZ - 1)
    (hb : base.length ≤ BUFSIZ - 1) (h : line_ok T base l) : l.length ≤ BUFSIZ - 1 := by
  obtain ⟨w, _, hl, hw⟩ := h
  rcases hw with hw | hw
  · rw [hl, hw, List.append_nil]; exact hb
  · have := length_le_display_width l
    omega

theorem line_ok_short (BUFSIZ T : Nat) (base l : List Char) (hT : T ≤ BUFSIZ - 1)
    (h : line_ok T base l) (hlong : ¬ l.length + 2 ≤ BUFSIZ) : l = base := by
  obtain ⟨w, _, hl, hw⟩ := h
  rcases hw with hw | hw
  · rw [hl, hw, List.append_nil]
  · have := length_le_display_width l
    omega

theorem produced_lines_fit (BUFSIZ T : Nat) (cover : List (List Char)) (s : EncodeState)
    (hL : Layout T cover s) (hT : T ≤ BUFSIZ - 1) (hfit : fits_buffer BUFSIZ cover) :
    ∀ l ∈ produced_lines s, l.length ≤ BUFSIZ - 1 := by
  intro l hl
  unfold produced_lines at hl
  rcases List.mem_append.1 hl with h | h
  · obtain ⟨i, hi, hil⟩ := List.getElem_of_mem h
    exact line_ok_fits BUFSIZ T _ l hT (nth_base_fits BUFSIZ cover hfit i)
      (hL.written i l (by rw [List.getElem?_eq_getElem hi, hil]))
  · cases hb : s.encode_buffer_loaded with
    | false => rw [hb] at h; simp at h
    | true =>
      rw [hb] at h
      simp only [if_true, List.mem_singleton] at h
      rw [h]
      exact line_ok_fits BUFSIZ T _ _ hT (nth_base_fits BUFSIZ cover hfit _) (hL.current hb).1

/-- With `line_length <= BUFSIZ - 1` and a cover of strings that fit the
array, every line an embedding run has produced, written or still in
`encode_buffer`, has at most `BUFSIZ - 1` characters.  The string in
`encode_buffer` only grows between a load and the `wsputs` that writes it
out, so the buffer never held more, and the stores of the run, the NUL after
the string and the newline of `wsputs` included, are inside the array. -/
theorem embed_lines_fit (BUFSIZ : Nat) (cfg : Config) (crypt : CryptState) (msg : List Nat)
    (cover : List (List Char)) (hT : cfg.line_length ≤ BUFSIZ - 1)
    (hfit : fits_buffer BUFSIZ cover) :
    ∀ l ∈ produced_lines (embed cfg crypt msg cover).state.enc, l.length ≤ BUFSIZ - 1 :=
  produced_lines_fit BUFSIZ cfg.line_length cover _ (layout_embed cfg crypt msg cover).1 hT hfit

theorem mem_outf_produced (s : EncodeState) (l : List Char) (h : l ∈ s.outf) :
    l ∈ produced_lines s := by
  unfold produced_lines
  exact List.mem_append_left _ h

theorem scan_line_clean_line (l : List Char) (h : clean_line l) : scan_line l none = none := by
  by_cases hne : l = []
  · subst hne; rfl
  · have hlast : is_blank (l.getLast hne) = false := by
      have := (List.rdropWhile_eq_self_iff.1 h.2) hne
      simpa using this
    have := scan_line_skip l [] hne h.1 hlast none
    rw [List.append_nil] at this
    rw [this]
    rfl

theorem extract_loop_line_strings (cfg : Config) (BUFSIZ : Nat) :
    ∀ (lines : List (List Char)), (∀ l ∈ lines, ¬ l.length + 2 ≤ BUFSIZ → clean_line l) →
      ∀ (found : Bool) (st : ExtractState),
        extract_loop cfg (lines.flatMap (line_strings BUFSIZ)) found st
          = extract_loop cfg (stego_read lines) found st := by
  intro lines
  induction lines with
  | nil => intro _ found st; rfl
  | cons l rest ih =>
    intro h found st
    have ih1 := ih (fun x hx => h x (List.mem_cons_of_mem _ hx))
    rw [List.flatMap_cons]
    show _ = extract_loop cfg ((l ++ ['\n']) :: stego_read rest) found st
    by_cases hs : l.length + 2 ≤ BUFSIZ
    · simp only [line_strings, if_pos hs, List.singleton_append, extract_loop_cons]
      rcases line_action (l ++ ['\n']) found with ⟨f1, _ | r⟩
      · exact ih1 f1 st
      · simp only []
        congr 1
        funext st1
        exact ih1 f1 st1
    · have hc := h l (List.mem_cons_self _ _) hs
      simp only [line_strings, if_neg hs, List.cons_append, List.nil_append]
      rw [extract_loop_cons, line_action_no_run l found (scan_line_clean_line l hc)]
      simp only []
      rw [extract_loop_cons, line_action_no_run ['\n'] found (by rfl)]
      simp only []
      rw [extract_loop_cons, line_action_clean l hc found]
      exact ih1 found st

theorem nth_base_clean (cover : List (List Char)) (hcov : clean_cover cover) (i : Nat) :
    clean_line (nth_base cover i) := by
  unfold nth_base
  rw [List.getD_eq_getElem?_getD]
  rcases Nat.lt_or_ge i cover.length with hi | hi
  · rw [List.getElem?_eq_getElem hi]
    exact clean_line_ws_strip hcov (List.getElem_mem _)
  · rw [List.getElem?_eq_none hi]
    exact clean_line_nil

theorem line_ok_no_newline (T : Nat) (base l : List Char) (hb : ∀ c ∈ base, c ≠ '\n')
    (h : line_ok T base l) : '\n' ∉ l := by
  obtain ⟨w, hw, hl, _⟩ := h
  rw [hl]
  intro hc
  rcases List.mem_append.1 hc with h1 | h1
  · exact hb _ h1 rfl
  · have := hw _ h1
    revert this
    decide

/-- The extractor reads the same from the file an embedding run wrote
whether each line comes back as one string or, for a line of `BUFSIZ - 1`
characters, as the line and its newline apart: such a line is a cover line
with nothing appended, which the extractor skips. -/
theorem message_extract_fgets_read (BUFSIZ : Nat) (cfg cfg1 : Config) (crypt crypt1 : CryptState)
    (msg : List Nat) (cover : List (List Char)) (h8 : 8 ≤ cfg.line_length)
    (hT : cfg.line_length ≤ BUFSIZ - 1) (hfit : fits_buffer BUFSIZ cover)
    (hcov : clean_cover cover) :
    message_extract cfg1 crypt1 (fgets_read BUFSIZ (embed_lines cfg crypt msg cover))
      = message_extract cfg1 crypt1 (stego_read (embed_lines cfg crypt msg cover)) := by
  have hL := (layout_embed cfg crypt msg cover).1
  have hF := embed_lines_fit BUFSIZ cfg crypt msg cover hT hfit
  unfold embed_lines
  generalize (embed cfg crypt msg cover).state.enc = s at hL hF
  have hline : ∀ l ∈ s.outf, ∃ i, line_ok cfg.line_length (nth_base cover i) l := by
    intro l hl
    obtain ⟨i, hi, hil⟩ := List.getElem_of_mem hl
    exact ⟨i, hL.written i l (by rw [List.getElem?_eq_getElem hi, hil])⟩
  unfold fgets_read message_extract
  rw [fgets_all_file_text BUFSIZ (by omega) s.outf ?_ _ (Nat.le_refl _)]
  · apply extract_loop_line_strings
    intro l hl hlong
    obtain ⟨i, hi⟩ := hline l hl
    rw [line_ok_short BUFSIZ _ _ l hT hi hlong]
    exact nth_base_clean cover hcov i
  · intro l hl
    obtain ⟨i, hi⟩ := hline l hl
    refine ⟨line_ok_no_newline _ _ l ?_ hi, hF l (mem_outf_produced s l hl)⟩
    intro c hc e
    have := (nth_base_clean cover hcov i).1 c hc
    rw [e] at this
    revert this
    decide

theorem fits_sample_cover : fits_buffer 8192 sample_cover := by
  unfold fits_buffer sample_cover
  decide

theorem fits_cr_cover : fits_buffer 8192 cr_cover := by
  unfold fits_buffer cr_cover
  decide

theorem fits_full_cover : fits_buffer 8192 full_cover := by
  intro l hl
  rw [List.mem_singleton.1 hl, List.length_replicate]

theorem fits_long_cover : fits_buffer 8192 long_cover := by
  intro l hl
  simp only [long_cover, List.mem_cons, List.mem_singleton, List.not_mem_nil, or_false] at hl
  rcases hl with h | h | h
  · rw [h, List.length_replicate]
  · rw [h, List.length_append, List.length_replicate]
    decide
  · rw [h]
    decide

theorem embed_ok_lines_fit (BUFSIZ : Nat) (cfg : Config) (crypt : CryptState) (msg : List Nat)
    (cover : List (List Char)) (hT : cfg.line_length ≤ BUFSIZ - 1)
    (hfit : fits_buffer BUFSIZ cover) (st : EmbedState)
    (hemb : embed cfg crypt msg cover = .ok st) :
    ∀ l ∈ st.enc.outf, l.length ≤ BUFSIZ - 1 := by
  intro l hl
  have := embed_lines_fit BUFSIZ cfg crypt msg cover hT hfit
  rw [hemb] at this
  exact this l (mem_outf_produced _ l hl)

theorem roundtrip_read_back (BUFSIZ : Nat) (cfg : Config) (crypt : CryptState) (msg : List Nat)
    (cover : List (List Char)) (h8 : 8 ≤ cfg.line_length) (hT : cfg.line_length ≤ BUFSIZ - 1)
    (hfit : fits_buffer BUFSIZ cover) (hcov : clean_cover cover) (st : EmbedState)
    (hemb : embed cfg crypt msg cover = .ok st)
    (hrt : ∃ x, message_extract cfg crypt (stego_read st.enc.outf) = .ok x ∧ x.dec.outf = msg) :
    (∀ l ∈ st.enc.outf, l.length ≤ BUFSIZ - 1) ∧
    ∃ x, message_extract cfg crypt (fgets_read BUFSIZ st.enc.outf) = .ok x ∧
      x.dec.outf = msg := by
  refine ⟨embed_ok_lines_fit BUFSIZ cfg crypt msg cover hT hfit st hemb, ?_⟩
  have := message_extract_fgets_read BUFSIZ cfg cfg crypt crypt msg cover h8 hT hfit hcov
  unfold embed_lines at this
  rw [hemb] at this
  rw [show (Outcome.ok st).state = st from rfl] at this
  rw [this]
  exact hrt

/-- C1, as amended: with compression off and no password, for every
payload of bytes, every line length from 8 to `BUFSIZ - 1` and every cover
of strings of at most `BUFSIZ - 1` characters that have no NUL, LF or CR
before their trailing whitespace: whenever embedding completes, every line
written has at most `BUFSIZ - 1` characters, and `message_extract` on the
file written, read back by `fgets (buf, BUFSIZ, inf)`, returns TRUE and
outputs exactly the payload; and embedding does complete when the line
length is 9 or more (the number of line loads allowed exceeding the number
of cover lines). -/
theorem C1_plain_round_trip (BUFSIZ : Nat) (cfg : Config) (hflag : cfg.compress_flag = false)
    (h8 : 8 ≤ cfg.line_length) (hT : cfg.line_length ≤ BUFSIZ - 1)
    (crypt : CryptState) (hkey : crypt.ice_key = none)
    (msg : List Nat) (hmsg : ∀ c ∈ msg, c < 256)
    (cover : List (List Char)) (hfit : fits_buffer BUFSIZ cover) (hcov : clean_cover cover) :
    (∀ st, embed cfg crypt msg cover = .ok st →
      (∀ l ∈ st.enc.outf, l.length ≤ BUFSIZ - 1) ∧
      ∃ x, message_extract cfg crypt (fgets_read BUFSIZ st.enc.outf) = .ok x ∧
        x.dec.outf = msg) ∧
    (9 ≤ cfg.line_length → cover.length < cfg.fuel →
      ∃ st, embed cfg crypt msg cover = .ok st) := by
  have _ := hkey
  exact ⟨fun st hemb => roundtrip_read_back BUFSIZ cfg crypt msg cover h8 hT hfit hcov st hemb
      (roundtrip_uncompressed cfg hflag crypt msg hmsg cover hcov st hemb),
    fun h9 hfuel => embed_completes cfg h9 crypt msg hmsg cover hfuel
      (fun h => by rw [hflag] at h; cases h)⟩

/-- C1 as amended, for `BUFSIZ = 8192`, line length 20 and the bytes 72 and
105 on the sample cover. -/
theorem C1_plain_round_trip_witness :
    (∀ l ∈ (embed (plain_config 20 10) no_key [72, 105] sample_cover).state.enc.outf,
      l.length ≤ 8192 - 1) ∧
    ∃ x, message_extract (plain_config 20 10) no_key
        (fgets_read 8192
          (embed (plain_config 20 10) no_key [72, 105] sample_cover).state.enc.outf)
          = .ok x ∧ x.dec.outf = [72, 105] :=
  (C1_plain_round_trip 8192 (plain_config 20 10) rfl (by decide) (by decide) no_key rfl
    [72, 105] (by decide) sample_cover fits_sample_cover clean_sample_cover).1 _ (by rfl)

/-- C1 fails as stated: for the one-line cover `a CR b` embedding the byte
72 at line length 80 completes, and `message_extract` on the file written,
read back by `fgets (buf, 8192, inf)`, returns TRUE with no output byte, its
line scan stopping at the CR. -/
theorem C1_counterexample :
    (embed (plain_config 80 10) no_key [72] cr_cover).isOk = true ∧
    (message_extract (plain_config 80 10) no_key
      (fgets_read 8192 (embed_lines (plain_config 80 10) no_key [72] cr_cover))).isOk
        = true ∧
    (message_extract (plain_config 80 10) no_key
      (fgets_read 8192
        (embed_lines (plain_config 80 10) no_key [72] cr_cover))).state.dec.outf = [] := by
  decide

/-- C2, as amended: with compression off, for every block function `E`
standing for `ice_key_encrypt` under the key, every initial feedback
register, every payload of bytes, every line length from 8 to `BUFSIZ - 1`
and every cover of strings of at most `BUFSIZ - 1` characters that have no
NUL, LF or CR before their trailing whitespace: whenever embedding under
the key completes, every line written has at most `BUFSIZ - 1` characters,
and `message_extract` with the same key and register on the file written,
read back by `fgets (buf, BUFSIZ, inf)`, returns TRUE and outputs exactly
the payload; and embedding does complete when the line length is 9 or
more. -/
theorem C2_key_round_trip (BUFSIZ : Nat) (cfg : Config) (hflag : cfg.compress_flag = false)
    (h8 : 8 ≤ cfg.line_length) (hT : cfg.line_length ≤ BUFSIZ - 1)
    (E : List Nat → List Nat) (iv : List Nat)
    (msg : List Nat) (hmsg : ∀ c ∈ msg, c < 256)
    (cover : List (List Char)) (hfit : fits_buffer BUFSIZ cover) (hcov : clean_cover cover) :
    (∀ st, embed cfg { ice_key := some E, encrypt_iv_block := iv } msg cover = .ok st →
      (∀ l ∈ st.enc.outf, l.length ≤ BUFSIZ - 1) ∧
      ∃ x, message_extract cfg { ice_key := some E, encrypt_iv_block := iv }
        (fgets_read BUFSIZ st.enc.outf) = .ok x ∧ x.dec.outf = msg) ∧
    (9 ≤ cfg.line_length → cover.length < cfg.fuel →
      ∃ st, embed cfg { ice_key := some E, encrypt_iv_block := iv } msg cover = .ok st) :=
  ⟨fun st hemb => roundtrip_read_back BUFSIZ cfg _ msg cover h8 hT hfit hcov st hemb
      (roundtrip_uncompressed cfg hflag _ msg hmsg cover hcov st hemb),
    fun h9 hfuel => embed_completes cfg h9 _ msg hmsg cover hfuel
      (fun h => by rw [hflag] at h; cases h)⟩

/-- C2 as amended, for `BUFSIZ = 8192`, line length 20 and the bytes 72 and
105 on the sample cover under the sample key. -/
theorem C2_key_round_trip_witness :
    (∀ l ∈ (embed (plain_config 20 10)
        { ice_key := some sample_block, encrypt_iv_block := [1, 2, 3, 4, 5, 6, 7, 8] }
        [72, 105] sample_cover).state.enc.outf, l.length ≤ 8192 - 1) ∧
    ∃ x, message_extract (plain_config 20 10)
        { ice_key := some sample_block, encrypt_iv_block := [1, 2, 3, 4, 5, 6, 7, 8] }
        (fgets_read 8192 (embed (plain_config 20 10)
          { ice_key := some sample_block, encrypt_iv_block := [1, 2, 3, 4, 5, 6, 7, 8] }
          [72, 105] sample_cover).state.enc.outf)
          = .ok x ∧ x.dec.outf = [72, 105] :=
  (C2_key_round_trip 8192 (plain_config 20 10) rfl (by decide) (by decide) sample_block
    [1, 2, 3, 4, 5, 6, 7, 8] [72, 105] (by decide) sample_cover fits_sample_cover
    clean_sample_cover).1 _ (by rfl)

/-- C2 fails as stated: under a key, for the one-line cover `a CR b`
embedding the bytes 72 and 105 at line length 80 completes, and
`message_extract` with the same key on the file written, read back by
`fgets (buf, 8192, inf)`, returns TRUE with no output byte. -/
theorem C2_counterexample :
    (embed (plain_config 80 10) sample_key [72, 105] cr_cover).isOk = true ∧
    (message_extract (plain_config 80 10) sample_key
      (fgets_read 8192
        (embed_lines (plain_config 80 10) sample_key [72, 105] cr_cover))).isOk = true ∧
    (message_extract (plain_config 80 10) sample_key
      (fgets_read 8192 (embed_lines (plain_config 80 10) sample_key [72, 105]
        cr_cover))).state.dec.outf = [] := by
  decide

/-- C3, as amended: with compression on on both sides and no password, for
every table of non-empty code words of `0` and `1`, none the beginning of
another, none longer than 255 characters and none equal to `0` or `00`,
every payload of bytes, every line length from 8 to `BUFSIZ - 1` and every
cover of strings of at most `BUFSIZ - 1` characters that have no NUL, LF or
CR before their trailing whitespace: whenever embedding completes, every
line written has at most `BUFSIZ - 1` characters, and `message_extract` on
the file written, read back by `fgets (buf, BUFSIZ, inf)`, returns TRUE and
outputs exactly the payload; and embedding does complete when the line
length is 9 or more. -/
theorem C3_compressed_round_trip (BUFSIZ : Nat) (cfg : Config)
    (hflag : cfg.compress_flag = true)
    (h8 : 8 ≤ cfg.line_length) (hT : cfg.line_length ≤ BUFSIZ - 1)
    (crypt : CryptState) (hkey : crypt.ice_key = none)
    (h01 : binary_words cfg.huffcodes) (hne : ∀ i, i < 256 → cfg.huffcodes i ≠ [])
    (hpf : no_word_begins_another cfg.huffcodes)
    (hlen : ∀ i, i < 256 → (cfg.huffcodes i).length ≤ 255)
    (hpad : ∀ i, i < 256 → cfg.huffcodes i ≠ ['0'] ∧ cfg.huffcodes i ≠ ['0', '0'])
    (msg : List Nat) (hmsg : ∀ c ∈ msg, c < 256)
    (cover : List (List Char)) (hfit : fits_buffer BUFSIZ cover) (hcov : clean_cover cover) :
    (∀ st, embed cfg crypt msg cover = .ok st →
      (∀ l ∈ st.enc.outf, l.length ≤ BUFSIZ - 1) ∧
      ∃ x, message_extract cfg crypt (fgets_read BUFSIZ st.enc.outf) = .ok x ∧
        x.dec.outf = msg) ∧
    (9 ≤ cfg.line_length → cover.length < cfg.fuel →
      ∃ st, embed cfg crypt msg cover = .ok st) :=
  ⟨fun st hemb => roundtrip_read_back BUFSIZ cfg crypt msg cover h8 hT hfit hcov st hemb
      (roundtrip_compressed cfg hflag crypt hkey h01 hne hpf hlen hpad msg hmsg
        cover hcov st hemb),
    fun h9 hfuel => embed_completes cfg h9 crypt msg hmsg cover hfuel (fun _ => h01)⟩

/-- C3 as amended, for `BUFSIZ = 8192`, line length 20 and the bytes 72 and
105 on the sample cover under the table of eight-bit words. -/
theorem C3_compressed_round_trip_witness :
    (∀ l ∈ (embed (compress_config byte_table 20 10) no_key [72, 105]
        sample_cover).state.enc.outf, l.length ≤ 8192 - 1) ∧
    ∃ x, message_extract (compress_config byte_table 20 10) no_key
        (fgets_read 8192 (embed (compress_config byte_table 20 10) no_key [72, 105]
          sample_cover).state.enc.outf) = .ok x ∧ x.dec.outf = [72, 105] :=
  (C3_compressed_round_trip 8192 (compress_config byte_table 20 10) rfl (by decide)
    (by decide) no_key rfl
    byte_table_binary byte_table_nonempty byte_table_separate byte_table_short
    byte_table_no_padding [72, 105] (by decide) sample_cover fits_sample_cover
    clean_sample_cover).1 _ (by rfl)

/-- C3 fails as stated: the table with code word `0` for byte 0 and a `1`
followed by its eight bits for every other byte consists of non-empty words
of `0` and `1`, none the beginning of another; embedding the single byte 0
at line length 20 completes, and `message_extract` on the file written,
read back by `fgets (buf, 8192, inf)`, returns TRUE with the three bytes 0,
0, 0: each of the two padding bits is read as one more code word.  And
under the table of eight-bit words, for the one-line cover `a CR b`, the
byte 72 is embedded and no byte is extracted. -/
theorem C3_counterexample :
    (binary_words short_zero_table ∧ (∀ i, i < 256 → short_zero_table i ≠ []) ∧
     no_word_begins_another short_zero_table ∧ clean_cover sample_cover ∧
     (embed (compress_config short_zero_table 20 10) no_key [0] sample_cover).isOk = true ∧
     (message_extract (compress_config short_zero_table 20 10) no_key
       (fgets_read 8192 (embed_lines (compress_config short_zero_table 20 10) no_key [0]
         sample_cover))).isOk = true ∧
     (message_extract (compress_config short_zero_table 20 10) no_key
       (fgets_read 8192 (embed_lines (compress_config short_zero_table 20 10) no_key [0]
         sample_cover))).state.dec.outf = [0, 0, 0]) ∧
    (binary_words byte_table ∧ (∀ i, i < 256 → byte_table i ≠ []) ∧
     no_word_begins_another byte_table ∧
     (embed (compress_config byte_table 80 10) no_key [72] cr_cover).isOk = true ∧
     (message_extract (compress_config byte_table 80 10) no_key
       (fgets_read 8192 (embed_lines (compress_config byte_table 80 10) no_key [72]
         cr_cover))).isOk = true ∧
     (message_extract (compress_config byte_table 80 10) no_key
       (fgets_read 8192 (embed_lines (compress_config byte_table 80 10) no_key [72]
         cr_cover))).state.dec.outf = []) :=
  ⟨⟨short_zero_table_binary, short_zero_table_nonempty, short_zero_table_separate,
    clean_sample_cover, by decide, by decide, by decide⟩,
   ⟨byte_table_binary, byte_table_nonempty, byte_table_separate,
    by decide, by decide, by decide⟩⟩

/-- Beyond `BUFSIZ - 1`.  For `BUFSIZ = 8192` and line length 8300 the cover
string of 8191 characters `x` has room for the start tab; embedding the
byte 72 returns TRUE and writes one line of 8199 characters, the cover
string followed by the start tab and the groups `2, 2, 0`.  In
`encode_buffer`, an array of 8192 characters, the start tab is stored at
index 8191 and everything after it, from its NUL at index 8192 on, lies
beyond the array. -/
theorem full_cover_overrun :
    (embed (plain_config 8300 10) no_key [72] full_cover).isOk = true ∧
    (embed_lines (plain_config 8300 10) no_key [72] full_cover).map List.length = [8199] ∧
    (embed_lines (plain_config 8300 10) no_key [72] full_cover).map (List.drop 8191)
      = [['\t', ' ', ' ', '\t', ' ', ' ', '\t', '\t']] := by
  decide!

theorem whitespace_confined (cfg : Config) (crypt : CryptState) (msg : List Nat)
    (cover : List (List Char)) :
    (∀ i l, (embed_lines cfg crypt msg cover)[i]? = some l →
      (∀ hi : i < cover.length, l.rdropWhile is_blank = ws_strip cover[i]) ∧
      (cover.length ≤ i → ∀ c ∈ l, c = ' ' ∨ c = '\t')) ∧
    (∀ st, embed cfg crypt msg cover = .ok st →
      cover.length ≤ (embed_lines cfg crypt msg cover).length) := by
  have hL := layout_embed cfg crypt msg cover
  refine ⟨fun i l hil => ?_, fun st hst => ?_⟩
  · obtain ⟨w, hw, hlw, _⟩ := hL.1.written i l hil
    refine ⟨fun hi => ?_, fun hi c hc => ?_⟩
    · rw [hlw, rdropWhile_append_all _ _ _ hw]
      simp only [nth_base, List.getD_eq_getElem?_getD, List.getElem?_eq_getElem hi,
        Option.getD_some]
      exact rdropWhile_blank_ws_strip _
    · have hb : nth_base cover i = [] := by
        simp [nth_base, List.getD_eq_getElem?_getD, List.getElem?_eq_none hi, ws_strip_nil]
      rw [hlw, hb, List.nil_append] at hc
      have := hw c hc
      simpa [is_blank] using this
  · unfold embed_lines
    rw [hst]
    exact hL.2 st hst

/-- C5, within the buffer and beyond it.  For every `BUFSIZ`, every line
length up to `BUFSIZ - 1`, every payload and every cover of strings of at
most `BUFSIZ - 1` characters: every line the run has produced has at most
`BUFSIZ - 1` characters, so the run stays inside `encode_buffer`; every line
written is the cover line of the same index with its trailing whitespace
removed, followed by spaces and tabs only (the empty line beyond the end of
the cover); and a completed run writes at least as many lines as the cover
has.  Beyond that bound the run leaves the array: for `BUFSIZ = 8192` and
line length 8300 the byte 72 on a cover string of 8191 characters is
written as a line of 8199 characters, the cover string followed by the
start tab and seven more characters. -/
theorem C5_whitespace_confinement :
    (∀ (BUFSIZ : Nat) (cfg : Config) (crypt : CryptState) (msg : List Nat)
      (cover : List (List Char)),
      cfg.line_length ≤ BUFSIZ - 1 → fits_buffer BUFSIZ cover →
      (∀ l ∈ produced_lines (embed cfg crypt msg cover).state.enc, l.length ≤ BUFSIZ - 1) ∧
      (∀ i l, (embed_lines cfg crypt msg cover)[i]? = some l →
        (∀ hi : i < cover.length, l.rdropWhile is_blank = ws_strip cover[i]) ∧
        (cover.length ≤ i → ∀ c ∈ l, c = ' ' ∨ c = '\t')) ∧
      (∀ st, embed cfg crypt msg cover = .ok st →
        cover.length ≤ (embed_lines cfg crypt msg cover).length)) ∧
    (fits_buffer 8192 full_cover ∧ ¬ (plain_config 8300 10).line_length ≤ 8192 - 1 ∧
      (embed (plain_config 8300 10) no_key [72] full_cover).isOk = true ∧
      (embed_lines (plain_config 8300 10) no_key [72] full_cover).map List.length = [8199] ∧
      (embed_lines (plain_config 8300 10) no_key [72] full_cover).map (List.drop 8191)
        = [['\t', ' ', ' ', '\t', ' ', ' ', '\t', '\t']]) :=
  ⟨fun BUFSIZ cfg crypt msg cover hT hfit =>
      ⟨embed_lines_fit BUFSIZ cfg crypt msg cover hT hfit,
        (whitespace_confined cfg crypt msg cover).1, (whitespace_confined cfg crypt msg cover).2⟩,
    fits_full_cover, by decide, full_cover_overrun.1, full_cover_overrun.2.1,
    full_cover_overrun.2.2⟩

/-- C5 within the buffer, for `BUFSIZ = 8192`, line length 20 and the bytes
72 and 105 on the sample cover: the first line written is the first cover
line followed by whitespace. -/
theorem C5_whitespace_confinement_witness :
    ['T', 'h', 'e', ' ', 'c', 'a', 't', '\t', ' ', ' ', '\t', ' ', ' '].length ≤ 8192 - 1 ∧
    ['T', 'h', 'e', ' ', 'c', 'a', 't', '\t', ' ', ' ', '\t', ' ', ' '].rdropWhile is_blank
      = ws_strip ['T', 'h', 'e', ' ', 'c', 'a', 't', '\n'] :=
  ⟨by decide,
   (((C5_whitespace_confinement.1 8192 (plain_config 20 10) no_key [72, 105] sample_cover
      (by decide) fits_sample_cover).2.1 0
      ['T', 'h', 'e', ' ', 'c', 'a', 't', '\t', ' ', ' ', '\t', ' ', ' '] (by rfl)).1
      (by decide))⟩

/-- C6, as amended: for every `BUFSIZ`, every line length up to
`BUFSIZ - 1`, every payload and every cover of strings of at most
`BUFSIZ - 1` characters, every line the embedder writes has at most
`BUFSIZ - 1` characters, and either has tab-expanded display width strictly
below the line length, or is the cover line of the same index with its
trailing whitespace removed and nothing appended. -/
theorem C6_line_length_bound (BUFSIZ : Nat) (cfg : Config) (crypt : CryptState)
    (msg : List Nat) (cover : List (List Char)) (hT : cfg.line_length ≤ BUFSIZ - 1)
    (hfit : fits_buffer BUFSIZ cover) :
    ∀ i l, (embed_lines cfg crypt msg cover)[i]? = some l →
      l.length ≤ BUFSIZ - 1 ∧
      (display_width l < cfg.line_length ∨ l = ws_strip (cover.getD i [])) := by
  intro i l hil
  obtain ⟨w, hw1, hlw, hw⟩ := (layout_embed cfg crypt msg cover).1.written i l hil
  refine ⟨line_ok_fits BUFSIZ cfg.line_length _ l hT (nth_base_fits BUFSIZ cover hfit i)
    ⟨w, hw1, hlw, hw⟩, ?_⟩
  rcases hw with hw | hw
  · right; rw [hlw, hw, List.append_nil]; rfl
  · left; exact hw

/-- C6 as amended, for `BUFSIZ = 8192`, line length 20 and the bytes 72 and
105 on the sample cover, at the first line written. -/
theorem C6_line_length_bound_witness :
    ['T', 'h', 'e', ' ', 'c', 'a', 't', '\t', ' ', ' ', '\t', ' ', ' '].length ≤ 8192 - 1 ∧
    (display_width ['T', 'h', 'e', ' ', 'c', 'a', 't', '\t', ' ', ' ', '\t', ' ', ' ']
        < (plain_config 20 10).line_length ∨
      ['T', 'h', 'e', ' ', 'c', 'a', 't', '\t', ' ', ' ', '\t', ' ', ' '] =
        ws_strip (sample_cover.getD 0 [])) :=
  C6_line_length_bound 8192 (plain_config 20 10) no_key [72, 105] sample_cover (by decide)
    fits_sample_cover 0
    ['T', 'h', 'e', ' ', 'c', 'a', 't', '\t', ' ', ' ', '\t', ' ', ' '] (by rfl)

/-- C15, amended: for every `BUFSIZ`, every line length up to `BUFSIZ - 1`,
every payload and every cover of strings of at most `BUFSIZ - 1`
characters: every line written has at most `BUFSIZ - 1` characters and is
the stripped cover line followed by its trailing run of spaces and tabs;
every trailing run is made of groups of at most 7 spaces, each but possibly
the last closed by a tab; and the first line that has a trailing run begins
it with the start tab, so that its run has the form
`TAB (SPACE{0..7} TAB)* [SPACE{1..7}]`.  The start tab is written once per
run, not once per line. -/
theorem C15_start_tab_once (BUFSIZ : Nat) (cfg : Config) (crypt : CryptState)
    (msg : List Nat) (cover : List (List Char)) (hT : cfg.line_length ≤ BUFSIZ - 1)
    (hfit : fits_buffer BUFSIZ cover) :
    (∀ (i : Nat) (l : List Char), (embed_lines cfg crypt msg cover)[i]? = some l →
      l.length ≤ BUFSIZ - 1 ∧
      l = nth_base cover i ++ trailing_run l ∧ groups_form (trailing_run l)) ∧
    (∀ (k : Nat) (l : List Char), (embed_lines cfg crypt msg cover)[k]? = some l →
      trailing_run l ≠ [] →
      (∀ (j : Nat) (l1 : List Char), j < k →
        (embed_lines cfg crypt msg cover)[j]? = some l1 → trailing_run l1 = []) →
      sentinel_form (trailing_run l)) := by
  have hS := sentinel_embed cfg crypt msg cover
  have hL := (layout_embed cfg crypt msg cover).1
  have hF := embed_lines_fit BUFSIZ cfg crypt msg cover hT hfit
  unfold embed_lines
  generalize (embed cfg crypt msg cover).state.enc = s at hS hL hF
  have hsub : ∀ (i : Nat) (l : List Char), s.outf[i]? = some l →
      (produced_lines s)[i]? = some l := by
    intro i l hi
    have hlt : i < s.outf.length := by
      by_contra hc
      rw [List.getElem?_eq_none (by omega)] at hi
      cases hi
    unfold produced_lines
    rw [List.getElem?_append_left hlt]
    exact hi
  constructor
  · intro i l hi
    exact ⟨hF l (List.getElem?_mem (hsub i l hi)),
      trailing_run_written _ _ l (trailing_run_ws_strip _) (hL.written i l hi),
      hS.formed l (List.getElem?_mem (hsub i l hi))⟩
  · intro k l hk hne hprev
    have hg := hS.formed l (List.getElem?_mem (hsub k l hk))
    apply sentinel_form_of_head _ hg
    cases hf : s.encode_first_tab
    · exact absurd (hS.before hf l (List.getElem?_mem (hsub k l hk))) hne
    · obtain ⟨k0, l0, hk0, hh0, hj0⟩ := hS.after hf
      have hklt : k < s.outf.length := by
        by_contra hc
        rw [List.getElem?_eq_none (by omega)] at hk
        cases hk
      rcases Nat.lt_trichotomy k k0 with h1 | h1 | h1
      · exact absurd (hj0 k l h1 (hsub k l hk)) hne
      · subst h1
        rw [hsub k l hk] at hk0
        simp only [Option.some.injEq] at hk0
        rw [hk0]
        exact hh0
      · have hk0o : s.outf[k0]? = some l0 := by
          unfold produced_lines at hk0
          rw [List.getElem?_append_left (by omega)] at hk0
          exact hk0
        rw [hprev k0 l0 h1 hk0o] at hh0
        cases hh0

/-- C15 amended, for `BUFSIZ = 8192` at the embedding of the
counterexample: the first line is the cover line `a` followed by its run,
which is made of groups. -/
theorem C15_start_tab_once_witness :
    ['a', '\t', ' ', ' ', ' ', ' ', ' ', ' ', ' '].length ≤ 8192 - 1 ∧
    ['a', '\t', ' ', ' ', ' ', ' ', ' ', ' ', ' ']
        = nth_base [['a'], ['b']] 0 ++ trailing_run ['a', '\t', ' ', ' ', ' ', ' ', ' ', ' ', ' '] ∧
      groups_form (trailing_run ['a', '\t', ' ', ' ', ' ', ' ', ' ', ' ', ' ']) :=
  (C15_start_tab_once 8192 (plain_config 16 10) no_key [254] [['a'], ['b']] (by decide)
    (by unfold fits_buffer; decide)).1 0
    ['a', '\t', ' ', ' ', ' ', ' ', ' ', ' ', ' '] (by decide)

theorem load_counts_extra (s : EncodeState) :
    (s.inf = [] →
      (encode_buffer_load s).encode_lines_extra = s.encode_lines_extra + 1 ∧
      (encode_buffer_load s).encode_buffer = []) ∧
    (s.inf ≠ [] → (encode_buffer_load s).encode_lines_extra = s.encode_lines_extra) := by
  obtain ⟨hnone, hsome⟩ := encode_buffer_load_extra s
  constructor
  · intro h
    have hw : wsgets s.inf = none := by rw [h]; rfl
    exact ⟨(hnone hw).1, (hnone hw).2.1⟩
  · intro h
    cases hinf : s.inf with
    | nil => exact absurd hinf h
    | cons l rest =>
      have hw : wsgets s.inf = some (ws_strip l, rest) := by rw [hinf]; rfl
      exact (hsome _ hw).1

/-- C23, within the buffer and beyond it.  For every `BUFSIZ`, every line
length up to `BUFSIZ - 1`, every payload and every cover of strings of at
most `BUFSIZ - 1` characters: every line the run has produced has at most
`BUFSIZ - 1` characters, so the run stays inside `encode_buffer`; when the
run completes, the number of lines written is the number of cover lines
plus `encode_lines_extra`; in the state the run ends in,
`encode_lines_extra` is the number of lines produced beyond the end of the
cover, so it is 0 as long as no more lines were produced than the cover
has.  `encode_buffer_load` adds 1 to it and loads the empty line exactly
when no cover line is left, and leaves it alone otherwise.  Beyond that
bound the run leaves the array: for `BUFSIZ = 8192` and line length 8300
the byte 72 on a cover string of 8191 characters is written as one line of
8199 characters. -/
theorem C23_extra_line_accounting :
    (∀ (BUFSIZ : Nat) (cfg : Config) (crypt : CryptState) (msg : List Nat)
      (cover : List (List Char)),
      cfg.line_length ≤ BUFSIZ - 1 → fits_buffer BUFSIZ cover →
      (∀ l ∈ produced_lines (embed cfg crypt msg cover).state.enc, l.length ≤ BUFSIZ - 1) ∧
      (∀ t, embed cfg crypt msg cover = .ok t →
        t.enc.outf.length = cover.length + t.enc.encode_lines_extra) ∧
      ((embed cfg crypt msg cover).state.enc.encode_lines_extra
        = (produced_lines (embed cfg crypt msg cover).state.enc).length - cover.length) ∧
      ((produced_lines (embed cfg crypt msg cover).state.enc).length ≤ cover.length →
        (embed cfg crypt msg cover).state.enc.encode_lines_extra = 0)) ∧
    (∀ s : EncodeState,
      (s.inf = [] →
        (encode_buffer_load s).encode_lines_extra = s.encode_lines_extra + 1 ∧
        (encode_buffer_load s).encode_buffer = []) ∧
      (s.inf ≠ [] → (encode_buffer_load s).encode_lines_extra = s.encode_lines_extra)) ∧
    (fits_buffer 8192 full_cover ∧ ¬ (plain_config 8300 10).line_length ≤ 8192 - 1 ∧
      (embed (plain_config 8300 10) no_key [72] full_cover).isOk = true ∧
      (embed_lines (plain_config 8300 10) no_key [72] full_cover).map List.length = [8199]) :=
  ⟨fun BUFSIZ cfg crypt msg cover hT hfit =>
      ⟨embed_lines_fit BUFSIZ cfg crypt msg cover hT hfit,
        fun t ht => embed_ok_line_count cfg crypt msg cover t ht,
        (accounting_embed cfg crypt msg cover).extra,
        fun hle => by rw [(accounting_embed cfg crypt msg cover).extra]; omega⟩,
    load_counts_extra,
    fits_full_cover, by decide, full_cover_overrun.1, full_cover_overrun.2.1⟩

/-- C23 within the buffer, for `BUFSIZ = 8192` at line length 16 for the
byte 254 on a cover of two lines: three lines are written and one of them
is extra. -/
theorem C23_extra_line_accounting_witness :
    (embed (plain_config 16 10) no_key [254] [['a'], ['b']]).state.enc.outf.length
      = ([['a'], ['b']] : List (List Char)).length
        + (embed (plain_config 16 10) no_key [254] [['a'], ['b']]).state.enc.encode_lines_extra ∧
    (embed (plain_config 16 10) no_key [254] [['a'], ['b']]).state.enc.encode_lines_extra = 1 :=
  ⟨(C23_extra_line_accounting.1 8192 (plain_config 16 10) no_key [254] [['a'], ['b']]
      (by decide) (by unfold fits_buffer; decide)).2.1 _ (by rfl),
    by decide⟩

theorem reads_back_sample_cover : reads_back 8192 sample_cover := by
  unfold reads_back sample_cover
  decide

theorem written_lines_read_back (BUFSIZ : Nat) (cfg : Config) (crypt : CryptState)
    (msg : List Nat) (cover : List (List Char)) (hT : cfg.line_length ≤ BUFSIZ - 1)
    (hback : reads_back BUFSIZ cover) (t : EmbedState)
    (h : embed cfg crypt msg cover = .ok t) (hx : t.enc.encode_lines_extra = 0) :
    ∀ l ∈ t.enc.outf, '\n' ∉ l ∧ l.length + 2 ≤ BUFSIZ := by
  have hlen := embed_ok_line_count cfg crypt msg cover t h
  rw [hx, Nat.add_zero] at hlen
  have hL := (layout_embed cfg crypt msg cover).1
  rw [h, Outcome.state_ok] at hL
  intro l hl
  obtain ⟨i, hi, hil⟩ := List.getElem_of_mem hl
  have hok := hL.written i l (by rw [List.getElem?_eq_getElem hi, hil])
  have hic : i < cover.length := by omega
  have hb : nth_base cover i = ws_strip cover[i] := by
    unfold nth_base
    rw [List.getD_eq_getElem?_getD, List.getElem?_eq_getElem hic]
    rfl
  obtain ⟨hb1, hb2⟩ := hback _ (List.getElem_mem hic)
  rw [hb] at hok
  refine ⟨line_ok_no_newline _ _ l (fun c hc e => hb2 (by rw [← e]; exact hc)) hok, ?_⟩
  obtain ⟨w, _, hlw, hw⟩ := hok
  rcases hw with hw | hw
  · rw [hlw, hw, List.append_nil]; exact hb1
  · have := length_le_display_width l
    omega

theorem fits_stego_read (BUFSIZ : Nat) (lines : List (List Char))
    (h : ∀ l ∈ lines, '\n' ∉ l ∧ l.length + 2 ≤ BUFSIZ) :
    fits_buffer BUFSIZ (stego_read lines) := by
  intro x hx
  unfold stego_read at hx
  obtain ⟨l, hl, rfl⟩ := List.mem_map.1 hx
  have := (h l hl).2
  rw [List.length_append, List.length_singleton]
  omega

/-- C25, as amended: for every `BUFSIZ` and every line length up to
`BUFSIZ - 1`, the embedder sees the cover only through `wsgets`: two covers
of strings of at most `BUFSIZ - 1` characters whose lines agree once
stripped give the same run (same return value, same state up to the unread
lines, which agree once stripped) and the same lines written, each of at
most `BUFSIZ - 1` characters.  Hence, when embedding `M1` at a line length
up to `BUFSIZ - 1` into a cover `C` whose stripped lines go back through
`fgets (buf, BUFSIZ, fp)` whole (no newline inside, at most `BUFSIZ - 2`
characters) has completed without an extra line, the file it wrote is read
back by `fgets` as strings of at most `BUFSIZ - 1` characters, and
embedding `M` into them writes exactly the lines that embedding `M` into
`C` writes. -/
theorem C25_re_embedding_overwrites (BUFSIZ : Nat) (cfg : Config) (crypt : CryptState)
    (M : List Nat) (hT : cfg.line_length ≤ BUFSIZ - 1) :
    (∀ C C1 : List (List Char), fits_buffer BUFSIZ C → fits_buffer BUFSIZ C1 →
      C.map ws_strip = C1.map ws_strip →
      (embed cfg crypt M C).map (fun st => { st with enc := strip_cover st.enc })
        = (embed cfg crypt M C1).map (fun st => { st with enc := strip_cover st.enc }) ∧
      embed_lines cfg crypt M C = embed_lines cfg crypt M C1 ∧
      ∀ l ∈ embed_lines cfg crypt M C, l.length ≤ BUFSIZ - 1) ∧
    (∀ (cfg1 : Config) (crypt1 : CryptState) (M1 : List Nat) (C : List (List Char))
      (t : EmbedState), cfg1.line_length ≤ BUFSIZ - 1 → fits_buffer BUFSIZ C →
      reads_back BUFSIZ C →
      embed cfg1 crypt1 M1 C = .ok t → t.enc.encode_lines_extra = 0 →
      fits_buffer BUFSIZ (fgets_read BUFSIZ t.enc.outf) ∧
      (embed cfg crypt M (fgets_read BUFSIZ t.enc.outf)).map
          (fun st => { st with enc := strip_cover st.enc })
        = (embed cfg crypt M C).map (fun st => { st with enc := strip_cover st.enc }) ∧
      embed_lines cfg crypt M (fgets_read BUFSIZ t.enc.outf) = embed_lines cfg crypt M C) := by
  have key : ∀ C C1 : List (List Char), C.map ws_strip = C1.map ws_strip →
      (embed cfg crypt M C).map (fun st => { st with enc := strip_cover st.enc })
        = (embed cfg crypt M C1).map (fun st => { st with enc := strip_cover st.enc }) ∧
      embed_lines cfg crypt M C = embed_lines cfg crypt M C1 := by
    intro C C1 h
    constructor
    · rw [← embed_stripped_cover, ← embed_stripped_cover, h]
    · rw [← embed_lines_stripped_cover cfg crypt M C, ← embed_lines_stripped_cover cfg crypt M C1,
        h]
  refine ⟨fun C C1 hC _ h => ⟨(key C C1 h).1, (key C C1 h).2, fun l hl => ?_⟩, ?_⟩
  · exact embed_lines_fit BUFSIZ cfg crypt M C hT hC l (mem_outf_produced _ l hl)
  · intro cfg1 crypt1 M1 C t hT1 _ hback ht hx
    have hw := written_lines_read_back BUFSIZ cfg1 crypt1 M1 C hT1 hback t ht hx
    rw [fgets_read_eq_stego_read BUFSIZ t.enc.outf hw]
    have hk := key _ _ (stego_read_stripped cfg1 crypt1 M1 C t ht hx)
    exact ⟨fits_stego_read BUFSIZ _ hw, hk.1, hk.2⟩

/-- C25 as amended, for `BUFSIZ = 8192` on the sample cover at line length
80: the byte 105 embedded into the stego text that holds the byte 72, read
back by `fgets`, gives the lines it gives on the cover itself. -/
theorem C25_re_embedding_overwrites_witness :
    embed_lines (plain_config 80 100) no_key [105]
        (fgets_read 8192 (embed (plain_config 80 100) no_key [72] sample_cover).state.enc.outf)
      = embed_lines (plain_config 80 100) no_key [105] sample_cover :=
  ((C25_re_embedding_overwrites 8192 (plain_config 80 100) no_key [105] (by decide)).2
    (plain_config 80 100) no_key [72] sample_cover
    (embed (plain_config 80 100) no_key [72] sample_cover).state
    (by decide) fits_sample_cover reads_back_sample_cover (by rfl) (by decide)).2.2

/-- C25 fails as stated: for `BUFSIZ = 8192` the cover `long_cover` is a
file of two lines read as three strings, the first of 8191 characters.
Embedding the byte 72 at line length 80 returns TRUE without an extra line
and writes three lines, of 8191, 80 and 10 characters.  `fgets` reads the
file written as four strings, the newline after the first line coming back
as a string of its own; embedding the byte 105 into them writes four lines,
with the data on the second, while embedding it into the cover writes three
lines, with the data on the third. -/
theorem C25_counterexample :
    fits_buffer 8192 long_cover ∧ (plain_config 80 10).line_length ≤ 8192 - 1 ∧
    (embed (plain_config 80 10) no_key [72] long_cover).isOk = true ∧
    (embed (plain_config 80 10) no_key [72] long_cover).state.enc.encode_lines_extra = 0 ∧
    (embed_lines (plain_config 80 10) no_key [72] long_cover).map List.length
      = [8191, 80, 10] ∧
    (fgets_read 8192 (embed_lines (plain_config 80 10) no_key [72] long_cover)).map List.length
      = [8191, 1, 81, 11] ∧
    (embed_lines (plain_config 80 10) no_key [105]
      (fgets_read 8192 (embed_lines (plain_config 80 10) no_key [72] long_cover))).map
        List.length = [8191, 13, 80, 2] ∧
    (embed_lines (plain_config 80 10) no_key [105] long_cover).map List.length
      = [8191, 80, 15] ∧
    embed_lines (plain_config 80 10) no_key [105]
      (fgets_read 8192 (embed_lines (plain_config 80 10) no_key [72] long_cover))
      ≠ embed_lines (plain_config 80 10) no_key [105] long_cover := by
  have h1 : (embed_lines (plain_config 80 10) no_key [105]
      (fgets_read 8192 (embed_lines (plain_config 80 10) no_key [72] long_cover))).map
        List.length = [8191, 13, 80, 2] := by decide!
  have h2 : (embed_lines (plain_config 80 10) no_key [105] long_cover).map List.length
      = [8191, 80, 15] := by decide!
  refine ⟨fits_long_cover, by decide, by decide!, by decide!, by decide!, by decide!, h1, h2, ?_⟩
  intro h
  rw [h, h2] at h1
  revert h1
  decide

theorem not_mem_replicate_x (n : Nat) : '\n' ∉ List.replicate n 'x' := by
  intro h
  have := List.eq_of_mem_replicate h
  revert this
  decide

/-- The cover `full_cover` is what `fgets (buf, 8192, fp)` returns for a
file of 8191 characters `x` without a newline, and `long_cover` what it
returns for the file of two lines, 8271 characters `x` and `yz`. -/
theorem covers_read_by_fgets :
    fgets_all 8192 1 (List.replicate 8191 'x') = full_cover ∧
    fgets_all 8192 3
      (List.replicate 8191 'x' ++ (List.replicate 80 'x' ++ '\n' :: ['y', 'z', '\n']))
      = long_cover := by
  have h1 : ∀ rest : List Char,
      fgets_chars (8192 - 1) (List.replicate 8191 'x' ++ rest)
        = (List.replicate 8191 'x', rest) := by
    intro rest
    have := fgets_chars_full (List.replicate 8191 'x') rest (not_mem_replicate_x 8191)
    rwa [List.length_replicate] at this
  have hne : ∀ rest : List Char, List.replicate 8191 'x' ++ rest ≠ [] := by
    intro rest h
    have := congrArg List.length h
    rw [List.length_append, List.length_replicate] at this
    simp at this
  constructor
  · have h0 := h1 []
    have hn0 := hne []
    rw [List.append_nil] at h0 hn0
    rw [fgets_all, if_neg hn0, h0]
    rfl
  · rw [fgets_all, if_neg (hne _), h1]
    simp only []
    have h2 : fgets_chars (8192 - 1) (List.replicate 80 'x' ++ '\n' :: ['y', 'z', '\n'])
        = (List.replicate 80 'x' ++ ['\n'], ['y', 'z', '\n']) :=
      fgets_chars_newline _ _ (not_mem_replicate_x 80) _ (by rw [List.length_replicate]; decide)
    rw [fgets_all, if_neg (by decide), h2]
    rfl

end Snow
